import Mathlib

/-!
# B-tree of fixed minimum degree (src/btree.cpp)

A shallow embedding of the classes `BTreeNode` and `BTree` and a verification of the
properties stated about them.

## Representation

A source node owns two arrays of fixed capacity (`keys`, `2t-1` slots; `C`, `2t` slots), a
count `n` and a flag `leaf`.  Only the slots `keys[0..n)` and, for an internal node,
`C[0..n]` are live.  A value `BTreeNode.mk keys C leaf` lists exactly the live slots, so the
source's `n` is `keys.length`.  The child list of a leaf is never read or written by the
source; the model carries it along untouched.

Every function of the source that mutates a node in place is a function returning the new
node.  A result `none` means that the source would, at that point, read a slot that is not
live, write past the capacity of an array, or (for the recursive functions, which carry a
fuel argument bounding the depth of the recursion) that the fuel ran out.  The theorems prove
that neither happens on well-formed trees.

The lines the source prints on `cout` in `deletion` are modelled by the list of `Msg` values
returned next to the tree.

Statements about the nodes on which the recursive functions are invoked use `deletionStep`
and `insertNonFullStep`, the bodies of `deletion` and `insertNonFull` with the recursive call
as a parameter, and `deletionChecked` and `insertNonFullChecked`, which run the same bodies
with an assertion on the node of every invocation.
-/

/-- A node of the tree: the live keys `keys[0..n)`, the live children `C[0..n]` and the
flag `leaf`. -/
inductive BTreeNode where
  | mk (keys : List Int) (C : List BTreeNode) (leaf : Bool)

mutual
/-- Decidable equality of nodes. -/
def BTreeNode.decEq : (a b : BTreeNode) → Decidable (a = b)
  | .mk k1 c1 l1, .mk k2 c2 l2 =>
    if hk : k1 = k2 then
      if hl : l1 = l2 then
        match BTreeNode.decEqList c1 c2 with
        | isTrue hc => isTrue (by rw [hk, hl, hc])
        | isFalse hc => isFalse (fun h => hc (BTreeNode.mk.inj h).2.1)
      else isFalse (fun h => hl (BTreeNode.mk.inj h).2.2)
    else isFalse (fun h => hk (BTreeNode.mk.inj h).1)
/-- Decidable equality of lists of nodes. -/
def BTreeNode.decEqList : (as bs : List BTreeNode) → Decidable (as = bs)
  | [], [] => isTrue rfl
  | [], _ :: _ => isFalse (fun h => List.noConfusion h)
  | _ :: _, [] => isFalse (fun h => List.noConfusion h)
  | a :: as, b :: bs =>
    match BTreeNode.decEq a b with
    | isTrue h1 =>
      match BTreeNode.decEqList as bs with
      | isTrue h2 => isTrue (by rw [h1, h2])
      | isFalse h2 => isFalse (fun h => h2 (List.cons.inj h).2)
    | isFalse h1 => isFalse (fun h => h1 (List.cons.inj h).1)
end

instance : DecidableEq BTreeNode := BTreeNode.decEq

/-- The two lines `deletion` can print: "The tree is empty" (in `BTree::deletion`) and
"The key k is does not exist in the tree" (in `BTreeNode::deletion`). -/
inductive Msg where
  | treeEmpty
  | keyMissing (k : Int)
deriving DecidableEq, Repr

/-- The error of the specification's taxonomy that concerns construction. -/
inductive BTreeError where
  | invalidConfiguration
deriving DecidableEq, Repr

/-- The class `BTree`: the root pointer (`none` is `NULL`) and the minimum degree `t`
(an `int` in the source). -/
structure BTree where
  root : Option BTreeNode
  t : Int
deriving DecidableEq

namespace BTreeNode

/-- Field `keys` (live part). -/
def keys : BTreeNode → List Int
  | mk ks _ _ => ks

/-- Field `C` (live part). -/
def C : BTreeNode → List BTreeNode
  | mk _ cs _ => cs

/-- Field `leaf`. -/
def leaf : BTreeNode → Bool
  | mk _ _ l => l

/-- Field `n`, the number of live keys. -/
def n (node : BTreeNode) : Nat := node.keys.length

/-- The assignment made by `C[j]->f(...)` when `f` mutates the child in place: child `j`
is replaced by its new value. -/
def setChild (node : BTreeNode) (j : Nat) (c : BTreeNode) : BTreeNode :=
  mk node.keys (node.C.set j c) node.leaf

mutual
/-- `BTreeNode::traverse`: the keys in the order in which they are printed. -/
def traverse : BTreeNode → List Int
  | mk ks cs l => if l then ks else traverseC cs ks
/-- The loop of `traverse` over an internal node: child, key, child, ..., last child.
(An internal node of the source always has `n + 1` live children; on a value with fewer the
remaining keys are listed.) -/
def traverseC : List BTreeNode → List Int → List Int
  | [], ks => ks
  | c :: _, [] => traverse c
  | c :: cs, k :: ks => traverse c ++ k :: traverseC cs ks
end

mutual
/-- The number of levels below a node on its longest branch (0 for a leaf). -/
def depth : BTreeNode → Nat
  | mk _ cs l => if l then 0 else depthC cs + 1
/-- The largest `depth` among a list of children. -/
def depthC : List BTreeNode → Nat
  | [] => 0
  | c :: cs => max (depth c) (depthC cs)
end

mutual
/-- The number of levels of the subtree along its first branch (1 for a leaf). -/
def height : BTreeNode → Nat
  | mk _ cs l => if l then 1 else heightC cs + 1
/-- The `height` of the first child of a list of children. -/
def heightC : List BTreeNode → Nat
  | [] => 0
  | c :: _ => height c
end

mutual
/-- All keys stored in the nodes of a subtree. -/
def allKeys : BTreeNode → List Int
  | mk ks cs l => if l then ks else ks ++ allKeysC cs
/-- All keys stored in a list of subtrees. -/
def allKeysC : List BTreeNode → List Int
  | [] => []
  | c :: cs => allKeys c ++ allKeysC cs
end

/-- The loop of `findKey` on the remaining keys: advance while the key is `< k`. -/
def findKeyFrom : List Int → Int → Nat
  | [], _ => 0
  | x :: xs, k => if x < k then findKeyFrom xs k + 1 else 0

/-- `BTreeNode::findKey`. -/
def findKey (node : BTreeNode) (k : Int) : Nat := findKeyFrom node.keys k

/-- The downward scan of `insertNonFull`: `i = n-1; while (i >= 0 && keys[i] > k) i--`.
The result is `i + 1`. -/
def scanDown (ks : List Int) (k : Int) : Nat :=
  ks.length - (ks.reverse.takeWhile (fun x => decide (k < x))).length

/-- `BTreeNode::splitChild(i, y)` with `y = C[i]`, as at both call sites. -/
def splitChild (t : Nat) (node : BTreeNode) (i : Nat) : Option BTreeNode :=
  match node.C[i]? with
  | none => none
  | some y =>
    if y.n = 2 * t - 1 ∧ node.n < 2 * t - 1 then
      match y.keys[t - 1]? with
      | none => none
      | some med =>
        let z := mk (y.keys.drop t) (if y.leaf then [] else y.C.drop t) y.leaf
        let y1 := mk (y.keys.take (t - 1)) (if y.leaf then y.C else y.C.take t) y.leaf
        some (mk (node.keys.take i ++ med :: node.keys.drop i)
          (node.C.take i ++ y1 :: z :: node.C.drop (i + 1)) node.leaf)
    else none

/-- `BTreeNode::insertNonFull`.  `scanDown` is the index `i + 1` reached by either `while`
loop; in a leaf the keys above it are shifted up and `k` is written there. -/
def insertNonFull (t : Nat) : Nat → BTreeNode → Int → Option BTreeNode
  | 0, _, _ => none
  | fuel + 1, node, k =>
    let i := scanDown node.keys k
    if node.leaf then
      if node.n < 2 * t - 1 then
        some (mk (node.keys.take i ++ k :: node.keys.drop i) node.C node.leaf)
      else none
    else
      match node.C[i]? with
      | none => none
      | some c =>
        if c.n = 2 * t - 1 then
          match splitChild t node i with
          | none => none
          | some node1 =>
            match node1.keys[i]? with
            | none => none
            | some m =>
              let j := if m < k then i + 1 else i
              match node1.C[j]? with
              | none => none
              | some cj =>
                match insertNonFull t fuel cj k with
                | none => none
                | some cj1 => some (node1.setChild j cj1)
        else
          match insertNonFull t fuel c k with
          | none => none
          | some c1 => some (node.setChild i c1)

/-- `BTreeNode::removeFromLeaf`: the keys above `idx` move one slot down and `n` is
decremented.  It is only called with `idx < n` (the test `idx < n && keys[idx] == k`). -/
def removeFromLeaf (node : BTreeNode) (idx : Nat) : BTreeNode :=
  mk (node.keys.eraseIdx idx) node.C node.leaf

mutual
/-- The loop of `getPredecessor` started at `cur`: go to the last child until a leaf is
reached, return its last key. -/
def predFrom : BTreeNode → Option Int
  | mk ks cs l => if l then ks.getLast? else predAt cs ks.length
/-- The step `cur = C[i]` followed by the loop of `getPredecessor`. -/
def predAt : List BTreeNode → Nat → Option Int
  | [], _ => none
  | c :: _, 0 => predFrom c
  | _ :: cs, i + 1 => predAt cs i
end

mutual
/-- The loop of `getSuccessor` started at `cur`: go to the first child until a leaf is
reached, return its first key. -/
def succFrom : BTreeNode → Option Int
  | mk ks cs l => if l then ks.head? else succAt cs 0
/-- The step `cur = C[i]` followed by the loop of `getSuccessor`. -/
def succAt : List BTreeNode → Nat → Option Int
  | [], _ => none
  | c :: _, 0 => succFrom c
  | _ :: cs, i + 1 => succAt cs i
end

/-- `BTreeNode::getPredecessor`. -/
def getPredecessor (node : BTreeNode) (idx : Nat) : Option Int := predAt node.C idx

/-- `BTreeNode::getSuccessor`. -/
def getSuccessor (node : BTreeNode) (idx : Nat) : Option Int := succAt node.C (idx + 1)

/-- `BTreeNode::borrowFromPrev`: the separator `keys[idx-1]` goes to the front of the
child, the last key of the sibling replaces it, and for an internal child the last child of
the sibling moves over as well. -/
def borrowFromPrev (t : Nat) (node : BTreeNode) (idx : Nat) : Option BTreeNode :=
  if idx = 0 then none else
  match node.C[idx]?, node.C[idx - 1]?, node.keys[idx - 1]? with
  | some child, some sibling, some sep =>
    if child.n < 2 * t - 1 then
      match sibling.keys.getLast?,
        (if child.leaf then some child.C
         else (sibling.C[sibling.n]?).map (fun sc => sc :: child.C)) with
      | some up, some childC =>
        let child1 := mk (sep :: child.keys) childC child.leaf
        let sibling1 := mk sibling.keys.dropLast
          (if sibling.leaf then sibling.C else sibling.C.dropLast) sibling.leaf
        some (mk (node.keys.set (idx - 1) up)
          ((node.C.set idx child1).set (idx - 1) sibling1) node.leaf)
      | _, _ => none
    else none
  | _, _, _ => none

/-- `BTreeNode::borrowFromNext`: the separator `keys[idx]` goes to the end of the child,
the first key of the sibling replaces it, and for an internal child the first child of the
sibling moves over as well. -/
def borrowFromNext (t : Nat) (node : BTreeNode) (idx : Nat) : Option BTreeNode :=
  match node.C[idx]?, node.C[idx + 1]?, node.keys[idx]? with
  | some child, some sibling, some sep =>
    if child.n < 2 * t - 1 then
      match sibling.keys.head?,
        (if child.leaf then some child.C
         else (sibling.C[0]?).map (fun sc => child.C ++ [sc])) with
      | some up, some childC =>
        let child1 := mk (child.keys ++ [sep]) childC child.leaf
        let sibling1 := mk sibling.keys.tail
          (if sibling.leaf then sibling.C else sibling.C.tail) sibling.leaf
        some (mk (node.keys.set idx up)
          ((node.C.set idx child1).set (idx + 1) sibling1) node.leaf)
      | _, _ => none
    else none
  | _, _, _ => none

/-- `BTreeNode::merge`.  The source writes the separating key to slot `t-1` of the child and
the sibling's keys from slot `t` on, so the child must hold exactly `t-1` keys and the
sibling at most `t-1`. -/
def merge (t : Nat) (node : BTreeNode) (idx : Nat) : Option BTreeNode :=
  match node.C[idx]?, node.C[idx + 1]?, node.keys[idx]? with
  | some child, some sibling, some sep =>
    if child.n = t - 1 ∧ sibling.n ≤ t - 1 then
      let child1 := mk (child.keys ++ sep :: sibling.keys)
        (if child.leaf then child.C else child.C ++ sibling.C) child.leaf
      some (mk (node.keys.eraseIdx idx) ((node.C.set idx child1).eraseIdx (idx + 1)) node.leaf)
    else none
  | _, _, _ => none

/-- `BTreeNode::fill`.  The two outer matches are the tests
`idx != 0 && C[idx-1]->n >= t` and `idx != n && C[idx+1]->n >= t`. -/
def fill (t : Nat) (node : BTreeNode) (idx : Nat) : Option BTreeNode :=
  match (if idx = 0 then some false
         else (node.C[idx - 1]?).map (fun s => decide (t ≤ s.n))) with
  | none => none
  | some true => borrowFromPrev t node idx
  | some false =>
    match (if idx = node.n then some false
           else (node.C[idx + 1]?).map (fun s => decide (t ≤ s.n))) with
    | none => none
    | some true => borrowFromNext t node idx
    | some false =>
      if idx ≠ node.n then merge t node idx
      else if idx = 0 then none
      else merge t node (idx - 1)

/-- `BTreeNode::removeFromNonLeaf`; `del` is the recursive call `deletion`. -/
def removeFromNonLeaf (t : Nat) (del : BTreeNode → Int → Option (BTreeNode × List Msg))
    (node : BTreeNode) (idx : Nat) : Option (BTreeNode × List Msg) :=
  match node.keys[idx]?, node.C[idx]? with
  | some k, some cl =>
    if t ≤ cl.n then
      match getPredecessor node idx with
      | none => none
      | some pred =>
        match del cl pred with
        | none => none
        | some (cl1, out) => some (mk (node.keys.set idx pred) (node.C.set idx cl1) node.leaf, out)
    else
      match node.C[idx + 1]? with
      | none => none
      | some cr =>
        if t ≤ cr.n then
          match getSuccessor node idx with
          | none => none
          | some succ =>
            match del cr succ with
            | none => none
            | some (cr1, out) =>
              some (mk (node.keys.set idx succ) (node.C.set (idx + 1) cr1) node.leaf, out)
        else
          match merge t node idx with
          | none => none
          | some node1 =>
            match node1.C[idx]? with
            | none => none
            | some m =>
              match del m k with
              | none => none
              | some (m1, out) => some (node1.setChild idx m1, out)
  | _, _ => none

/-- `BTreeNode::deletion`.  The second component lists what was printed.  The test
`idx < n && keys[idx] == k` is `keys[idx]? = some k`; `node1` is the node after the optional
`fill`, whose `n` is the one read by the test `flag && idx > n`. -/
def deletion (t : Nat) : Nat → BTreeNode → Int → Option (BTreeNode × List Msg)
  | 0, _, _ => none
  | fuel + 1, node, k =>
    let idx := node.findKey k
    if node.keys[idx]? = some k then
      if node.leaf then some (node.removeFromLeaf idx, [])
      else removeFromNonLeaf t (deletion t fuel) node idx
    else if node.leaf then some (node, [Msg.keyMissing k])
    else
      let flag := decide (idx = node.n)
      match node.C[idx]? with
      | none => none
      | some c =>
        match (if c.n < t then fill t node idx else some node) with
        | none => none
        | some node1 =>
          let j := if flag = true ∧ idx > node1.n then idx - 1 else idx
          match node1.C[j]? with
          | none => none
          | some cj =>
            match deletion t fuel cj k with
            | none => none
            | some (cj1, out) => some (node1.setChild j cj1, out)

end BTreeNode

namespace BTree

open BTreeNode

/-- The constructor `BTree::BTree(int _t)`: it stores `_t` and a null root.  The result type
has room for the error of the specification, which the source never raises. -/
def new (t : Int) : Except BTreeError BTree := Except.ok ⟨none, t⟩

/-- `BTree::traverse`. -/
def traverse (T : BTree) : List Int :=
  match T.root with
  | none => []
  | some r => r.traverse

/-- The number of levels of the tree; 0 for the empty tree. -/
def height (T : BTree) : Nat :=
  match T.root with
  | none => 0
  | some r => r.height

/-- `BTree::insert`.  The recursion of `insertNonFull` gets the fuel `depth + 1`, one unit
per level of the tree. -/
def insert (T : BTree) (k : Int) : Option BTree :=
  match T.root with
  | none => some ⟨some (BTreeNode.mk [k] [] true), T.t⟩
  | some r =>
    if r.n = 2 * T.t.toNat - 1 then
      match splitChild T.t.toNat (BTreeNode.mk [] [r] false) 0 with
      | none => none
      | some s =>
        match s.keys[0]? with
        | none => none
        | some m =>
          let i := if m < k then 1 else 0
          match s.C[i]? with
          | none => none
          | some c =>
            match insertNonFull T.t.toNat (r.depth + 1) c k with
            | none => none
            | some c1 => some ⟨some (s.setChild i c1), T.t⟩
    else
      match insertNonFull T.t.toNat (r.depth + 1) r k with
      | none => none
      | some r1 => some ⟨some r1, T.t⟩

/-- `BTree::deletion`.  The second component lists what was printed.  The recursion of
`BTreeNode::deletion` gets the fuel `depth + 1`, one unit per level of the tree. -/
def deletion (T : BTree) (k : Int) : Option (BTree × List Msg) :=
  match T.root with
  | none => some (T, [Msg.treeEmpty])
  | some r =>
    match BTreeNode.deletion T.t.toNat (r.depth + 1) r k with
    | none => none
    | some (r1, out) =>
      if r1.n = 0 then
        if r1.leaf then some (⟨none, T.t⟩, out)
        else
          match r1.C[0]? with
          | none => none
          | some c => some (⟨some c, T.t⟩, out)
      else some (⟨some r1, T.t⟩, out)

/-- Successive `insert` calls, as in `main`. -/
def insertAll (T : BTree) : List Int → Option BTree
  | [] => some T
  | k :: ks =>
    match insert T k with
    | none => none
    | some T1 => insertAll T1 ks

/-- The keys inserted by `main`, in order. -/
def mainKeys : List Int :=
  [2, 7, 8, 9, 4, 6, 1, 5, 3, 10, 11, 14, 16, 17, 19, 20, 21, 22, 23, 24, 25, 30]

end BTree

namespace BTreeNode

/-- Strict separation on the left: every key of the subtree `C[i]` is below `keys[i]`. -/
def SepLeft (cs : List BTreeNode) (ks : List Int) : Prop :=
  ∀ p ∈ cs.zip ks, ∀ x ∈ allKeys p.1, x < p.2

/-- Strict separation on the right: every key of the subtree `C[i+1]` is above `keys[i]`. -/
def SepRight (cs : List BTreeNode) (ks : List Int) : Prop :=
  ∀ p ∈ cs.tail.zip ks, ∀ x ∈ allKeys p.1, p.2 < x

/-- The invariants of the data model for the subtree of a node whose leaves are all exactly
`h` levels below it: keys strictly ascending in each node, strict separation of the subtrees
by the keys of their parent, an internal node with `k` keys has `k + 1` children, and every
node below this one has between `t - 1` and `2t - 1` keys. -/
def WellFormedAt (t : Nat) : Nat → BTreeNode → Prop
  | 0, node => node.leaf = true ∧ node.keys.Pairwise (· < ·)
  | h + 1, node =>
    node.leaf = false ∧ node.keys.Pairwise (· < ·) ∧ node.C.length = node.n + 1 ∧
    SepLeft node.C node.keys ∧ SepRight node.C node.keys ∧
    ∀ c ∈ node.C, t - 1 ≤ c.n ∧ c.n ≤ 2 * t - 1 ∧ WellFormedAt t h c

/-- A well-formed root: between 1 and `2t - 1` keys, and the invariants of `WellFormedAt`
with all leaves at the depth of the first one. -/
def WellFormed (t : Nat) (r : BTreeNode) : Prop :=
  1 ≤ r.n ∧ r.n ≤ 2 * t - 1 ∧ WellFormedAt t (r.height - 1) r

instance instDecidableSepLeft (cs : List BTreeNode) (ks : List Int) : Decidable (SepLeft cs ks) :=
  inferInstanceAs (Decidable (∀ p ∈ cs.zip ks, ∀ x ∈ allKeys p.1, x < p.2))

instance instDecidableSepRight (cs : List BTreeNode) (ks : List Int) :
    Decidable (SepRight cs ks) :=
  inferInstanceAs (Decidable (∀ p ∈ cs.tail.zip ks, ∀ x ∈ allKeys p.1, p.2 < x))

/-- Decision procedure for `WellFormedAt`. -/
def decWellFormedAt (t : Nat) : (h : Nat) → (node : BTreeNode) → Decidable (WellFormedAt t h node)
  | 0, node => inferInstanceAs (Decidable (node.leaf = true ∧ node.keys.Pairwise (· < ·)))
  | h + 1, node =>
    have : ∀ c, Decidable (WellFormedAt t h c) := decWellFormedAt t h
    inferInstanceAs (Decidable (
      node.leaf = false ∧ node.keys.Pairwise (· < ·) ∧ node.C.length = node.n + 1 ∧
      SepLeft node.C node.keys ∧ SepRight node.C node.keys ∧
      ∀ c ∈ node.C, t - 1 ≤ c.n ∧ c.n ≤ 2 * t - 1 ∧ WellFormedAt t h c))

instance instDecidableWellFormedAt (t h : Nat) (node : BTreeNode) :
    Decidable (WellFormedAt t h node) := decWellFormedAt t h node

instance instDecidableWellFormed (t : Nat) (r : BTreeNode) : Decidable (WellFormed t r) :=
  inferInstanceAs (Decidable (1 ≤ r.n ∧ r.n ≤ 2 * t - 1 ∧ WellFormedAt t (r.height - 1) r))

/-- A key list with every occurrence of `k` removed. -/
def removeKey (k : Int) (l : List Int) : List Int := l.filter (fun x => decide (x ≠ k))

/-- Shape of a subtree of height `h`: leaves exactly `h` levels down, `n + 1` children in
each internal node, and between `t - 1` and `2t - 1` keys in every node below the top. -/
def Bal (t : Nat) : Nat → BTreeNode → Prop
  | 0, node => node.leaf = true
  | h + 1, node =>
    node.leaf = false ∧ node.C.length = node.n + 1 ∧
    ∀ c ∈ node.C, t - 1 ≤ c.n ∧ c.n ≤ 2 * t - 1 ∧ Bal t h c

/-- No refill on the search path: below a node of height at most `h`, every child that the
search for `k` descends into holds at least `t` keys, so `deletion` never calls `fill`. -/
def noRefill (t : Nat) : Nat → BTreeNode → Int → Bool
  | 0, node, _ => node.leaf
  | h + 1, node, k =>
    if node.leaf then true
    else
      match node.C[node.findKey k]? with
      | none => false
      | some c => decide (t ≤ c.n) && noRefill t h c k

/-- What the recursive call `deletion` is assumed to do on a child of height `h` with at
least `t` keys. -/
def DelOK (t h : Nat) (del : BTreeNode → Int → Option (BTreeNode × List Msg)) : Prop :=
  ∀ (c : BTreeNode) (x : Int), Bal t h c → 1 ≤ c.n → (traverse c).Pairwise (· < ·) →
    ∃ r out, del c x = some (r, out) ∧ Bal t h r ∧ c.n ≤ r.n + 1 ∧ r.n ≤ c.n ∧
      traverse r = removeKey x (traverse c) ∧
      out = (if x ∈ traverse c then [] else [Msg.keyMissing x])

/-- The part of `traverse` printed before child `i` is entered: child, key, ..., child, key. -/
def travPre : List BTreeNode → List Int → List Int
  | c :: cs, k :: ks => traverse c ++ k :: travPre cs ks
  | _, _ => []

/-- The part of `traverse` printed after child `i` is left: key, child, ..., key, child. -/
def travPost : List Int → List BTreeNode → List Int
  | k :: ks, c :: cs => k :: (traverse c ++ travPost ks cs)
  | _, _ => []

end BTreeNode

namespace BTree

/-- All keys stored in the tree. -/
def allKeys (T : BTree) : List Int :=
  match T.root with
  | none => []
  | some r => r.allKeys

/-- A non-empty tree whose root is well-formed for the tree's minimum degree. -/
def WellFormed (T : BTree) : Prop :=
  match T.root with
  | none => False
  | some r => BTreeNode.WellFormed T.t.toNat r

instance instDecidableWellFormed (T : BTree) : Decidable (WellFormed T) :=
  match h : T.root with
  | none => isFalse (by simp [WellFormed, h])
  | some r => decidable_of_iff (BTreeNode.WellFormed T.t.toNat r) (by simp [WellFormed, h])

/-- No refill on the search path of `k` from the root (see `BTreeNode.noRefill`). -/
def noRefill (T : BTree) (k : Int) : Bool :=
  match T.root with
  | none => true
  | some r => BTreeNode.noRefill T.t.toNat r.depth r k

/-- The tree built by `main` before its call of `deletion`. -/
def mainTree : BTree :=
  ⟨some (BTreeNode.mk [11]
    [BTreeNode.mk [7]
      [BTreeNode.mk [4] [BTreeNode.mk [1, 2, 3] [] true, BTreeNode.mk [5, 6] [] true] false,
       BTreeNode.mk [9] [BTreeNode.mk [8] [] true, BTreeNode.mk [10] [] true] false] false,
     BTreeNode.mk [19]
      [BTreeNode.mk [16] [BTreeNode.mk [14] [] true, BTreeNode.mk [17] [] true] false,
       BTreeNode.mk [21, 23] [BTreeNode.mk [20] [] true, BTreeNode.mk [22] [] true,
         BTreeNode.mk [24, 25, 30] [] true] false] false] false), 2⟩

/-- A two-level tree of minimum degree 2 whose leaves all hold two keys. -/
def smallTree : BTree :=
  ⟨some (BTreeNode.mk [5]
    [BTreeNode.mk [1, 2] [] true, BTreeNode.mk [7, 8] [] true] false), 2⟩

/-- The tree left by `deletion(18)` on `mainTree`. -/
def mainTreeAfter18 : BTree :=
  ⟨some (BTreeNode.mk [7, 11, 21]
    [BTreeNode.mk [4] [BTreeNode.mk [1, 2, 3] [] true, BTreeNode.mk [5, 6] [] true] false,
     BTreeNode.mk [9] [BTreeNode.mk [8] [] true, BTreeNode.mk [10] [] true] false,
     BTreeNode.mk [16] [BTreeNode.mk [14] [] true, BTreeNode.mk [17, 19, 20] [] true] false,
     BTreeNode.mk [23] [BTreeNode.mk [22] [] true, BTreeNode.mk [24, 25, 30] [] true] false]
    false), 2⟩

end BTree

namespace BTreeNode

/-- The lines of `BTreeNode::deletion` between the test for a leaf and the recursive call:
`flag = (idx == n)`, the optional `fill(idx)`, and the choice between `C[idx - 1]` and
`C[idx]`.  The result is the node after the optional `fill` and the index of the child on
which `deletion` is then called. -/
def descent (t : Nat) (node : BTreeNode) (k : Int) : Option (BTreeNode × Nat) :=
  let idx := node.findKey k
  let flag := decide (idx = node.n)
  match node.C[idx]? with
  | none => none
  | some c =>
    match (if c.n < t then fill t node idx else some node) with
    | none => none
    | some node1 => some (node1, if flag = true ∧ idx > node1.n then idx - 1 else idx)

/-- The body of `BTreeNode::deletion`, with every recursive call `c->deletion(x)` made
through `del`. -/
def deletionStep (t : Nat) (del : BTreeNode → Int → Option (BTreeNode × List Msg))
    (node : BTreeNode) (k : Int) : Option (BTreeNode × List Msg) :=
  let idx := node.findKey k
  if node.keys[idx]? = some k then
    if node.leaf then some (node.removeFromLeaf idx, [])
    else removeFromNonLeaf t del node idx
  else if node.leaf then some (node, [Msg.keyMissing k])
  else
    let flag := decide (idx = node.n)
    match node.C[idx]? with
    | none => none
    | some c =>
      match (if c.n < t then fill t node idx else some node) with
      | none => none
      | some node1 =>
        let j := if flag = true ∧ idx > node1.n then idx - 1 else idx
        match node1.C[j]? with
        | none => none
        | some cj =>
          match del cj k with
          | none => none
          | some (cj1, out) => some (node1.setChild j cj1, out)

/-- `BTreeNode::deletion` with the assertion `c->n >= t` in front of every recursive call
`c->deletion(x)`: the result is `none` as soon as `deletion` is invoked on a child with
fewer than `t` keys. -/
def deletionChecked (t : Nat) : Nat → BTreeNode → Int → Option (BTreeNode × List Msg)
  | 0, _, _ => none
  | fuel + 1, node, k =>
    deletionStep t (fun c x => if t ≤ c.n then deletionChecked t fuel c x else none) node k

/-- The body of `BTreeNode::insertNonFull`, with the recursive call
`C[i + 1]->insertNonFull(k)` made through `ins`. -/
def insertNonFullStep (t : Nat) (ins : BTreeNode → Int → Option BTreeNode)
    (node : BTreeNode) (k : Int) : Option BTreeNode :=
  let i := scanDown node.keys k
  if node.leaf then
    if node.n < 2 * t - 1 then
      some (mk (node.keys.take i ++ k :: node.keys.drop i) node.C node.leaf)
    else none
  else
    match node.C[i]? with
    | none => none
    | some c =>
      if c.n = 2 * t - 1 then
        match splitChild t node i with
        | none => none
        | some node1 =>
          match node1.keys[i]? with
          | none => none
          | some m =>
            let j := if m < k then i + 1 else i
            match node1.C[j]? with
            | none => none
            | some cj =>
              match ins cj k with
              | none => none
              | some cj1 => some (node1.setChild j cj1)
      else
        match ins c k with
        | none => none
        | some c1 => some (node.setChild i c1)

/-- `BTreeNode::insertNonFull` with the assertion `n < 2t - 1` at its entry: the result is
`none` as soon as `insertNonFull` is invoked on a full node. -/
def insertNonFullChecked (t : Nat) : Nat → BTreeNode → Int → Option BTreeNode
  | 0, _, _ => none
  | fuel + 1, node, k =>
    if node.n < 2 * t - 1 then insertNonFullStep t (insertNonFullChecked t fuel) node k
    else none

mutual
/-- Capacity of the arrays: at most `2t - 1` keys in every node of the subtree and at most
`2t` children in every internal node. -/
def withinCapacity (t : Nat) : BTreeNode → Bool
  | mk ks cs l =>
    decide (ks.length ≤ 2 * t - 1) &&
      (l || (decide (cs.length ≤ 2 * t) && withinCapacityC t cs))
/-- Capacity of every subtree of a list of children. -/
def withinCapacityC (t : Nat) : List BTreeNode → Bool
  | [] => true
  | c :: cs => withinCapacity t c && withinCapacityC t cs
end

/-- A root with one key over two leaves with one key each (`t = 2`). -/
def thinNode : BTreeNode :=
  mk [5] [mk [1] [] true, mk [8] [] true] false

/-- A root with one key over a full leaf and a leaf with one key (`t = 2`). -/
def fullLeftNode : BTreeNode :=
  mk [10] [mk [1, 2, 3] [] true, mk [20] [] true] false

/-- A root with one key over a leaf with two keys and a leaf with one key (`t = 2`). -/
def richLeftNode : BTreeNode :=
  mk [5] [mk [1, 2] [] true, mk [8] [] true] false

/-- A root with one key over a leaf with one key and a leaf with two keys (`t = 2`). -/
def richRightNode : BTreeNode :=
  mk [5] [mk [1] [] true, mk [7, 8] [] true] false

/-- A malformed node for `t = 3`: its last child holds one key, fewer than `t - 1`. -/
def underfullNode : BTreeNode :=
  mk [10] [mk [1, 2, 3] [] true, mk [20] [] true] false

/-- A full internal node for `t = 2` over four leaves with one key each. -/
def fullInternalNode : BTreeNode :=
  mk [10, 20, 30] [mk [5] [] true, mk [15] [] true, mk [25] [] true, mk [35] [] true] false

/-- A root with one key over a leaf with two keys and a full leaf (`t = 2`). -/
def fullRightNode : BTreeNode :=
  mk [5] [mk [1, 2] [] true, mk [6, 7, 8] [] true] false

end BTreeNode

namespace BTree

/-- `BTree::insert` with `insertNonFullChecked` in place of `insertNonFull`. -/
def insertChecked (T : BTree) (k : Int) : Option BTree :=
  match T.root with
  | none => some ⟨some (BTreeNode.mk [k] [] true), T.t⟩
  | some r =>
    if r.n = 2 * T.t.toNat - 1 then
      match BTreeNode.splitChild T.t.toNat (BTreeNode.mk [] [r] false) 0 with
      | none => none
      | some s =>
        match s.keys[0]? with
        | none => none
        | some m =>
          let i := if m < k then 1 else 0
          match s.C[i]? with
          | none => none
          | some c =>
            match BTreeNode.insertNonFullChecked T.t.toNat (r.depth + 1) c k with
            | none => none
            | some c1 => some ⟨some (s.setChild i c1), T.t⟩
    else
      match BTreeNode.insertNonFullChecked T.t.toNat (r.depth + 1) r k with
      | none => none
      | some r1 => some ⟨some r1, T.t⟩

/-- `BTree::deletion` with `deletionChecked` in place of `BTreeNode::deletion`.  The call on
the root itself carries no assertion. -/
def deletionChecked (T : BTree) (k : Int) : Option (BTree × List Msg) :=
  match T.root with
  | none => some (T, [Msg.treeEmpty])
  | some r =>
    match BTreeNode.deletionChecked T.t.toNat (r.depth + 1) r k with
    | none => none
    | some (r1, out) =>
      if r1.n = 0 then
        if r1.leaf then some (⟨none, T.t⟩, out)
        else
          match r1.C[0]? with
          | none => none
          | some c => some (⟨some c, T.t⟩, out)
      else some (⟨some r1, T.t⟩, out)

end BTree

/-!
# Theorems

The proofs work with two derived views of a well-formed tree: its shape (`Bal`: height,
number of children, key counts) and the strict sortedness of its traversal; `wellFormed_iff`
shows that together they are exactly `WellFormed`.
-/

namespace BTreeNode

/-! ## Accessors and traversal -/

@[simp] theorem keys_mk (ks : List Int) (cs : List BTreeNode) (l : Bool) :
    (mk ks cs l).keys = ks := rfl

@[simp] theorem C_mk (ks : List Int) (cs : List BTreeNode) (l : Bool) :
    (mk ks cs l).C = cs := rfl

@[simp] theorem leaf_mk (ks : List Int) (cs : List BTreeNode) (l : Bool) :
    (mk ks cs l).leaf = l := rfl

@[simp] theorem n_mk (ks : List Int) (cs : List BTreeNode) (l : Bool) :
    (mk ks cs l).n = ks.length := rfl

theorem mk_eta (node : BTreeNode) : mk node.keys node.C node.leaf = node := by
  cases node; rfl

theorem traverse_leaf (ks : List Int) (cs : List BTreeNode) :
    traverse (mk ks cs true) = ks := by
  simp [traverse]

theorem traverse_node (ks : List Int) (cs : List BTreeNode) :
    traverse (mk ks cs false) = traverseC cs ks := by
  simp [traverse]

theorem allKeys_leaf (ks : List Int) (cs : List BTreeNode) :
    allKeys (mk ks cs true) = ks := by
  simp [allKeys]

theorem allKeys_node (ks : List Int) (cs : List BTreeNode) :
    allKeys (mk ks cs false) = ks ++ allKeysC cs := by
  simp [allKeys]

theorem traverseC_cons_post (c : BTreeNode) :
    ∀ (K : List Int) (B : List BTreeNode), B.length = K.length →
      traverseC (c :: B) K = traverse c ++ travPost K B
  | [], [], _ => by simp [traverseC, travPost]
  | [], _ :: _, h => by simp at h
  | _ :: _, [], h => by simp at h
  | k :: K, b :: B, h => by
    have ih := traverseC_cons_post b K B (by simpa using h)
    simp [traverseC, travPost, ih]

/-- The zipper form of the traversal of an internal node around one child. -/
theorem traverseC_split (c : BTreeNode) (K2 : List Int) (B : List BTreeNode)
    (hB : B.length = K2.length) :
    ∀ (A : List BTreeNode) (K1 : List Int), A.length = K1.length →
      traverseC (A ++ c :: B) (K1 ++ K2) = travPre A K1 ++ (traverse c ++ travPost K2 B)
  | [], [], _ => by simpa [travPre] using traverseC_cons_post c K2 B hB
  | [], _ :: _, h => by simp at h
  | _ :: _, [], h => by simp at h
  | a :: A, k :: K1, h => by
    have ih := traverseC_split c K2 B hB A K1 (by simpa using h)
    simp [traverseC, travPre, ih]

theorem travPre_append :
    ∀ (A : List BTreeNode) (K : List Int) (A2 : List BTreeNode) (K2 : List Int),
      A.length = K.length → travPre (A ++ A2) (K ++ K2) = travPre A K ++ travPre A2 K2
  | [], [], _, _, _ => by simp [travPre]
  | [], _ :: _, _, _, h => by simp at h
  | _ :: _, [], _, _, h => by simp at h
  | a :: A, k :: K, A2, K2, h => by
    have ih := travPre_append A K A2 K2 (by simpa using h)
    simp [travPre, ih]

theorem travPost_append :
    ∀ (K : List Int) (B : List BTreeNode) (K2 : List Int) (B2 : List BTreeNode),
      B.length = K.length → travPost (K ++ K2) (B ++ B2) = travPost K B ++ travPost K2 B2
  | [], [], _, _, _ => by simp [travPost]
  | [], _ :: _, _, _, h => by simp at h
  | _ :: _, [], _, _, h => by simp at h
  | k :: K, b :: B, K2, B2, h => by
    have ih := travPost_append K B K2 B2 (by simpa using h)
    simp [travPost, ih]

@[simp] theorem travPre_nil : travPre [] ([] : List Int) = [] := rfl
@[simp] theorem travPost_nil : travPost [] ([] : List BTreeNode) = [] := rfl
@[simp] theorem travPre_cons (c : BTreeNode) (cs : List BTreeNode) (k : Int) (ks : List Int) :
    travPre (c :: cs) (k :: ks) = traverse c ++ k :: travPre cs ks := rfl
@[simp] theorem travPost_cons (c : BTreeNode) (cs : List BTreeNode) (k : Int) (ks : List Int) :
    travPost (k :: ks) (c :: cs) = k :: (traverse c ++ travPost ks cs) := rfl

/-- Every entry of the part before a child is a key of the node or lies in an earlier
child. -/
theorem mem_travPre {x : Int} :
    ∀ {A : List BTreeNode} {K : List Int}, x ∈ travPre A K →
      x ∈ K ∨ ∃ c ∈ A, x ∈ traverse c
  | [], _, h => by simp [travPre] at h
  | _ :: _, [], h => by simp [travPre] at h
  | a :: A, k :: K, h => by
    simp only [travPre_cons, List.mem_append, List.mem_cons] at h
    rcases h with h | h | h
    · exact Or.inr ⟨a, by simp, h⟩
    · exact Or.inl (by simp [h])
    · rcases mem_travPre h with h | ⟨c, hc, hx⟩
      · exact Or.inl (by simp [h])
      · exact Or.inr ⟨c, by simp [hc], hx⟩

theorem mem_travPost {x : Int} :
    ∀ {K : List Int} {B : List BTreeNode}, x ∈ travPost K B →
      x ∈ K ∨ ∃ c ∈ B, x ∈ traverse c
  | [], _, h => by simp [travPost] at h
  | _ :: _, [], h => by simp [travPost] at h
  | k :: K, b :: B, h => by
    simp only [travPost_cons, List.mem_append, List.mem_cons] at h
    rcases h with h | h | h
    · exact Or.inl (by simp [h])
    · exact Or.inr ⟨b, by simp, h⟩
    · rcases mem_travPost h with h | ⟨c, hc, hx⟩
      · exact Or.inl (by simp [h])
      · exact Or.inr ⟨c, by simp [hc], hx⟩

end BTreeNode

namespace BTreeNode

/-! ## Order facts about the traversal -/

theorem travPre_le :
    ∀ (A : List BTreeNode) (K : List Int), (travPre A K).Pairwise (· ≤ ·) →
      ∀ x ∈ travPre A K, ∃ y ∈ K, x ≤ y
  | [], _, _, x, hx => by simp [travPre] at hx
  | _ :: _, [], _, x, hx => by simp [travPre] at hx
  | a :: A, k :: K, hp, x, hx => by
    simp only [travPre_cons, List.mem_append, List.mem_cons] at hx
    simp only [travPre_cons, List.pairwise_append, List.pairwise_cons] at hp
    rcases hx with hx | hx | hx
    · exact ⟨k, by simp, hp.2.2 x hx k (by simp)⟩
    · exact ⟨k, by simp, by simp [hx]⟩
    · obtain ⟨y, hy, hxy⟩ := travPre_le A K hp.2.1.2 x hx
      exact ⟨y, by simp [hy], hxy⟩

theorem travPost_ge {K : List Int} {B : List BTreeNode}
    (hp : (travPost K B).Pairwise (· ≤ ·)) :
    ∀ x ∈ travPost K B, ∃ y ∈ K, y ≤ x := by
  intro x hx
  match K, B, hp, hx with
  | [], _, _, hx => simp [travPost] at hx
  | _ :: _, [], _, hx => simp [travPost] at hx
  | k :: K, b :: B, hp, hx =>
    simp only [travPost_cons, List.pairwise_cons] at hp
    simp only [travPost_cons, List.mem_cons] at hx
    rcases hx with hx | hx
    · exact ⟨k, by simp, by simp [hx]⟩
    · exact ⟨k, by simp, hp.1 x hx⟩

/-! ## The two key scans -/

theorem findKeyFrom_spec (k : Int) :
    ∀ ks : List Int, ∃ K1 K2, ks = K1 ++ K2 ∧ K1.length = findKeyFrom ks k ∧
      (∀ a ∈ K1, a < k) ∧ (∀ b, K2.head? = some b → k ≤ b)
  | [] => ⟨[], [], by simp [findKeyFrom]⟩
  | x :: xs => by
    by_cases hx : x < k
    · obtain ⟨K1, K2, h1, h2, h3, h4⟩ := findKeyFrom_spec k xs
      refine ⟨x :: K1, K2, by simp [h1], by simp [findKeyFrom, hx, h2], ?_, h4⟩
      intro a ha
      rcases List.mem_cons.1 ha with rfl | ha
      · exact hx
      · exact h3 a ha
    · refine ⟨[], x :: xs, by simp, by simp [findKeyFrom, hx], by simp, ?_⟩
      intro b hb
      simp at hb
      omega

theorem scanDown_spec (k : Int) (ks : List Int) :
    ∃ K1 K2, ks = K1 ++ K2 ∧ K1.length = scanDown ks k ∧
      (∀ b ∈ K2, k < b) ∧ (∀ a, K1.getLast? = some a → a ≤ k) := by
  refine ⟨(ks.reverse.dropWhile (fun x => decide (k < x))).reverse,
    (ks.reverse.takeWhile (fun x => decide (k < x))).reverse, ?_, ?_, ?_, ?_⟩
  · rw [← List.reverse_append, List.takeWhile_append_dropWhile, List.reverse_reverse]
  · have h := congrArg List.length
      (List.takeWhile_append_dropWhile (fun x => decide (k < x)) ks.reverse)
    simp only [List.length_append, List.length_reverse] at h
    simp only [scanDown, List.length_reverse]
    omega
  · intro b hb
    have := List.mem_takeWhile_imp (List.mem_reverse.1 hb)
    simpa using this
  · intro a ha
    rw [List.getLast?_reverse] at ha
    have := List.head?_dropWhile_not (fun x => decide (k < x)) ks.reverse
    rw [ha] at this
    simp at this
    exact this

/-- On a non-decreasing key list the downward scan separates the keys `≤ k` from those
`> k`. -/
theorem scanDown_sorted (k : Int) (ks : List Int) (hs : ks.Pairwise (· ≤ ·)) :
    ∃ K1 K2, ks = K1 ++ K2 ∧ K1.length = scanDown ks k ∧
      (∀ a ∈ K1, a ≤ k) ∧ (∀ b ∈ K2, k < b) := by
  obtain ⟨K1, K2, h1, h2, h3, h4⟩ := scanDown_spec k ks
  refine ⟨K1, K2, h1, h2, ?_, h3⟩
  intro a ha
  rcases List.eq_nil_or_concat K1 with hnil | ⟨L, b, rfl⟩
  · simp [hnil] at ha
  · simp only [List.concat_eq_append] at *
    have hb : b ≤ k := h4 b (by simp)
    subst h1
    simp only [List.mem_append, List.mem_singleton] at ha
    rcases ha with ha | rfl
    · have : a ≤ b := by
        have hp := (List.pairwise_append.1 hs).1
        exact (List.pairwise_append.1 hp).2.2 a ha b (by simp)
      omega
    · exact hb

/-- On a strictly ascending key list `findKey` separates the keys `< k` from those
`≥ k`. -/
theorem findKeyFrom_sorted (k : Int) (ks : List Int) (hs : ks.Pairwise (· ≤ ·)) :
    ∃ K1 K2, ks = K1 ++ K2 ∧ K1.length = findKeyFrom ks k ∧
      (∀ a ∈ K1, a < k) ∧ (∀ b ∈ K2, k ≤ b) := by
  obtain ⟨K1, K2, h1, h2, h3, h4⟩ := findKeyFrom_spec k ks
  refine ⟨K1, K2, h1, h2, h3, ?_⟩
  intro b hb
  cases K2 with
  | nil => simp at hb
  | cons c K2 =>
    have hc : k ≤ c := h4 c (by simp)
    subst h1
    rcases List.mem_cons.1 hb with rfl | hb
    · exact hc
    · have hp := (List.pairwise_append.1 hs).2.1
      have : c ≤ b := (List.pairwise_cons.1 hp).1 b hb
      omega

end BTreeNode

namespace BTreeNode

/-! ## Shape -/

theorem bal_zero {t : Nat} {node : BTreeNode} : Bal t 0 node ↔ node.leaf = true := Iff.rfl

theorem bal_succ {t h : Nat} {node : BTreeNode} :
    Bal t (h + 1) node ↔ node.leaf = false ∧ node.C.length = node.n + 1 ∧
      ∀ c ∈ node.C, t - 1 ≤ c.n ∧ c.n ≤ 2 * t - 1 ∧ Bal t h c := Iff.rfl

theorem Bal.leaf_iff {t h : Nat} {node : BTreeNode} (hb : Bal t h node) :
    node.leaf = true ↔ h = 0 := by
  cases h with
  | zero => simpa using bal_zero.1 hb
  | succ h => simp [(bal_succ.1 hb).1]

theorem depthC_eq {h : Nat} :
    ∀ cs : List BTreeNode, cs ≠ [] → (∀ c ∈ cs, depth c = h) → depthC cs = h
  | [], hne, _ => absurd rfl hne
  | [c], _, hc => by simp [depthC, hc c (by simp)]
  | c :: c2 :: cs, _, hc => by
    have ih := depthC_eq (c2 :: cs) (by simp) (fun x hx => hc x (by simp [hx]))
    rw [depthC, ih, hc c (by simp)]
    simp

theorem Bal.depth_eq {t : Nat} : ∀ {h : Nat} {node : BTreeNode}, Bal t h node → depth node = h
  | 0, mk ks cs l, hb => by
    have : l = true := bal_zero.1 hb
    subst this
    simp [depth]
  | h + 1, mk ks cs l, hb => by
    obtain ⟨hl, hlen, hc⟩ := bal_succ.1 hb
    simp only [leaf_mk, C_mk, n_mk] at hl hlen hc
    subst hl
    have : depthC cs = h :=
      depthC_eq cs (by intro h0; simp [h0] at hlen) (fun c hcm => (hc c hcm).2.2.depth_eq)
    simp [depth, this]

theorem Bal.height_eq {t : Nat} :
    ∀ {h : Nat} {node : BTreeNode}, Bal t h node → height node = h + 1
  | 0, mk ks cs l, hb => by
    have : l = true := bal_zero.1 hb
    subst this
    simp [height]
  | h + 1, mk ks cs l, hb => by
    obtain ⟨hl, hlen, hc⟩ := bal_succ.1 hb
    simp only [leaf_mk, C_mk, n_mk] at hl hlen hc
    subst hl
    cases cs with
    | nil => simp at hlen
    | cons c cs =>
      have := (hc c (by simp)).2.2.height_eq
      simp [height, heightC, this]

/-! ## Stored keys and printed keys -/

theorem mem_allKeysC {x : Int} :
    ∀ {cs : List BTreeNode}, x ∈ allKeysC cs ↔ ∃ c ∈ cs, x ∈ allKeys c
  | [] => by simp [allKeysC]
  | c :: cs => by
    have ih := @mem_allKeysC x cs
    simp [allKeysC, ih]

theorem mem_traverseC {x : Int} :
    ∀ (ks : List Int) (cs : List BTreeNode), cs.length = ks.length + 1 →
      (x ∈ traverseC cs ks ↔ x ∈ ks ∨ ∃ c ∈ cs, x ∈ traverse c)
  | [], [], h => by simp at h
  | [], [c], _ => by simp [traverseC]
  | [], _ :: _ :: _, h => by simp at h
  | _ :: _, [], h => by simp at h
  | k :: ks, c :: cs, h => by
    have ih := mem_traverseC (x := x) ks cs (by simpa using h)
    rw [traverseC, List.mem_append, List.mem_cons, ih]
    constructor
    · rintro (h1 | rfl | h1 | ⟨d, hd, hx⟩)
      · exact Or.inr ⟨c, by simp, h1⟩
      · exact Or.inl (by simp)
      · exact Or.inl (by simp [h1])
      · exact Or.inr ⟨d, by simp [hd], hx⟩
    · rintro (h1 | ⟨d, hd, hx⟩)
      · rcases List.mem_cons.1 h1 with h1 | h1
        · exact Or.inr (Or.inl h1)
        · exact Or.inr (Or.inr (Or.inl h1))
      · rcases List.mem_cons.1 hd with rfl | hd
        · exact Or.inl hx
        · exact Or.inr (Or.inr (Or.inr ⟨d, hd, hx⟩))

theorem Bal.mem_traverse_iff {t : Nat} {x : Int} :
    ∀ {h : Nat} {node : BTreeNode}, Bal t h node → (x ∈ traverse node ↔ x ∈ allKeys node)
  | 0, mk ks cs l, hb => by
    have : l = true := bal_zero.1 hb
    subst this
    simp [traverse, allKeys]
  | h + 1, mk ks cs l, hb => by
    obtain ⟨hl, hlen, hc⟩ := bal_succ.1 hb
    simp only [leaf_mk, C_mk, n_mk] at hl hlen hc
    subst hl
    rw [traverse_node, allKeys_node, mem_traverseC ks cs hlen, List.mem_append, mem_allKeysC]
    constructor
    · rintro (h1 | ⟨c, hcm, hx⟩)
      · exact Or.inl h1
      · exact Or.inr ⟨c, hcm, ((hc c hcm).2.2.mem_traverse_iff).1 hx⟩
    · rintro (h1 | ⟨c, hcm, hx⟩)
      · exact Or.inl h1
      · exact Or.inr ⟨c, hcm, ((hc c hcm).2.2.mem_traverse_iff).2 hx⟩

/-! ## Sortedness of the traversal in terms of the nodes -/

/-- Separation stated on the printed keys of the children. -/
theorem lowerBound_of_sep {lb : Int} :
    ∀ (ks : List Int) (cs : List BTreeNode), cs.length = ks.length →
      (∀ k ∈ ks, lb < k) → (∀ p ∈ cs.zip ks, ∀ x ∈ traverse p.1, p.2 < x) →
      ∀ c ∈ cs, ∀ y ∈ traverse c, lb < y
  | _, [], _, _, _, c, hc, _, _ => by simp at hc
  | [], _ :: _, h, _, _, _, _, _, _ => by simp at h
  | k :: ks, c0 :: cs, h, hk, hs, c, hc, y, hy => by
    rcases List.mem_cons.1 hc with rfl | hc
    · have h1 : k < y := hs (c, k) (by simp) y hy
      have h2 : lb < k := hk k (by simp)
      omega
    · exact lowerBound_of_sep ks cs (by simpa using h) (fun k hk2 => hk k (by simp [hk2]))
        (fun p hp => hs p (by simp [hp])) c hc y hy

theorem pairwise_traverseC_iff :
    ∀ (ks : List Int) (cs : List BTreeNode), cs.length = ks.length + 1 →
      ((traverseC cs ks).Pairwise (· < ·) ↔
        ks.Pairwise (· < ·) ∧ (∀ c ∈ cs, (traverse c).Pairwise (· < ·)) ∧
        (∀ p ∈ cs.zip ks, ∀ x ∈ traverse p.1, x < p.2) ∧
        (∀ p ∈ cs.tail.zip ks, ∀ x ∈ traverse p.1, p.2 < x))
  | [], [], h => by simp at h
  | [], [c], _ => by simp [traverseC]
  | [], _ :: _ :: _, h => by simp at h
  | _ :: _, [], h => by simp at h
  | _ :: _, [_], h => by simp at h
  | k :: ks, c :: c2 :: cs, h => by
    have hlen : (c2 :: cs).length = ks.length + 1 := by simpa using h
    have ih := pairwise_traverseC_iff ks (c2 :: cs) hlen
    have hmem := fun y => mem_traverseC (x := y) ks (c2 :: cs) hlen
    rw [traverseC, List.pairwise_append, List.pairwise_cons, ih, List.pairwise_cons]
    constructor
    · rintro ⟨h1, ⟨h2, h3, h4, h5, h6⟩, h7⟩
      refine ⟨⟨fun y hy => h2 y ((hmem y).2 (Or.inl hy)), h3⟩, ?_, ?_, ?_⟩
      · intro d hd
        rcases List.mem_cons.1 hd with rfl | hd
        · exact h1
        · exact h4 d hd
      · intro p hp
        rw [List.zip_cons_cons] at hp
        rcases List.mem_cons.1 hp with rfl | hp
        · exact fun x hx => h7 x hx k (by simp)
        · exact h5 p hp
      · intro p hp
        rw [List.tail_cons, List.zip_cons_cons] at hp
        rcases List.mem_cons.1 hp with rfl | hp
        · exact fun x hx => h2 x ((hmem x).2 (Or.inr ⟨c2, by simp, hx⟩))
        · exact h6 p (by simpa using hp)
    · rintro ⟨⟨h1, h2⟩, h3, h5, h7⟩
      have h8 : ∀ p ∈ cs.zip ks, ∀ x ∈ traverse p.1, p.2 < x := by
        intro p hp
        exact h7 p (by rw [List.tail_cons, List.zip_cons_cons]; simp [hp])
      have hlb : ∀ y ∈ traverseC (c2 :: cs) ks, k < y := by
        intro y hy
        rcases (hmem y).1 hy with hy1 | ⟨d, hd, hy2⟩
        · exact h1 y hy1
        · rcases List.mem_cons.1 hd with hd | hd
          · subst hd
            exact h7 (d, k) (by rw [List.tail_cons, List.zip_cons_cons]; simp) y hy2
          · exact lowerBound_of_sep ks cs (by simpa using hlen) h1 h8 d hd y hy2
      refine ⟨h3 c (by simp), ⟨hlb, h2, fun d hd => h3 d (by simp [hd]),
        fun p hp => h5 p (by rw [List.zip_cons_cons]; simp [hp]),
        by simpa using h8⟩, ?_⟩
      intro x hx y hy
      have hxk : x < k := h5 (c, k) (by simp) x hx
      rcases List.mem_cons.1 hy with rfl | hy
      · exact hxk
      · have := hlb y hy
        omega

theorem wellFormedAt_iff {t : Nat} :
    ∀ {h : Nat} {node : BTreeNode},
      WellFormedAt t h node ↔ Bal t h node ∧ (traverse node).Pairwise (· < ·)
  | 0, mk ks cs l => by
    show (l = true ∧ ks.Pairwise (· < ·)) ↔ (l = true) ∧ _
    constructor
    · rintro ⟨rfl, h2⟩
      exact ⟨rfl, by simpa [traverse] using h2⟩
    · rintro ⟨rfl, h2⟩
      exact ⟨rfl, by simpa [traverse] using h2⟩
  | h + 1, mk ks cs l => by
    show (l = false ∧ ks.Pairwise (· < ·) ∧ cs.length = ks.length + 1 ∧
      SepLeft cs ks ∧ SepRight cs ks ∧
      ∀ c ∈ cs, t - 1 ≤ c.n ∧ c.n ≤ 2 * t - 1 ∧ WellFormedAt t h c) ↔
      (l = false ∧ cs.length = ks.length + 1 ∧
        ∀ c ∈ cs, t - 1 ≤ c.n ∧ c.n ≤ 2 * t - 1 ∧ Bal t h c) ∧ _
    have key : (∀ c ∈ cs, Bal t h c) →
        ((SepLeft cs ks ↔ ∀ p ∈ cs.zip ks, ∀ x ∈ traverse p.1, x < p.2) ∧
         (SepRight cs ks ↔ ∀ p ∈ cs.tail.zip ks, ∀ x ∈ traverse p.1, p.2 < x)) := by
      intro hb
      constructor
      · unfold SepLeft
        refine forall₂_congr (fun p hp => ?_)
        have hpc : p.1 ∈ cs := (List.of_mem_zip (a := p.1) (b := p.2) hp).1
        exact forall_congr' (fun x => by rw [(hb p.1 hpc).mem_traverse_iff])
      · unfold SepRight
        refine forall₂_congr (fun p hp => ?_)
        have hpc : p.1 ∈ cs :=
          List.mem_of_mem_tail (List.of_mem_zip (a := p.1) (b := p.2) hp).1
        exact forall_congr' (fun x => by rw [(hb p.1 hpc).mem_traverse_iff])
    constructor
    · rintro ⟨rfl, h2, h3, h4, h5, h6⟩
      have hb : ∀ c ∈ cs, Bal t h c := fun c hc => (wellFormedAt_iff.1 (h6 c hc).2.2).1
      refine ⟨⟨rfl, h3, fun c hc => ⟨(h6 c hc).1, (h6 c hc).2.1, hb c hc⟩⟩, ?_⟩
      rw [traverse_node, pairwise_traverseC_iff ks cs h3]
      exact ⟨h2, fun c hc => (wellFormedAt_iff.1 (h6 c hc).2.2).2,
        (key hb).1.1 h4, (key hb).2.1 h5⟩
    · rintro ⟨⟨rfl, h3, h6⟩, hp⟩
      rw [traverse_node, pairwise_traverseC_iff ks cs h3] at hp
      obtain ⟨h2, hc, h4, h5⟩ := hp
      have hb : ∀ c ∈ cs, Bal t h c := fun c hc => (h6 c hc).2.2
      exact ⟨rfl, h2, h3, (key hb).1.2 h4, (key hb).2.2 h5,
        fun c hcm => ⟨(h6 c hcm).1, (h6 c hcm).2.1,
          wellFormedAt_iff.2 ⟨hb c hcm, hc c hcm⟩⟩⟩

/-- A well-formed root in terms of shape and sortedness of the traversal. -/
theorem wellFormed_iff {t : Nat} {r : BTreeNode} :
    WellFormed t r ↔ ∃ h, Bal t h r ∧ 1 ≤ r.n ∧ r.n ≤ 2 * t - 1 ∧
      (traverse r).Pairwise (· < ·) := by
  constructor
  · rintro ⟨h1, h2, h3⟩
    obtain ⟨hb, hp⟩ := wellFormedAt_iff.1 h3
    exact ⟨_, hb, h1, h2, hp⟩
  · rintro ⟨h, hb, h1, h2, hp⟩
    refine ⟨h1, h2, ?_⟩
    rw [hb.height_eq]
    exact wellFormedAt_iff.2 ⟨hb, hp⟩

end BTreeNode

/-! ## Lists split around an index -/

theorem List.getElem?_mid {α : Type} (A : List α) (c : α) (B : List α) :
    (A ++ c :: B)[A.length]? = some c := by
  rw [List.getElem?_append_right (le_refl _)]
  simp

theorem List.set_mid {α : Type} (A : List α) (c d : α) (B : List α) :
    (A ++ c :: B).set A.length d = A ++ d :: B := by
  simp

theorem List.eraseIdx_mid {α : Type} (A : List α) (c : α) (B : List α) :
    (A ++ c :: B).eraseIdx A.length = A ++ B := by
  rw [List.eraseIdx_append_of_length_le (le_refl _)]
  simp

theorem List.take_mid {α : Type} (A B : List α) : (A ++ B).take A.length = A := by
  simp

theorem List.drop_mid {α : Type} (A B : List α) : (A ++ B).drop A.length = B := by
  simp

theorem List.exists_split_at {α : Type} (cs : List α) (i : Nat) (h : i < cs.length) :
    ∃ A c B, cs = A ++ c :: B ∧ A.length = i := by
  refine ⟨cs.take i, cs[i], cs.drop (i + 1), ?_, ?_⟩
  · rw [← List.drop_eq_getElem_cons h, List.take_append_drop]
  · simp
    omega

theorem List.exists_snoc {α : Type} (l : List α) (h : l ≠ []) : ∃ L a, l = L ++ [a] := by
  rcases List.eq_nil_or_concat l with hnil | ⟨L, a, hl⟩
  · exact absurd hnil h
  · exact ⟨L, a, by simpa using hl⟩

namespace BTreeNode

theorem keys_sublist_traverseC :
    ∀ (ks : List Int) (cs : List BTreeNode), ks.Sublist (traverseC cs ks)
  | ks, [] => by simp [traverseC]
  | [], c :: cs => by simp [traverseC]
  | k :: ks, c :: cs => by
    rw [traverseC]
    exact ((keys_sublist_traverseC ks cs).cons₂ k).trans (List.sublist_append_right _ _)

theorem traverseC_append :
    ∀ (K1 : List Int) (A : List BTreeNode) (m : Int) (K2 : List Int) (B : List BTreeNode),
      A.length = K1.length + 1 →
      traverseC (A ++ B) (K1 ++ m :: K2) = traverseC A K1 ++ m :: traverseC B K2
  | _, [], _, _, _, h => by simp at h
  | [], [a], m, K2, B, _ => by simp [traverseC]
  | [], _ :: _ :: _, _, _, _, h => by simp at h
  | k :: K1, a :: A, m, K2, B, h => by
    have ih := traverseC_append K1 A m K2 B (by simpa using h)
    simp [traverseC, ih]

end BTreeNode

namespace BTreeNode

/-! ## splitChild -/

theorem splitChild_eq {t : Nat} (K1 K2 : List Int) (A B : List BTreeNode) (l : Bool)
    (Y1 Y2 : List Int) (med : Int) (yc : List BTreeNode) (yl : Bool)
    (hA : A.length = K1.length) (hY1 : Y1.length = t - 1) (hY2 : Y2.length = t - 1)
    (ht : 1 ≤ t) (hn : K1.length + K2.length < 2 * t - 1) :
    splitChild t (mk (K1 ++ K2) (A ++ mk (Y1 ++ med :: Y2) yc yl :: B) l) K1.length =
      some (mk (K1 ++ med :: K2)
        (A ++ mk Y1 (if yl then yc else yc.take t) yl ::
          mk Y2 (if yl then [] else yc.drop t) yl :: B) l) := by
  have h1 : (A ++ mk (Y1 ++ med :: Y2) yc yl :: B)[K1.length]? =
      some (mk (Y1 ++ med :: Y2) yc yl) := by
    rw [← hA]; exact List.getElem?_mid _ _ _
  have h2 : (Y1 ++ med :: Y2)[t - 1]? = some med := by
    rw [← hY1]; exact List.getElem?_mid _ _ _
  have h3 : (Y1 ++ med :: Y2).length = 2 * t - 1 := by
    simp only [List.length_append, List.length_cons]; omega
  have h4 : (Y1 ++ med :: Y2).take (t - 1) = Y1 := by
    rw [← hY1]; exact List.take_mid _ _
  have h5 : (Y1 ++ med :: Y2).drop t = Y2 := by
    have : t = Y1.length + 1 := by omega
    rw [this, ← List.drop_drop]
    simp
  have h6 : (A ++ mk (Y1 ++ med :: Y2) yc yl :: B).take K1.length = A := by
    rw [← hA]; exact List.take_mid _ _
  have h7 : (A ++ mk (Y1 ++ med :: Y2) yc yl :: B).drop (K1.length + 1) = B := by
    rw [← hA, ← List.drop_drop]
    simp
  simp only [splitChild, C_mk, keys_mk, n_mk, leaf_mk, h1, h2, h3, h4, h5, h6, h7,
    List.length_append, hn, and_self, if_true, List.take_mid, List.drop_mid]

/-- A list of `2t - 1` keys splits around its median. -/
theorem exists_median {t : Nat} (ht : 1 ≤ t) (yk : List Int) (h : yk.length = 2 * t - 1) :
    ∃ Y1 med Y2, yk = Y1 ++ med :: Y2 ∧ Y1.length = t - 1 ∧ Y2.length = t - 1 := by
  obtain ⟨Y1, med, Y2, rfl, h1⟩ := List.exists_split_at yk (t - 1) (by omega)
  refine ⟨Y1, med, Y2, rfl, h1, ?_⟩
  simp only [List.length_append, List.length_cons] at h
  omega

/-- The two halves of a split child are balanced and print, with the median between them,
what the child printed. -/
theorem split_halves {t h : Nat} (ht : 1 ≤ t) (Y1 Y2 : List Int) (med : Int)
    (yc : List BTreeNode) (yl : Bool) (hY1 : Y1.length = t - 1) (hY2 : Y2.length = t - 1)
    (hb : Bal t h (mk (Y1 ++ med :: Y2) yc yl)) :
    Bal t h (mk Y1 (if yl then yc else yc.take t) yl) ∧
    Bal t h (mk Y2 (if yl then [] else yc.drop t) yl) ∧
    traverse (mk (Y1 ++ med :: Y2) yc yl) =
      traverse (mk Y1 (if yl then yc else yc.take t) yl) ++
        med :: traverse (mk Y2 (if yl then [] else yc.drop t) yl) := by
  cases h with
  | zero =>
    have : yl = true := bal_zero.1 hb
    subst this
    exact ⟨rfl, rfl, by simp [traverse]⟩
  | succ h =>
    obtain ⟨hl, hlen, hc⟩ := bal_succ.1 hb
    simp only [leaf_mk, C_mk, n_mk, List.length_append, List.length_cons] at hl hlen hc
    subst hl
    have hyc : yc = yc.take t ++ yc.drop t := (List.take_append_drop t yc).symm
    have htake : (yc.take t).length = t := by
      rw [List.length_take]; omega
    have hdrop : (yc.drop t).length = t := by
      rw [List.length_drop]; omega
    refine ⟨bal_succ.2 ⟨rfl, by simp [htake]; omega,
        fun c hcm => hc c (List.mem_of_mem_take (by simpa using hcm))⟩,
      bal_succ.2 ⟨rfl, by simp only [C_mk, n_mk, Bool.false_eq_true, if_false, hdrop]; omega,
        fun c hcm => hc c (List.mem_of_mem_drop (by simpa using hcm))⟩, ?_⟩
    simp only [traverse_node, Bool.false_eq_true, if_false]
    conv_lhs => rw [hyc]
    exact traverseC_append Y1 (yc.take t) med Y2 (yc.drop t) (by omega)

end BTreeNode

namespace BTreeNode

/-! ## insertNonFull -/

theorem insertNonFull_succ (t fuel : Nat) (node : BTreeNode) (k : Int) :
    insertNonFull t (fuel + 1) node k =
      if node.leaf then
        if node.n < 2 * t - 1 then
          some (mk (node.keys.take (scanDown node.keys k) ++
            k :: node.keys.drop (scanDown node.keys k)) node.C node.leaf)
        else none
      else
        match node.C[scanDown node.keys k]? with
        | none => none
        | some c =>
          if c.n = 2 * t - 1 then
            match splitChild t node (scanDown node.keys k) with
            | none => none
            | some node1 =>
              match node1.keys[scanDown node.keys k]? with
              | none => none
              | some m =>
                match node1.C[if m < k then scanDown node.keys k + 1
                    else scanDown node.keys k]? with
                | none => none
                | some cj =>
                  match insertNonFull t fuel cj k with
                  | none => none
                  | some cj1 =>
                    some (node1.setChild
                      (if m < k then scanDown node.keys k + 1 else scanDown node.keys k) cj1)
          else
            match insertNonFull t fuel c k with
            | none => none
            | some c1 => some (node.setChild (scanDown node.keys k) c1) := rfl

/-- The result of inserting below child `d` of an internal node, given the result for the
child. -/
theorem insert_descend {t h : Nat} {k : Int} (K1 K2 : List Int) (A B : List BTreeNode)
    (d d1 : BTreeNode) (hA : A.length = K1.length) (hB : B.length = K2.length)
    (hbal : Bal t (h + 1) (mk (K1 ++ K2) (A ++ d :: B) false))
    (hp : (traverseC (A ++ d :: B) (K1 ++ K2)).Pairwise (· ≤ ·))
    (hK1 : ∀ a ∈ K1, a ≤ k) (hK2 : ∀ b ∈ K2, k ≤ b)
    (hd1 : Bal t h d1) (hlo : d.n ≤ d1.n) (hhi : d1.n ≤ 2 * t - 1)
    (hins : ∃ L R, traverse d = L ++ R ∧ traverse d1 = L ++ k :: R ∧
      (∀ a ∈ L, a ≤ k) ∧ (∀ b ∈ R, k ≤ b)) :
    Bal t (h + 1) (mk (K1 ++ K2) (A ++ d1 :: B) false) ∧
    ∃ L R, traverseC (A ++ d :: B) (K1 ++ K2) = L ++ R ∧
      traverseC (A ++ d1 :: B) (K1 ++ K2) = L ++ k :: R ∧
      (∀ a ∈ L, a ≤ k) ∧ (∀ b ∈ R, k ≤ b) := by
  obtain ⟨L, R, hLR, hLR1, hL, hR⟩ := hins
  obtain ⟨_, hlen, hc⟩ := bal_succ.1 hbal
  simp only [C_mk, n_mk] at hlen hc
  rw [traverseC_split d K2 B hB A K1 hA] at hp ⊢
  rw [traverseC_split d1 K2 B hB A K1 hA]
  have hpre : ∀ x ∈ travPre A K1, x ≤ k := by
    intro x hx
    obtain ⟨y, hy, hxy⟩ := travPre_le A K1 (List.pairwise_append.1 hp).1 x hx
    have := hK1 y hy
    omega
  have hpost : ∀ x ∈ travPost K2 B, k ≤ x := by
    intro x hx
    have hp2 := (List.pairwise_append.1 (List.pairwise_append.1 hp).2.1).2.1
    obtain ⟨y, hy, hxy⟩ := travPost_ge hp2 x hx
    have := hK2 y hy
    omega
  refine ⟨bal_succ.2 ⟨rfl, by simpa using hlen, ?_⟩, travPre A K1 ++ L, R ++ travPost K2 B,
    by simp [hLR], by simp [hLR1], ?_, ?_⟩
  · intro c hcm
    simp only [C_mk, List.mem_append, List.mem_cons] at hcm
    rcases hcm with hcm | rfl | hcm
    · exact hc c (by simp [hcm])
    · have := (hc d (by simp)).1
      exact ⟨by omega, hhi, hd1⟩
    · exact hc c (by simp [hcm])
  · intro a ha
    rcases List.mem_append.1 ha with ha | ha
    · exact hpre a ha
    · exact hL a ha
  · intro b hb
    rcases List.mem_append.1 hb with hb | hb
    · exact hR b hb
    · exact hpost b hb

theorem insertNonFull_spec {t : Nat} (ht : 2 ≤ t) (k : Int) :
    ∀ (h fuel : Nat) (node : BTreeNode), h < fuel → Bal t h node → node.n < 2 * t - 1 →
      (traverse node).Pairwise (· ≤ ·) →
      ∃ r, insertNonFull t fuel node k = some r ∧ Bal t h r ∧ node.n ≤ r.n ∧
        r.n ≤ node.n + 1 ∧
        ∃ L R, traverse node = L ++ R ∧ traverse r = L ++ k :: R ∧
          (∀ a ∈ L, a ≤ k) ∧ (∀ b ∈ R, k ≤ b)
  | _, 0, _, hf, _, _, _ => by omega
  | 0, fuel + 1, mk ks cs l, _, hb, hn, hp => by
    have : l = true := bal_zero.1 hb
    subst this
    simp only [n_mk] at hn
    rw [traverse_leaf] at hp
    obtain ⟨K1, K2, rfl, hi, hK1, hK2⟩ := scanDown_sorted k ks hp
    refine ⟨mk (K1 ++ k :: K2) cs true, ?_, rfl, ?_, ?_, K1, K2, ?_, ?_, hK1, ?_⟩
    · rw [insertNonFull_succ]
      simp only [leaf_mk, keys_mk, n_mk, C_mk, if_true, hn, ← hi, List.take_mid, List.drop_mid]
    · simp only [n_mk, List.length_append, List.length_cons]; omega
    · simp only [n_mk, List.length_append, List.length_cons]; omega
    · rw [traverse_leaf]
    · rw [traverse_leaf]
    · intro b hb
      have := hK2 b hb
      omega
  | h + 1, fuel + 1, mk ks cs l, hf, hb, hn, hp => by
    obtain ⟨hl, hlen, hc⟩ := bal_succ.1 hb
    simp only [leaf_mk, C_mk, n_mk] at hl hlen hc hn
    subst hl
    rw [traverse_node] at hp
    have hks : ks.Pairwise (· ≤ ·) := hp.sublist (keys_sublist_traverseC ks cs)
    obtain ⟨K1, K2, rfl, hi, hK1, hK2⟩ := scanDown_sorted k ks hks
    have hK2' : ∀ b ∈ K2, k ≤ b := fun b hb => le_of_lt (hK2 b hb)
    obtain ⟨A, c, B, rfl, hA⟩ := List.exists_split_at cs K1.length
      (by simp only [List.length_append] at hlen; omega)
    have hB : B.length = K2.length := by
      simp only [List.length_append, List.length_cons] at hlen; omega
    have hget : (A ++ c :: B)[K1.length]? = some c := by
      rw [← hA]; exact List.getElem?_mid _ _ _
    have htr := traverseC_split c K2 B hB A K1 hA
    have hcb := hc c (by simp)
    have hpc : (traverse c).Pairwise (· ≤ ·) := by
      rw [htr] at hp
      exact (List.pairwise_append.1 (List.pairwise_append.1 hp).2.1).1
    rw [insertNonFull_succ]
    simp only [leaf_mk, keys_mk, C_mk, ← hi, hget, Bool.false_eq_true, if_false]
    by_cases hfull : c.n = 2 * t - 1
    · -- the child is full: split it first
      simp only [hfull, if_true]
      obtain ⟨yk, yc, yl⟩ := c
      simp only [n_mk] at hfull
      obtain ⟨Y1, med, Y2, rfl, hY1, hY2⟩ := exists_median (by omega) yk hfull
      rw [splitChild_eq K1 K2 A B false Y1 Y2 med yc yl hA hY1 hY2 (by omega)
        (by simpa using hn)]
      obtain ⟨hb1, hb2, hsplit⟩ := split_halves (by omega) Y1 Y2 med yc yl hY1 hY2 hcb.2.2
      have hkm : (K1 ++ med :: K2)[K1.length]? = some med := List.getElem?_mid _ _ _
      simp only [keys_mk, C_mk, hkm]
      set y1 := mk Y1 (if yl then yc else yc.take t) yl with hy1
      set z := mk Y2 (if yl then [] else yc.drop t) yl with hz
      have htr1 : traverseC (A ++ y1 :: z :: B) (K1 ++ med :: K2) =
          traverseC (A ++ mk (Y1 ++ med :: Y2) yc yl :: B) (K1 ++ K2) := by
        rw [htr, hsplit, traverseC_split y1 (med :: K2) (z :: B) (by simp [hB]) A K1 hA]
        simp
      have hbal1 : Bal t (h + 1) (mk (K1 ++ med :: K2) (A ++ y1 :: z :: B) false) := by
        refine bal_succ.2 ⟨rfl, by simp [hA, hB]; omega, ?_⟩
        intro c hcm
        simp only [C_mk, List.mem_append, List.mem_cons] at hcm
        rcases hcm with hcm | rfl | rfl | hcm
        · exact hc c (by simp [hcm])
        · exact ⟨by simp [hy1, hY1], by simp [hy1, hY1]; omega, hb1⟩
        · exact ⟨by simp [hz, hY2], by simp [hz, hY2]; omega, hb2⟩
        · exact hc c (by simp [hcm])
      have hp1 : (traverseC (A ++ y1 :: z :: B) (K1 ++ med :: K2)).Pairwise (· ≤ ·) := by
        rw [htr1]; exact hp
      by_cases hm : med < k
      · -- descend into the new right half
        have hgz : (A ++ y1 :: z :: B)[K1.length + 1]? = some z := by
          have : A ++ y1 :: z :: B = (A ++ [y1]) ++ z :: B := by simp
          rw [this, ← hA]
          exact List.getElem?_mid (A ++ [y1]) z B |>.symm ▸ (by simp)
        have hpz : (traverse z).Pairwise (· ≤ ·) := by
          rw [hsplit] at hpc
          exact (List.pairwise_cons.1 (List.pairwise_append.1 hpc).2.1).2
        obtain ⟨z1, hz1, hbz1, hlo, hhi, hins⟩ :=
          insertNonFull_spec ht k h fuel z (by omega) hb2 (by simp [hz, hY2]; omega) hpz
        simp only [hm, if_true, hgz, hz1]
        have hset : (mk (K1 ++ med :: K2) (A ++ y1 :: z :: B) false).setChild
            (K1.length + 1) z1 = mk ((K1 ++ [med]) ++ K2) ((A ++ [y1]) ++ z1 :: B) false := by
          have : A ++ y1 :: z :: B = (A ++ [y1]) ++ z :: B := by simp
          simp only [setChild, keys_mk, C_mk, leaf_mk, this]
          rw [show K1.length + 1 = (A ++ [y1]).length by simp [hA], List.set_mid]
          simp
        have hA2 : (A ++ [y1]).length = (K1 ++ [med]).length := by simp [hA]
        have e1 : K1 ++ med :: K2 = (K1 ++ [med]) ++ K2 := by simp
        have e2 : A ++ y1 :: z :: B = (A ++ [y1]) ++ z :: B := by simp
        rw [e1, e2] at hbal1 hp1 htr1
        obtain ⟨hbr, L, R, hL1, hL2, hL3, hL4⟩ := insert_descend (K1 ++ [med]) K2 (A ++ [y1]) B
          z z1 hA2 hB hbal1 hp1
          (by
            intro a ha
            rcases List.mem_append.1 ha with ha | ha
            · exact hK1 a ha
            · simp at ha; omega)
          hK2' hbz1 hlo (by simp [hz, hY2] at hhi ⊢; omega) hins
        refine ⟨_, rfl, ?_, ?_, ?_, L, R, ?_, ?_, hL3, hL4⟩
        · rw [hset]; exact hbr
        · rw [hset]; simp only [n_mk, List.length_append, List.length_cons, List.length_nil]; omega
        · rw [hset]; simp only [n_mk, List.length_append, List.length_cons, List.length_nil]; omega
        · rw [traverse_node, ← htr1, hL1]
        · rw [hset, traverse_node, hL2]
      · -- descend into the lower half
        have hgy : (A ++ y1 :: z :: B)[K1.length]? = some y1 := by
          rw [← hA]; exact List.getElem?_mid _ _ _
        have hpy : (traverse y1).Pairwise (· ≤ ·) := by
          rw [hsplit] at hpc
          exact (List.pairwise_append.1 hpc).1
        obtain ⟨y2, hy2, hby2, hlo, hhi, hins⟩ :=
          insertNonFull_spec ht k h fuel y1 (by omega) hb1 (by simp [hy1, hY1]; omega) hpy
        simp only [hm, if_false, hgy, hy2]
        have hset : (mk (K1 ++ med :: K2) (A ++ y1 :: z :: B) false).setChild
            K1.length y2 = mk (K1 ++ med :: K2) (A ++ y2 :: z :: B) false := by
          simp only [setChild, keys_mk, C_mk, leaf_mk]
          rw [← hA, List.set_mid]
        obtain ⟨hbr, L, R, hL1, hL2, hL3, hL4⟩ := insert_descend K1 (med :: K2) A (z :: B)
          y1 y2 hA (by simp [hB]) hbal1 hp1 hK1
          (by
            intro b hb
            rcases List.mem_cons.1 hb with rfl | hb
            · omega
            · exact hK2' b hb)
          hby2 hlo (by simp [hy1, hY1] at hhi ⊢; omega) hins
        refine ⟨_, rfl, ?_, ?_, ?_, L, R, ?_, ?_, hL3, hL4⟩
        · rw [hset]; exact hbr
        · rw [hset]; simp only [n_mk, List.length_append, List.length_cons, List.length_nil]; omega
        · rw [hset]; simp only [n_mk, List.length_append, List.length_cons, List.length_nil]; omega
        · rw [traverse_node, ← htr1, hL1]
        · rw [hset, traverse_node, hL2]
    · -- the child has room
      simp only [hfull, if_false]
      obtain ⟨c1, hc1, hbc1, hlo, hhi, hins⟩ :=
        insertNonFull_spec ht k h fuel c (by omega) hcb.2.2 (by omega) hpc
      simp only [hc1]
      have hset : (mk (K1 ++ K2) (A ++ c :: B) false).setChild K1.length c1 =
          mk (K1 ++ K2) (A ++ c1 :: B) false := by
        simp only [setChild, keys_mk, C_mk, leaf_mk]
        rw [← hA, List.set_mid]
      obtain ⟨hbr, L, R, hL1, hL2, hL3, hL4⟩ := insert_descend K1 K2 A B c c1 hA hB hb hp
        hK1 hK2' hbc1 hlo (by omega) hins
      refine ⟨_, rfl, ?_, ?_, ?_, L, R, ?_, ?_, hL3, hL4⟩
      · rw [hset]; exact hbr
      · rw [hset]; simp only [n_mk, List.length_append, List.length_cons, List.length_nil]; omega
      · rw [hset]; simp only [n_mk, List.length_append, List.length_cons, List.length_nil]; omega
      · rw [traverse_node, hL1]
      · rw [hset, traverse_node, hL2]

end BTreeNode

namespace BTreeNode

/-- `BTree::insert` on a non-empty tree, on the level of the root node: the new root `r1`,
its shape and its traversal. -/
theorem insert_root_spec {t : Nat} (ht : 2 ≤ t) (k : Int) (T : BTree) (r : BTreeNode)
    (hroot : T.root = some r) (htt : T.t.toNat = t) (h : Nat) (hb : Bal t h r)
    (hn1 : 1 ≤ r.n) (hn2 : r.n ≤ 2 * t - 1) (hp : (traverse r).Pairwise (· ≤ ·)) :
    ∃ r1, T.insert k = some ⟨some r1, T.t⟩ ∧
      Bal t (if r.n = 2 * t - 1 then h + 1 else h) r1 ∧ 1 ≤ r1.n ∧ r1.n ≤ 2 * t - 1 ∧
      ∃ L R, traverse r = L ++ R ∧ traverse r1 = L ++ k :: R ∧
        (∀ a ∈ L, a ≤ k) ∧ (∀ b ∈ R, k ≤ b) := by
  have hd : r.depth = h := hb.depth_eq
  by_cases hfull : r.n = 2 * t - 1
  · simp only [BTree.insert, hroot, htt, hfull, if_true, hd]
    obtain ⟨yk, yc, yl⟩ := r
    simp only [n_mk] at hfull hn1 hn2
    obtain ⟨Y1, med, Y2, rfl, hY1, hY2⟩ := exists_median (by omega) yk hfull
    have hs := splitChild_eq (t := t) [] [] [] [] false Y1 Y2 med yc yl rfl hY1 hY2 (by omega)
      (by simp; omega)
    simp only [List.nil_append, List.length_nil] at hs
    rw [hs]
    obtain ⟨hb1, hb2, hsplit⟩ := split_halves (by omega) Y1 Y2 med yc yl hY1 hY2 hb
    set y1 := mk Y1 (if yl then yc else yc.take t) yl with hy1
    set z := mk Y2 (if yl then [] else yc.drop t) yl with hz
    have hbal1 : Bal t (h + 1) (mk [med] [y1, z] false) := by
      refine bal_succ.2 ⟨rfl, by simp, ?_⟩
      intro c hcm
      simp only [C_mk, List.mem_cons, List.mem_singleton, List.not_mem_nil, or_false] at hcm
      rcases hcm with rfl | rfl
      · exact ⟨by simp [hy1, hY1], by simp [hy1, hY1]; omega, hb1⟩
      · exact ⟨by simp [hz, hY2], by simp [hz, hY2]; omega, hb2⟩
    have htr1 : traverseC [y1, z] [med] = traverse (mk (Y1 ++ med :: Y2) yc yl) := by
      rw [hsplit]; simp [traverseC]
    have hp1 : (traverseC [y1, z] [med]).Pairwise (· ≤ ·) := by rw [htr1]; exact hp
    simp only [keys_mk, C_mk, List.getElem?_cons_zero]
    by_cases hm : med < k
    · have hpz : (traverse z).Pairwise (· ≤ ·) := by
        rw [hsplit] at hp
        exact (List.pairwise_cons.1 (List.pairwise_append.1 hp).2.1).2
      obtain ⟨z1, hz1, hbz1, hlo, hhi, hins⟩ :=
        insertNonFull_spec ht k h (h + 1) z (by omega) hb2 (by simp [hz, hY2]; omega) hpz
      have hgz : [y1, z][1]? = some z := rfl
      simp only [hm, if_true, hgz, hz1]
      obtain ⟨hbr, L, R, hL1, hL2, hL3, hL4⟩ := insert_descend (k := k) [med] [] [y1] []
        z z1 rfl rfl hbal1 hp1 (by simp; omega) (by simp) hbz1 hlo
        (by simp [hz, hY2] at hhi ⊢; omega) hins
      refine ⟨_, rfl, ?_, ?_, ?_, L, R, ?_, ?_, hL3, hL4⟩
      · exact hbr
      · simp [setChild]
      · simp [setChild]; omega
      · rw [← htr1]; exact hL1
      · simpa [setChild, traverse_node] using hL2
    · have hpy : (traverse y1).Pairwise (· ≤ ·) := by
        rw [hsplit] at hp
        exact (List.pairwise_append.1 hp).1
      obtain ⟨y2, hy2, hby2, hlo, hhi, hins⟩ :=
        insertNonFull_spec ht k h (h + 1) y1 (by omega) hb1 (by simp [hy1, hY1]; omega) hpy
      have hgy : [y1, z][0]? = some y1 := rfl
      simp only [hm, if_false, hgy, hy2]
      obtain ⟨hbr, L, R, hL1, hL2, hL3, hL4⟩ := insert_descend (k := k) [] [med] [] [z]
        y1 y2 rfl rfl hbal1 hp1 (by simp) (by simp; omega) hby2 hlo
        (by simp [hy1, hY1] at hhi ⊢; omega) hins
      refine ⟨_, rfl, ?_, ?_, ?_, L, R, ?_, ?_, hL3, hL4⟩
      · exact hbr
      · simp [setChild]
      · simp [setChild]; omega
      · rw [← htr1]; exact hL1
      · simpa [setChild, traverse_node] using hL2
  · simp only [BTree.insert, hroot, htt, hfull, if_false, hd]
    obtain ⟨r1, hr1, hbr1, hlo, hhi, hins⟩ :=
      insertNonFull_spec ht k h (h + 1) r (by omega) hb (by omega) hp
    simp only [hr1]
    exact ⟨r1, rfl, hbr1, by omega, by omega, hins⟩

end BTreeNode

namespace BTreeNode

/-! ## merge -/

theorem merge_eq {t : Nat} (K1 K2 : List Int) (s : Int) (A B : List BTreeNode) (l : Bool)
    (cl cr : BTreeNode) (hA : A.length = K1.length) (hcl : cl.n = t - 1)
    (hcr : cr.n ≤ t - 1) :
    merge t (mk (K1 ++ s :: K2) (A ++ cl :: cr :: B) l) K1.length =
      some (mk (K1 ++ K2)
        (A ++ mk (cl.keys ++ s :: cr.keys) (if cl.leaf then cl.C else cl.C ++ cr.C) cl.leaf
          :: B) l) := by
  have h1 : (A ++ cl :: cr :: B)[K1.length]? = some cl := by
    rw [← hA]; exact List.getElem?_mid _ _ _
  have h2 : (A ++ cl :: cr :: B)[K1.length + 1]? = some cr := by
    have : A ++ cl :: cr :: B = (A ++ [cl]) ++ cr :: B := by simp
    rw [this, show K1.length + 1 = (A ++ [cl]).length by simp [hA]]
    exact List.getElem?_mid _ _ _
  have h3 : (K1 ++ s :: K2)[K1.length]? = some s := List.getElem?_mid _ _ _
  have h4 : (K1 ++ s :: K2).eraseIdx K1.length = K1 ++ K2 := List.eraseIdx_mid _ _ _
  have h5 : ∀ m : BTreeNode, ((A ++ cl :: cr :: B).set K1.length m).eraseIdx (K1.length + 1) =
      A ++ m :: B := by
    intro m
    rw [← hA, List.set_mid]
    have : A ++ m :: cr :: B = (A ++ [m]) ++ cr :: B := by simp
    rw [this, show A.length + 1 = (A ++ [m]).length by simp, List.eraseIdx_mid]
    simp
  simp only [merge, C_mk, keys_mk, leaf_mk, h1, h2, h3, h4, h5, hcl, hcr, and_self, if_true]

/-- The merged child is balanced and prints the two children with the separating key
between them. -/
theorem merged_child {t h : Nat} (s : Int) (cl cr : BTreeNode)
    (hbl : Bal t h cl) (hbr : Bal t h cr) (hcl : cl.n = t - 1) (hcr : cr.n = t - 1) :
    Bal t h (mk (cl.keys ++ s :: cr.keys) (if cl.leaf then cl.C else cl.C ++ cr.C) cl.leaf) ∧
    traverse (mk (cl.keys ++ s :: cr.keys) (if cl.leaf then cl.C else cl.C ++ cr.C) cl.leaf) =
      traverse cl ++ s :: traverse cr := by
  obtain ⟨lk, lc, ll⟩ := cl
  obtain ⟨rk, rc, rl⟩ := cr
  cases h with
  | zero =>
    have h1 : ll = true := bal_zero.1 hbl
    have h2 : rl = true := bal_zero.1 hbr
    subst h1 h2
    exact ⟨rfl, by simp [traverse]⟩
  | succ h =>
    obtain ⟨h1, hlen1, hc1⟩ := bal_succ.1 hbl
    obtain ⟨h2, hlen2, hc2⟩ := bal_succ.1 hbr
    simp only [leaf_mk, C_mk, n_mk] at h1 h2 hlen1 hlen2 hc1 hc2 hcl hcr
    subst h1 h2
    simp only [keys_mk, C_mk, leaf_mk, Bool.false_eq_true, if_false]
    refine ⟨bal_succ.2 ⟨rfl, by simp [hlen1, hlen2]; omega, ?_⟩, ?_⟩
    · intro c hc
      simp only [C_mk, List.mem_append] at hc
      rcases hc with hc | hc
      · exact hc1 c hc
      · exact hc2 c hc
    · rw [traverse_node, traverse_node, traverse_node]
      exact traverseC_append lk lc s rk rc hlen1

/-! ## borrowFromPrev and borrowFromNext -/

theorem borrowFromPrev_eq {t : Nat} (K1 K2 : List Int) (s : Int) (A B : List BTreeNode)
    (l : Bool) (SK : List Int) (up : Int) (sc : List BTreeNode) (sl : Bool)
    (ck : List Int) (cc : List BTreeNode) (cf : Bool) (childC : List BTreeNode)
    (hA : A.length = K1.length) (hcap : ck.length < 2 * t - 1)
    (hcc : (if cf then some cc
      else (sc[(SK ++ [up]).length]?).map (fun x => x :: cc)) = some childC) :
    borrowFromPrev t (mk (K1 ++ s :: K2) (A ++ mk (SK ++ [up]) sc sl :: mk ck cc cf :: B) l)
        (K1.length + 1) =
      some (mk (K1 ++ up :: K2)
        (A ++ mk SK (if sl then sc else sc.dropLast) sl :: mk (s :: ck) childC cf :: B) l) := by
  have h1 : (A ++ mk (SK ++ [up]) sc sl :: mk ck cc cf :: B)[K1.length]? =
      some (mk (SK ++ [up]) sc sl) := by
    rw [← hA]; exact List.getElem?_mid _ _ _
  have h2 : (A ++ mk (SK ++ [up]) sc sl :: mk ck cc cf :: B)[K1.length + 1]? =
      some (mk ck cc cf) := by
    have : A ++ mk (SK ++ [up]) sc sl :: mk ck cc cf :: B =
        (A ++ [mk (SK ++ [up]) sc sl]) ++ mk ck cc cf :: B := by simp
    rw [this, show K1.length + 1 = (A ++ [mk (SK ++ [up]) sc sl]).length by simp [hA]]
    exact List.getElem?_mid _ _ _
  have h3 : (K1 ++ s :: K2)[K1.length]? = some s := List.getElem?_mid _ _ _
  have h4 : (K1 ++ s :: K2).set K1.length up = K1 ++ up :: K2 := List.set_mid _ _ _ _
  have h5 : ∀ m1 m2 : BTreeNode,
      (((A ++ mk (SK ++ [up]) sc sl :: mk ck cc cf :: B).set (K1.length + 1) m2).set
        K1.length m1) = A ++ m1 :: m2 :: B := by
    intro m1 m2
    have : A ++ mk (SK ++ [up]) sc sl :: mk ck cc cf :: B =
        (A ++ [mk (SK ++ [up]) sc sl]) ++ mk ck cc cf :: B := by simp
    rw [this, show K1.length + 1 = (A ++ [mk (SK ++ [up]) sc sl]).length by simp [hA],
      List.set_mid]
    have : (A ++ [mk (SK ++ [up]) sc sl]) ++ m2 :: B =
        A ++ mk (SK ++ [up]) sc sl :: m2 :: B := by simp
    rw [this, ← hA, List.set_mid]
  have h6 : (SK ++ [up]).getLast? = some up := by simp
  have h7 : (SK ++ [up]).dropLast = SK := by simp
  simp only [borrowFromPrev, Nat.add_sub_cancel, C_mk, keys_mk, leaf_mk, n_mk, h1, h2, h3, h4,
    h5, h6, h7, hcap, hcc, if_true, Nat.succ_ne_zero, if_false]

theorem borrowFromNext_eq {t : Nat} (K1 K2 : List Int) (s : Int) (A B : List BTreeNode)
    (l : Bool) (SK : List Int) (up : Int) (sc : List BTreeNode) (sl : Bool)
    (ck : List Int) (cc : List BTreeNode) (cf : Bool) (childC : List BTreeNode)
    (hA : A.length = K1.length) (hcap : ck.length < 2 * t - 1)
    (hcc : (if cf then some cc else (sc[0]?).map (fun x => cc ++ [x])) = some childC) :
    borrowFromNext t (mk (K1 ++ s :: K2) (A ++ mk ck cc cf :: mk (up :: SK) sc sl :: B) l)
        K1.length =
      some (mk (K1 ++ up :: K2)
        (A ++ mk (ck ++ [s]) childC cf :: mk SK (if sl then sc else sc.tail) sl :: B) l) := by
  have h1 : (A ++ mk ck cc cf :: mk (up :: SK) sc sl :: B)[K1.length]? =
      some (mk ck cc cf) := by
    rw [← hA]; exact List.getElem?_mid _ _ _
  have h2 : (A ++ mk ck cc cf :: mk (up :: SK) sc sl :: B)[K1.length + 1]? =
      some (mk (up :: SK) sc sl) := by
    have : A ++ mk ck cc cf :: mk (up :: SK) sc sl :: B =
        (A ++ [mk ck cc cf]) ++ mk (up :: SK) sc sl :: B := by simp
    rw [this, show K1.length + 1 = (A ++ [mk ck cc cf]).length by simp [hA]]
    exact List.getElem?_mid _ _ _
  have h3 : (K1 ++ s :: K2)[K1.length]? = some s := List.getElem?_mid _ _ _
  have h4 : (K1 ++ s :: K2).set K1.length up = K1 ++ up :: K2 := List.set_mid _ _ _ _
  have h5 : ∀ m1 m2 : BTreeNode,
      (((A ++ mk ck cc cf :: mk (up :: SK) sc sl :: B).set K1.length m1).set
        (K1.length + 1) m2) = A ++ m1 :: m2 :: B := by
    intro m1 m2
    rw [← hA, List.set_mid]
    have : A ++ m1 :: mk (up :: SK) sc sl :: B = (A ++ [m1]) ++ mk (up :: SK) sc sl :: B := by
      simp
    rw [this, show A.length + 1 = (A ++ [m1]).length by simp, List.set_mid]
    simp
  simp only [borrowFromNext, C_mk, keys_mk, leaf_mk, n_mk, h1, h2, h3, h4,
    h5, hcap, hcc, if_true, List.head?_cons, List.tail_cons]

end BTreeNode

namespace BTreeNode

/-- The two children after `borrowFromPrev`. -/
theorem borrowPrev_nodes {t h : Nat} (s up : Int) (SK : List Int) (sc : List BTreeNode)
    (sl : Bool) (ck : List Int) (cc : List BTreeNode) (cf : Bool)
    (hbs : Bal t h (mk (SK ++ [up]) sc sl)) (hbc : Bal t h (mk ck cc cf)) :
    ∃ childC, (if cf then some cc
        else (sc[(SK ++ [up]).length]?).map (fun x => x :: cc)) = some childC ∧
      Bal t h (mk SK (if sl then sc else sc.dropLast) sl) ∧
      Bal t h (mk (s :: ck) childC cf) ∧
      traverse (mk (SK ++ [up]) sc sl) ++ s :: traverse (mk ck cc cf) =
        traverse (mk SK (if sl then sc else sc.dropLast) sl) ++
          up :: traverse (mk (s :: ck) childC cf) ∧
      (∀ x ∈ traverse (mk SK (if sl then sc else sc.dropLast) sl),
        x ∈ traverse (mk (SK ++ [up]) sc sl)) ∧
      up ∈ traverse (mk (SK ++ [up]) sc sl) := by
  cases h with
  | zero =>
    have h1 : sl = true := bal_zero.1 hbs
    have h2 : cf = true := bal_zero.1 hbc
    subst h1 h2
    refine ⟨cc, by simp, rfl, rfl, by simp [traverse], ?_, by simp [traverse]⟩
    intro x hx
    simp only [traverse_leaf, if_true] at hx ⊢
    exact List.mem_append_left _ hx
  | succ h =>
    obtain ⟨h1, hlen1, hc1⟩ := bal_succ.1 hbs
    obtain ⟨h2, hlen2, hc2⟩ := bal_succ.1 hbc
    simp only [leaf_mk, C_mk, n_mk, List.length_append, List.length_singleton]
      at h1 h2 hlen1 hlen2 hc1 hc2
    subst h1 h2
    obtain ⟨SC, lastc, rfl⟩ := List.exists_snoc sc (by intro h0; simp [h0] at hlen1)
    simp only [List.length_append, List.length_singleton] at hlen1 hc1
    have hSC : SC.length = SK.length + 1 := by omega
    have hget : (SC ++ [lastc])[SK.length + 1]? = some lastc := by
      rw [← hSC]
      exact List.getElem?_mid _ _ _
    have htr : traverseC (SC ++ [lastc]) (SK ++ [up]) =
        traverseC SC SK ++ up :: traverse lastc := by
      rw [traverseC_append SK SC up [] [lastc] hSC]
      simp [traverseC]
    refine ⟨lastc :: cc, by simp [hget], bal_succ.2 ⟨rfl, by simp [hSC], ?_⟩,
      bal_succ.2 ⟨rfl, by simp [hlen2], ?_⟩, ?_, ?_, ?_⟩
    · intro c hc
      simp only [C_mk, Bool.false_eq_true, if_false, List.concat_eq_append,
        List.dropLast_concat] at hc
      exact hc1 c (by simp [hc])
    · intro c hc
      simp only [C_mk, List.mem_cons] at hc
      rcases hc with rfl | hc
      · exact hc1 c (by simp)
      · exact hc2 c hc
    · simp only [traverse_node, List.concat_eq_append, htr, Bool.false_eq_true, if_false,
        List.dropLast_concat, traverseC, List.append_assoc, List.cons_append]
    · intro x hx
      simp only [traverse_node, List.concat_eq_append, htr, Bool.false_eq_true, if_false,
        List.dropLast_concat] at hx ⊢
      exact List.mem_append_left _ hx
    · simp only [traverse_node, List.concat_eq_append, htr]
      simp

/-- The two children after `borrowFromNext`. -/
theorem borrowNext_nodes {t h : Nat} (s up : Int) (SK : List Int) (sc : List BTreeNode)
    (sl : Bool) (ck : List Int) (cc : List BTreeNode) (cf : Bool)
    (hbs : Bal t h (mk (up :: SK) sc sl)) (hbc : Bal t h (mk ck cc cf)) :
    ∃ childC, (if cf then some cc else (sc[0]?).map (fun x => cc ++ [x])) = some childC ∧
      Bal t h (mk SK (if sl then sc else sc.tail) sl) ∧
      Bal t h (mk (ck ++ [s]) childC cf) ∧
      traverse (mk ck cc cf) ++ s :: traverse (mk (up :: SK) sc sl) =
        traverse (mk (ck ++ [s]) childC cf) ++
          up :: traverse (mk SK (if sl then sc else sc.tail) sl) ∧
      (∀ x ∈ traverse (mk SK (if sl then sc else sc.tail) sl),
        x ∈ traverse (mk (up :: SK) sc sl)) ∧
      up ∈ traverse (mk (up :: SK) sc sl) := by
  cases h with
  | zero =>
    have h1 : sl = true := bal_zero.1 hbs
    have h2 : cf = true := bal_zero.1 hbc
    subst h1 h2
    refine ⟨cc, by simp, rfl, rfl, by simp [traverse], ?_, by simp [traverse]⟩
    intro x hx
    simp only [traverse_leaf, if_true] at hx ⊢
    exact List.mem_cons_of_mem _ hx
  | succ h =>
    obtain ⟨h1, hlen1, hc1⟩ := bal_succ.1 hbs
    obtain ⟨h2, hlen2, hc2⟩ := bal_succ.1 hbc
    simp only [leaf_mk, C_mk, n_mk, List.length_cons] at h1 h2 hlen1 hlen2 hc1 hc2
    subst h1 h2
    cases sc with
    | nil => simp at hlen1
    | cons firstc SC =>
      simp only [List.length_cons] at hlen1
      have hSC : SC.length = SK.length + 1 := by omega
      have htr : traverseC (cc ++ [firstc]) (ck ++ [s]) =
          traverseC cc ck ++ s :: traverse firstc := by
        rw [traverseC_append ck cc s [] [firstc] hlen2]
        simp [traverseC]
      refine ⟨cc ++ [firstc], by simp, bal_succ.2 ⟨rfl, by simp [hSC], ?_⟩,
        bal_succ.2 ⟨rfl, by simp [hlen2], ?_⟩, ?_, ?_, ?_⟩
      · intro c hc
        simp only [C_mk, Bool.false_eq_true, if_false, List.tail_cons] at hc
        exact hc1 c (by simp [hc])
      · intro c hc
        simp only [C_mk, List.mem_append, List.mem_singleton] at hc
        rcases hc with hc | rfl
        · exact hc2 c hc
        · exact hc1 c (by simp)
      · simp only [traverse_node, htr, Bool.false_eq_true, if_false, List.tail_cons,
          traverseC, List.append_assoc, List.cons_append]
      · intro x hx
        simp only [traverse_node, Bool.false_eq_true, if_false, List.tail_cons,
          traverseC] at hx ⊢
        simp [hx]
      · simp only [traverse_node, traverseC]
        simp

theorem fill_first_false {t : Nat} (K1 : List Int) (A B : List BTreeNode) (c : BTreeNode)
    (hA : A.length = K1.length) (hprev : ∀ s, A.getLast? = some s → s.n < t) :
    (if K1.length = 0 then some false
      else ((A ++ c :: B)[K1.length - 1]?).map (fun s => decide (t ≤ s.n))) = some false := by
  by_cases hnil : A = []
  · subst hnil
    simp at hA
    simp [← hA]
  · obtain ⟨A0, s0, rfl⟩ := List.exists_snoc A hnil
    simp only [List.length_append, List.length_singleton] at hA hprev
    have h0 : K1.length ≠ 0 := by omega
    have hget : (A0 ++ [s0] ++ c :: B)[K1.length - 1]? = some s0 := by
      rw [← hA, Nat.add_sub_cancel, List.append_assoc]
      exact List.getElem?_mid _ _ _
    have := hprev s0 (by simp)
    simp only [List.concat_eq_append, h0, if_false, hget, Option.map_some']
    simp
    omega

theorem fill_second_false {t : Nat} (K1 K2 : List Int) (A B : List BTreeNode) (c : BTreeNode)
    (hA : A.length = K1.length) (hB : B.length = K2.length)
    (hnext : ∀ s, B.head? = some s → s.n < t) :
    (if K1.length = (K1 ++ K2).length then some false
      else ((A ++ c :: B)[K1.length + 1]?).map (fun s => decide (t ≤ s.n))) = some false := by
  cases B with
  | nil =>
    have : K2 = [] := List.length_eq_zero.1 (by simpa using hB.symm)
    subst this
    simp
  | cons s0 B =>
    have h0 : K1.length ≠ (K1 ++ K2).length := by
      simp only [List.length_append, List.length_cons] at hB ⊢; omega
    have hget : (A ++ c :: s0 :: B)[K1.length + 1]? = some s0 := by
      have : A ++ c :: s0 :: B = (A ++ [c]) ++ s0 :: B := by simp
      rw [this, show K1.length + 1 = (A ++ [c]).length by simp [hA]]
      exact List.getElem?_mid _ _ _
    have := hnext s0 (by simp)
    simp only [h0, if_false, hget, Option.map_some']
    simp
    omega

end BTreeNode

namespace BTreeNode

theorem fill_eq (t : Nat) (node : BTreeNode) (idx : Nat) :
    fill t node idx =
      match (if idx = 0 then some false
             else (node.C[idx - 1]?).map (fun s => decide (t ≤ s.n))) with
      | none => none
      | some true => borrowFromPrev t node idx
      | some false =>
        match (if idx = node.n then some false
               else (node.C[idx + 1]?).map (fun s => decide (t ≤ s.n))) with
        | none => none
        | some true => borrowFromNext t node idx
        | some false =>
          if idx ≠ node.n then merge t node idx
          else if idx = 0 then none
          else merge t node (idx - 1) := rfl

/-- What `fill` does to an internal node whose child `idx` holds `t - 1` keys: the child in
the slot the deletion then descends into has at least `t` keys, the printed sequence is
unchanged, and what is printed before (after) that child was printed before (after) the
original child. -/
theorem fill_spec {t h : Nat} (ht : 2 ≤ t) (K1 K2 : List Int) (A B : List BTreeNode)
    (c : BTreeNode) (hA : A.length = K1.length) (hB : B.length = K2.length)
    (hbal : Bal t (h + 1) (mk (K1 ++ K2) (A ++ c :: B) false))
    (hn : 1 ≤ (K1 ++ K2).length) (hc : c.n < t) :
    ∃ K3 K4 A1 B1 d,
      fill t (mk (K1 ++ K2) (A ++ c :: B) false) K1.length =
        some (mk (K3 ++ K4) (A1 ++ d :: B1) false) ∧
      A1.length = K3.length ∧ B1.length = K4.length ∧
      Bal t (h + 1) (mk (K3 ++ K4) (A1 ++ d :: B1) false) ∧
      t ≤ d.n ∧
      traverseC (A1 ++ d :: B1) (K3 ++ K4) = traverseC (A ++ c :: B) (K1 ++ K2) ∧
      (∀ x ∈ travPre A1 K3, x ∈ travPre A K1) ∧
      (∀ x ∈ travPost K4 B1, x ∈ travPost K2 B) ∧
      (K1 ++ K2).length ≤ (K3 ++ K4).length + 1 ∧ (K3 ++ K4).length ≤ (K1 ++ K2).length ∧
      K3.length = (if K1.length = (K1 ++ K2).length ∧ K1.length > (K3 ++ K4).length
        then K1.length - 1 else K1.length) := by
  obtain ⟨_, hlen, hch⟩ := bal_succ.1 hbal
  simp only [C_mk, n_mk] at hlen hch
  have hcb := hch c (by simp)
  have hcn : c.n = t - 1 := by omega
  by_cases hP : ∃ A0 sib, A = A0 ++ [sib] ∧ t ≤ sib.n
  · -- borrow from the previous sibling
    obtain ⟨A0, sib, rfl, hsib⟩ := hP
    obtain ⟨K10, s, rfl⟩ := List.exists_snoc K1 (by intro h0; simp [h0] at hA)
    simp only [List.length_append, List.length_singleton] at hA
    have hA0 : A0.length = K10.length := by omega
    obtain ⟨sk, sc, sl⟩ := sib
    obtain ⟨ck, cc, cf⟩ := c
    simp only [n_mk] at hsib hcn hc
    obtain ⟨SK, up, rfl⟩ := List.exists_snoc sk (by intro h0; simp [h0] at hsib; omega)
    have hsb := hch (mk (SK ++ [up]) sc sl) (by simp)
    obtain ⟨childC, hcc, hb1, hb2, htr, hsub, hup⟩ :=
      borrowPrev_nodes s up SK sc sl ck cc cf hsb.2.2 hcb.2.2
    have e1 : K10 ++ [s] ++ K2 = K10 ++ s :: K2 := by simp
    have e2 : A0 ++ [mk (SK ++ [up]) sc sl] ++ mk ck cc cf :: B =
        A0 ++ mk (SK ++ [up]) sc sl :: mk ck cc cf :: B := by simp
    have hget : (A0 ++ mk (SK ++ [up]) sc sl :: mk ck cc cf :: B)[K10.length]? =
        some (mk (SK ++ [up]) sc sl) := by
      rw [← hA0]; exact List.getElem?_mid _ _ _
    set sib1 := mk SK (if sl then sc else sc.dropLast) sl with hsib1
    set child1 := mk (s :: ck) childC cf with hchild1
    refine ⟨K10 ++ [up], K2, A0 ++ [sib1], B, child1, ?_, by simp [hA0], hB, ?_, ?_, ?_, ?_,
      ?_, ?_, ?_, ?_⟩
    · rw [fill_eq]
      simp only [e1, e2, C_mk, n_mk, List.length_append, List.length_singleton,
        Nat.add_sub_cancel, hget, Option.map_some', Nat.succ_ne_zero, if_false]
      have hd : decide (t ≤ (SK ++ [up]).length) = true := by simpa using hsib
      simp only [List.length_append, List.length_singleton] at hd
      simp only [hd]
      have := borrowFromPrev_eq (t := t) K10 K2 s A0 B false SK up sc sl ck cc cf childC hA0
        (by omega) hcc
      simpa using this
    · refine bal_succ.2 ⟨rfl, by simp only [C_mk, n_mk, List.length_append, List.length_cons, List.length_singleton, List.length_nil, hA0, hB]; omega, ?_⟩
      intro x hx
      simp only [C_mk, List.mem_append, List.mem_cons, List.not_mem_nil, or_false] at hx
      rcases hx with (hx | rfl) | rfl | hx
      · exact hch x (by simp [hx])
      · have h1 := hsb.2.1
        simp only [n_mk, List.length_append, List.length_singleton] at h1 hsib
        exact ⟨by simp only [hsib1, n_mk]; omega, by simp only [hsib1, n_mk]; omega, hb1⟩
      · exact ⟨by simp [hchild1]; omega, by simp [hchild1]; omega, hb2⟩
      · exact hch x (by simp [hx])
    · simp [hchild1]; omega
    · rw [traverseC_split child1 K2 B hB (A0 ++ [sib1]) (K10 ++ [up]) (by simp [hA0]),
        traverseC_split (mk ck cc cf) K2 B hB (A0 ++ [mk (SK ++ [up]) sc sl]) (K10 ++ [s])
          (by simp [hA0]),
        travPre_append A0 K10 _ _ hA0, travPre_append A0 K10 _ _ hA0]
      simp only [travPre_cons, travPre_nil, List.append_assoc, List.cons_append,
        List.nil_append, List.append_cancel_left_eq]
      have := congrArg (fun l => l ++ travPost K2 B) htr
      simpa using this.symm
    · intro x hx
      rw [travPre_append A0 K10 _ _ hA0] at hx ⊢
      simp only [travPre_cons, travPre_nil, List.mem_append, List.mem_cons,
        List.not_mem_nil, or_false] at hx ⊢
      rcases hx with hx | hx | hx
      · exact Or.inl hx
      · exact Or.inr (Or.inl (hsub x hx))
      · exact Or.inr (Or.inl (hx ▸ hup))
    · exact fun x hx => hx
    · simp only [List.length_append, List.length_cons, List.length_singleton, List.length_nil]; omega
    · simp only [List.length_append, List.length_cons, List.length_singleton, List.length_nil]; omega
    · simp only [List.length_append, List.length_singleton]
      split_ifs with h1
      · omega
      · rfl
  · have hprev : ∀ s, A.getLast? = some s → s.n < t := by
      intro s hs
      by_contra hcon
      have hne : A ≠ [] := by intro h0; simp [h0] at hs
      obtain ⟨A0, s0, rfl⟩ := List.exists_snoc A hne
      simp at hs
      exact hP ⟨A0, s0, rfl, by subst hs; omega⟩
    have hfirst := fill_first_false K1 A B c hA hprev
    by_cases hN : ∃ sib B0, B = sib :: B0 ∧ t ≤ sib.n
    · -- borrow from the next sibling
      obtain ⟨sib, B0, rfl, hsib⟩ := hN
      cases K2 with
      | nil => simp at hB
      | cons s K20 =>
        simp only [List.length_cons] at hB
        have hB0 : B0.length = K20.length := by omega
        obtain ⟨sk, sc, sl⟩ := sib
        obtain ⟨ck, cc, cf⟩ := c
        simp only [n_mk] at hsib hcn hc
        cases sk with
        | nil => simp at hsib; omega
        | cons up SK =>
          have hsb := hch (mk (up :: SK) sc sl) (by simp)
          obtain ⟨childC, hcc, hb1, hb2, htr, hsub, hup⟩ :=
            borrowNext_nodes s up SK sc sl ck cc cf hsb.2.2 hcb.2.2
          have hget : (A ++ mk ck cc cf :: mk (up :: SK) sc sl :: B0)[K1.length + 1]? =
              some (mk (up :: SK) sc sl) := by
            have : A ++ mk ck cc cf :: mk (up :: SK) sc sl :: B0 =
                (A ++ [mk ck cc cf]) ++ mk (up :: SK) sc sl :: B0 := by simp
            rw [this, show K1.length + 1 = (A ++ [mk ck cc cf]).length by simp [hA]]
            exact List.getElem?_mid _ _ _
          set sib1 := mk SK (if sl then sc else sc.tail) sl with hsib1
          set child1 := mk (ck ++ [s]) childC cf with hchild1
          refine ⟨K1, up :: K20, A, sib1 :: B0, child1, ?_, hA, by simp [hB0], ?_, ?_, ?_,
            ?_, ?_, ?_, ?_, ?_⟩
          · rw [fill_eq]
            simp only [C_mk, n_mk, hfirst]
            have hne : K1.length ≠ (K1 ++ s :: K20).length := by simp
            have hd : decide (t ≤ (up :: SK).length) = true := by simpa using hsib
            simp only [hne, if_false, hget, Option.map_some', n_mk, hd]
            exact borrowFromNext_eq (t := t) K1 K20 s A B0 false SK up sc sl ck cc cf childC
              hA (by omega) hcc
          · refine bal_succ.2 ⟨rfl, by simp only [C_mk, n_mk, List.length_append, List.length_cons, List.length_singleton, List.length_nil, hA, hB0]; omega, ?_⟩
            intro x hx
            simp only [C_mk, List.mem_append, List.mem_cons] at hx
            rcases hx with hx | rfl | rfl | hx
            · exact hch x (by simp [hx])
            · exact ⟨by simp [hchild1]; omega, by simp [hchild1]; omega, hb2⟩
            · have h1 := hsb.2.1
              simp only [n_mk, List.length_cons] at h1 hsib
              exact ⟨by simp only [hsib1, n_mk]; omega, by simp only [hsib1, n_mk]; omega, hb1⟩
            · exact hch x (by simp [hx])
          · simp [hchild1]; omega
          · rw [traverseC_split child1 (up :: K20) (sib1 :: B0) (by simp [hB0]) A K1 hA,
              traverseC_split (mk ck cc cf) (s :: K20) (mk (up :: SK) sc sl :: B0)
                (by simp [hB0]) A K1 hA]
            simp only [travPost_cons, List.append_cancel_left_eq]
            have := congrArg (fun l => l ++ travPost K20 B0) htr
            simpa using this.symm
          · exact fun x hx => hx
          · intro x hx
            simp only [travPost_cons, List.mem_append, List.mem_cons] at hx ⊢
            rcases hx with hx | hx | hx
            · exact Or.inr (Or.inl (hx ▸ hup))
            · exact Or.inr (Or.inl (hsub x hx))
            · exact Or.inr (Or.inr hx)
          · simp only [List.length_append, List.length_cons, List.length_singleton, List.length_nil]; omega
          · simp only [List.length_append, List.length_cons, List.length_singleton, List.length_nil]; omega
          · simp only [List.length_append, List.length_cons]
            split_ifs with h1
            · omega
            · rfl
    · have hnext : ∀ s, B.head? = some s → s.n < t := by
        intro s hs
        by_contra hcon
        cases B with
        | nil => simp at hs
        | cons s0 B0 =>
          simp at hs
          exact hN ⟨s0, B0, rfl, by subst hs; omega⟩
      have hsecond := fill_second_false K1 K2 A B c hA hB hnext
      cases B with
      | cons cr B0 =>
        -- merge with the next sibling
        cases K2 with
        | nil => simp at hB
        | cons s K20 =>
          simp only [List.length_cons] at hB
          have hB0 : B0.length = K20.length := by omega
          have hcrb := hch cr (by simp)
          have hcrn : cr.n = t - 1 := by
            have := hnext cr (by simp)
            omega
          obtain ⟨hbm, htm⟩ := merged_child s c cr hcb.2.2 hcrb.2.2 hcn hcrn
          set m := mk (c.keys ++ s :: cr.keys) (if c.leaf then c.C else c.C ++ cr.C) c.leaf
            with hm
          have hmn : m.n = 2 * t - 1 := by
            simp only [hm, n_mk, List.length_append, List.length_cons]
            have h1 : c.keys.length = t - 1 := hcn
            have h2 : cr.keys.length = t - 1 := hcrn
            omega
          refine ⟨K1, K20, A, B0, m, ?_, hA, hB0, ?_, by omega, ?_, fun x hx => hx, ?_, ?_, ?_,
            ?_⟩
          · rw [fill_eq]
            simp only [C_mk, n_mk, hfirst, hsecond]
            have hne : K1.length ≠ (K1 ++ s :: K20).length := by simp
            simp only [ne_eq, hne, not_false_eq_true, if_true]
            exact merge_eq K1 K20 s A B0 false c cr hA hcn (by omega)
          · refine bal_succ.2 ⟨rfl, by simp only [C_mk, n_mk, List.length_append, List.length_cons, List.length_singleton, List.length_nil, hA, hB0]; omega, ?_⟩
            intro x hx
            simp only [C_mk, List.mem_append, List.mem_cons] at hx
            rcases hx with hx | rfl | hx
            · exact hch x (by simp [hx])
            · exact ⟨by omega, by omega, hbm⟩
            · exact hch x (by simp [hx])
          · rw [traverseC_split m K20 B0 hB0 A K1 hA,
              traverseC_split c (s :: K20) (cr :: B0) (by simp [hB0]) A K1 hA, htm]
            simp
          · intro x hx
            simp only [travPost_cons, List.mem_append, List.mem_cons]
            exact Or.inr (Or.inr hx)
          · simp only [List.length_append, List.length_cons, List.length_singleton, List.length_nil]; omega
          · simp only [List.length_append, List.length_cons, List.length_singleton, List.length_nil]; omega
          · simp only [List.length_append, List.length_cons]
            split_ifs with h1
            · omega
            · rfl
      | nil =>
        -- last child: merge with the previous sibling
        have hK2 : K2 = [] := List.length_eq_zero.1 (by simpa using hB.symm)
        subst hK2
        simp only [List.append_nil] at hn hlen ⊢
        have hAne : A ≠ [] := by intro h0; simp [h0] at hA; omega
        obtain ⟨A0, cl, rfl⟩ := List.exists_snoc A hAne
        obtain ⟨K10, s, rfl⟩ := List.exists_snoc K1 (by intro h0; simp [h0] at hn)
        simp only [List.length_append, List.length_singleton] at hA
        have hA0 : A0.length = K10.length := by omega
        have hclb := hch cl (by simp)
        have hcln : cl.n = t - 1 := by
          have := hprev cl (by simp)
          omega
        obtain ⟨hbm, htm⟩ := merged_child s cl c hclb.2.2 hcb.2.2 hcln hcn
        set m := mk (cl.keys ++ s :: c.keys) (if cl.leaf then cl.C else cl.C ++ c.C) cl.leaf
          with hm
        have hmn : m.n = 2 * t - 1 := by
          simp only [hm, n_mk, List.length_append, List.length_cons]
          have h1 : c.keys.length = t - 1 := hcn
          have h2 : cl.keys.length = t - 1 := hcln
          omega
        refine ⟨K10, [], A0, [], m, ?_, hA0, rfl, ?_, by omega, ?_, ?_, fun x hx => hx, ?_, ?_,
          ?_⟩
        · rw [fill_eq]
          simp only [List.append_nil] at hsecond
          simp only [C_mk, n_mk, hfirst, hsecond]
          have hne : (K10 ++ [s]).length ≠ 0 := by simp
          simp only [ne_eq, not_true_eq_false, if_false, hne, List.length_append,
            List.length_singleton, Nat.add_sub_cancel]
          have := merge_eq (t := t) K10 [] s A0 [] false cl c hA0 hcln (by omega)
          simpa using this
        · refine bal_succ.2 ⟨rfl, by simp [hA0], ?_⟩
          intro x hx
          simp only [C_mk, List.mem_append, List.mem_singleton, List.append_nil] at hx
          rcases hx with hx | rfl
          · exact hch x (by simp [hx])
          · exact ⟨by omega, by omega, hbm⟩
        · have e1 : A0 ++ [cl] ++ [c] = A0 ++ cl :: c :: [] := by simp
          have e2 : K10 ++ [s] = K10 ++ s :: [] := by simp
          rw [e1, traverseC_split m [] [] rfl A0 K10 hA0, e2]
          have := traverseC_split cl [s] [c] rfl A0 K10 hA0
          rw [this, htm]
          simp
        · intro x hx
          rw [travPre_append A0 K10 _ _ hA0]
          exact List.mem_append_left _ hx
        · simp only [List.length_append, List.length_cons, List.length_singleton, List.length_nil]; omega
        · simp only [List.length_append, List.length_cons, List.length_singleton, List.length_nil]; omega
        · simp only [List.length_append, List.length_singleton, List.append_nil,
            List.length_nil, Nat.add_zero]
          rw [if_pos ⟨trivial, by omega⟩]
          omega

end BTreeNode

namespace BTreeNode

/-! ## Removing a key from a sorted sequence -/

theorem removeKey_append (k : Int) (X Y : List Int) :
    removeKey k (X ++ Y) = removeKey k X ++ removeKey k Y := by
  simp [removeKey]

theorem removeKey_eq_self {k : Int} {X : List Int} (h : ∀ x ∈ X, x ≠ k) :
    removeKey k X = X := by
  unfold removeKey
  rw [List.filter_eq_self]
  intro x hx
  simpa using h x hx

theorem removeKey_cons_self (k : Int) (X : List Int) :
    removeKey k (k :: X) = removeKey k X := by
  simp [removeKey]

theorem removeKey_mid {k : Int} {X Y : List Int} (h : (X ++ k :: Y).Pairwise (· < ·)) :
    removeKey k (X ++ k :: Y) = X ++ Y := by
  rw [List.pairwise_append, List.pairwise_cons] at h
  obtain ⟨_, ⟨h2, _⟩, h3⟩ := h
  rw [removeKey_append, removeKey_cons_self,
    removeKey_eq_self (fun x hx => ne_of_lt (h3 x hx k (by simp))),
    removeKey_eq_self (fun x hx => ne_of_gt (h2 x hx))]

theorem mem_removeKey {k x : Int} {X : List Int} : x ∈ removeKey k X ↔ x ∈ X ∧ x ≠ k := by
  simp [removeKey]

theorem removeKey_sublist (k : Int) (X : List Int) : (removeKey k X).Sublist X :=
  List.filter_sublist X

/-! ## Predecessor and successor -/

theorem predAt_mid (c : BTreeNode) (B : List BTreeNode) :
    ∀ A : List BTreeNode, predAt (A ++ c :: B) A.length = predFrom c
  | [] => by simp [predAt]
  | a :: A => by simpa [predAt] using predAt_mid c B A

theorem succAt_mid (c : BTreeNode) (B : List BTreeNode) :
    ∀ A : List BTreeNode, succAt (A ++ c :: B) A.length = succFrom c
  | [] => by simp [succAt]
  | a :: A => by simpa [succAt] using succAt_mid c B A

theorem predFrom_spec {t : Nat} (ht : 2 ≤ t) :
    ∀ (h : Nat) (c : BTreeNode), Bal t h c → 1 ≤ c.n →
      ∃ p X, predFrom c = some p ∧ traverse c = X ++ [p]
  | 0, mk ks cs l, hb, hn => by
    have : l = true := bal_zero.1 hb
    subst this
    simp only [n_mk] at hn
    obtain ⟨X, p, rfl⟩ := List.exists_snoc ks (by intro h0; simp [h0] at hn)
    exact ⟨p, X, by simp [predFrom], by simp [traverse]⟩
  | h + 1, mk ks cs l, hb, _ => by
    obtain ⟨hl, hlen, hc⟩ := bal_succ.1 hb
    simp only [leaf_mk, C_mk, n_mk] at hl hlen hc
    subst hl
    obtain ⟨SC, lastc, rfl⟩ := List.exists_snoc cs (by intro h0; simp [h0] at hlen)
    simp only [List.length_append, List.length_singleton] at hlen
    have hSC : SC.length = ks.length := by omega
    have hlb := hc lastc (by simp)
    obtain ⟨p, X, hp, hX⟩ := predFrom_spec ht h lastc hlb.2.2 (by omega)
    refine ⟨p, travPre SC ks ++ X, ?_, ?_⟩
    · simp only [predFrom, Bool.false_eq_true, if_false]
      rw [← hSC, predAt_mid]
      exact hp
    · have := traverseC_split lastc [] [] rfl SC ks hSC
      simp only [List.append_nil, travPost_nil] at this
      rw [traverse_node, this, hX, List.append_assoc]

theorem succFrom_spec {t : Nat} (ht : 2 ≤ t) :
    ∀ (h : Nat) (c : BTreeNode), Bal t h c → 1 ≤ c.n →
      ∃ p X, succFrom c = some p ∧ traverse c = p :: X
  | 0, mk ks cs l, hb, hn => by
    have : l = true := bal_zero.1 hb
    subst this
    simp only [n_mk] at hn
    cases ks with
    | nil => simp at hn
    | cons p X => exact ⟨p, X, by simp [succFrom], by simp [traverse]⟩
  | h + 1, mk ks cs l, hb, _ => by
    obtain ⟨hl, hlen, hc⟩ := bal_succ.1 hb
    simp only [leaf_mk, C_mk, n_mk] at hl hlen hc
    subst hl
    cases cs with
    | nil => simp at hlen
    | cons c0 rest =>
      simp only [List.length_cons] at hlen
      have hlb := hc c0 (by simp)
      obtain ⟨p, X, hp, hX⟩ := succFrom_spec ht h c0 hlb.2.2 (by omega)
      refine ⟨p, X ++ travPost ks rest, ?_, ?_⟩
      · simp only [succFrom, Bool.false_eq_true, if_false, succAt]
        exact hp
      · rw [traverse_node, traverseC_cons_post c0 ks rest (by omega), hX]
        simp

/-! ## Descending into a child during deletion -/

theorem delete_descend {t h : Nat} {k : Int} (K1 K2 : List Int) (A B : List BTreeNode)
    (d d1 : BTreeNode) (hA : A.length = K1.length) (hB : B.length = K2.length)
    (hbal : Bal t (h + 1) (mk (K1 ++ K2) (A ++ d :: B) false))
    (hpre : ∀ x ∈ travPre A K1, x ≠ k) (hpost : ∀ x ∈ travPost K2 B, x ≠ k)
    (htd : t ≤ d.n) (hd1 : Bal t h d1) (hlo : d.n ≤ d1.n + 1) (hhi : d1.n ≤ d.n)
    (htr : traverse d1 = removeKey k (traverse d)) :
    Bal t (h + 1) (mk (K1 ++ K2) (A ++ d1 :: B) false) ∧
    traverseC (A ++ d1 :: B) (K1 ++ K2) = removeKey k (traverseC (A ++ d :: B) (K1 ++ K2)) ∧
    (k ∈ traverseC (A ++ d :: B) (K1 ++ K2) ↔ k ∈ traverse d) := by
  obtain ⟨_, hlen, hc⟩ := bal_succ.1 hbal
  simp only [C_mk, n_mk] at hlen hc
  rw [traverseC_split d K2 B hB A K1 hA, traverseC_split d1 K2 B hB A K1 hA]
  refine ⟨bal_succ.2 ⟨rfl, by simpa using hlen, ?_⟩, ?_, ?_⟩
  · intro c hcm
    simp only [C_mk, List.mem_append, List.mem_cons] at hcm
    rcases hcm with hcm | rfl | hcm
    · exact hc c (by simp [hcm])
    · have := (hc d (by simp)).2.1
      exact ⟨by omega, by omega, hd1⟩
    · exact hc c (by simp [hcm])
  · rw [removeKey_append, removeKey_append, removeKey_eq_self hpre, removeKey_eq_self hpost,
      htr]
  · simp only [List.mem_append]
    constructor
    · rintro (h1 | h1 | h1)
      · exact absurd rfl (hpre k h1)
      · exact h1
      · exact absurd rfl (hpost k h1)
    · intro h1
      exact Or.inr (Or.inl h1)

end BTreeNode

namespace BTreeNode

theorem removeFromNonLeaf_spec {t h : Nat} (ht : 2 ≤ t)
    (del : BTreeNode → Int → Option (BTreeNode × List Msg)) (hdel : DelOK t h del)
    (K1 K2 : List Int) (k : Int) (A B : List BTreeNode) (cl cr : BTreeNode)
    (hA : A.length = K1.length) (hB : B.length = K2.length)
    (hbal : Bal t (h + 1) (mk (K1 ++ k :: K2) (A ++ cl :: cr :: B) false))
    (hp : (traverseC (A ++ cl :: cr :: B) (K1 ++ k :: K2)).Pairwise (· < ·)) :
    ∃ r, removeFromNonLeaf t del (mk (K1 ++ k :: K2) (A ++ cl :: cr :: B) false) K1.length =
        some (r, []) ∧
      Bal t (h + 1) r ∧ (K1 ++ k :: K2).length ≤ r.n + 1 ∧ r.n ≤ (K1 ++ k :: K2).length ∧
      traverse r = removeKey k (traverseC (A ++ cl :: cr :: B) (K1 ++ k :: K2)) := by
  obtain ⟨_, hlen, hch⟩ := bal_succ.1 hbal
  simp only [C_mk, n_mk] at hlen hch
  have hclb := hch cl (by simp)
  have hcrb := hch cr (by simp)
  have hk : (K1 ++ k :: K2)[K1.length]? = some k := List.getElem?_mid _ _ _
  have hgl : (A ++ cl :: cr :: B)[K1.length]? = some cl := by
    rw [← hA]; exact List.getElem?_mid _ _ _
  have hgr : (A ++ cl :: cr :: B)[K1.length + 1]? = some cr := by
    have : A ++ cl :: cr :: B = (A ++ [cl]) ++ cr :: B := by simp
    rw [this, show K1.length + 1 = (A ++ [cl]).length by simp [hA]]
    exact List.getElem?_mid _ _ _
  have htr := traverseC_split cl (k :: K2) (cr :: B) (by simp [hB]) A K1 hA
  simp only [travPost_cons] at htr
  rw [htr] at hp ⊢
  have hpl : (traverse cl).Pairwise (· < ·) :=
    (List.pairwise_append.1 (List.pairwise_append.1 hp).2.1).1
  have hpr : (traverse cr).Pairwise (· < ·) := by
    have := (List.pairwise_append.1 (List.pairwise_append.1 hp).2.1).2.1
    exact (List.pairwise_append.1 (List.pairwise_cons.1 this).2).1
  have hrem : removeKey k (travPre A K1 ++ (traverse cl ++ k :: (traverse cr ++ travPost K2 B)))
      = travPre A K1 ++ (traverse cl ++ (traverse cr ++ travPost K2 B)) := by
    have := removeKey_mid (k := k) (X := travPre A K1 ++ traverse cl)
      (Y := traverse cr ++ travPost K2 B) (by simpa using hp)
    simpa using this
  rw [hrem]
  unfold removeFromNonLeaf
  simp only [keys_mk, C_mk, leaf_mk, hk, hgl, hgr]
  by_cases h1 : t ≤ cl.n
  · -- replace the key by its predecessor
    obtain ⟨p, X, hpred, hX⟩ := predFrom_spec ht h cl hclb.2.2 (by omega)
    have hgp : getPredecessor (mk (K1 ++ k :: K2) (A ++ cl :: cr :: B) false) K1.length =
        some p := by
      simp only [getPredecessor, C_mk]
      rw [← hA, predAt_mid]; exact hpred
    obtain ⟨cl1, out, hd, hb1, hlo, hhi, htr1, hout⟩ := hdel cl p hclb.2.2 (by omega) hpl
    have hX1 : traverse cl1 = X := by
      rw [htr1, hX]
      have := removeKey_mid (k := p) (X := X) (Y := []) (by rw [← hX]; exact hpl)
      simpa using this
    have hout1 : out = [] := by rw [hout, hX]; simp
    subst hout1
    simp only [h1, if_true, hgp, hd]
    have hset1 : (K1 ++ k :: K2).set K1.length p = K1 ++ p :: K2 := List.set_mid _ _ _ _
    have hset2 : (A ++ cl :: cr :: B).set K1.length cl1 = A ++ cl1 :: cr :: B := by
      rw [← hA]; exact List.set_mid _ _ _ _
    rw [hset1, hset2]
    refine ⟨_, rfl, bal_succ.2 ⟨rfl, by simpa using hlen, ?_⟩, by simp, by simp, ?_⟩
    · intro c hcm
      simp only [C_mk, List.mem_append, List.mem_cons] at hcm
      rcases hcm with hcm | rfl | rfl | hcm
      · exact hch c (by simp [hcm])
      · exact ⟨by omega, by omega, hb1⟩
      · exact hcrb
      · exact hch c (by simp [hcm])
    · rw [traverse_node,
        traverseC_split cl1 (p :: K2) (cr :: B) (by simp [hB]) A K1 hA, hX1, hX]
      simp
  · simp only [h1, if_false]
    by_cases h2 : t ≤ cr.n
    · -- replace the key by its successor
      obtain ⟨p, X, hsucc, hX⟩ := succFrom_spec ht h cr hcrb.2.2 (by omega)
      have hgs : getSuccessor (mk (K1 ++ k :: K2) (A ++ cl :: cr :: B) false) K1.length =
          some p := by
        simp only [getSuccessor, C_mk]
        have : A ++ cl :: cr :: B = (A ++ [cl]) ++ cr :: B := by simp
        rw [this, show K1.length + 1 = (A ++ [cl]).length by simp [hA], succAt_mid]
        exact hsucc
      obtain ⟨cr1, out, hd, hb1, hlo, hhi, htr1, hout⟩ := hdel cr p hcrb.2.2 (by omega) hpr
      have hX1 : traverse cr1 = X := by
        rw [htr1, hX]
        have := removeKey_mid (k := p) (X := []) (Y := X) (by rw [← hX]; exact hpr)
        simpa using this
      have hout1 : out = [] := by rw [hout, hX]; simp
      subst hout1
      simp only [h2, if_true, hgs, hd]
      have hset1 : (K1 ++ k :: K2).set K1.length p = K1 ++ p :: K2 := List.set_mid _ _ _ _
      have hset2 : (A ++ cl :: cr :: B).set (K1.length + 1) cr1 = A ++ cl :: cr1 :: B := by
        have : A ++ cl :: cr :: B = (A ++ [cl]) ++ cr :: B := by simp
        rw [this, show K1.length + 1 = (A ++ [cl]).length by simp [hA], List.set_mid]
        simp
      rw [hset1, hset2]
      refine ⟨_, rfl, bal_succ.2 ⟨rfl, by simpa using hlen, ?_⟩, by simp, by simp, ?_⟩
      · intro c hcm
        simp only [C_mk, List.mem_append, List.mem_cons] at hcm
        rcases hcm with hcm | rfl | rfl | hcm
        · exact hch c (by simp [hcm])
        · exact hclb
        · exact ⟨by omega, by omega, hb1⟩
        · exact hch c (by simp [hcm])
      · rw [traverse_node,
          traverseC_split cl (p :: K2) (cr1 :: B) (by simp [hB]) A K1 hA, travPost_cons,
          hX1, hX]
        simp
    · -- both neighbours are minimal: merge them around the key and delete it there
      simp only [h2, if_false]
      have hcln : cl.n = t - 1 := by omega
      have hcrn : cr.n = t - 1 := by omega
      rw [merge_eq K1 K2 k A B false cl cr hA hcln (by omega)]
      obtain ⟨hbm, htm⟩ := merged_child k cl cr hclb.2.2 hcrb.2.2 hcln hcrn
      set m := mk (cl.keys ++ k :: cr.keys) (if cl.leaf then cl.C else cl.C ++ cr.C) cl.leaf
        with hm
      have hmn : m.n = 2 * t - 1 := by
        simp only [hm, n_mk, List.length_append, List.length_cons]
        have e1 : cl.keys.length = t - 1 := hcln
        have e2 : cr.keys.length = t - 1 := hcrn
        omega
      have hgm : (A ++ m :: B)[K1.length]? = some m := by
        rw [← hA]; exact List.getElem?_mid _ _ _
      have hpm : (traverse m).Pairwise (· < ·) := by
        rw [htm]
        have := (List.pairwise_append.1 hp).2.1
        have e : traverse cl ++ k :: (traverse cr ++ travPost K2 B) =
            (traverse cl ++ k :: traverse cr) ++ travPost K2 B := by simp
        rw [e] at this
        exact (List.pairwise_append.1 this).1
      obtain ⟨m1, out, hd, hb1, hlo, hhi, htr1, hout⟩ := hdel m k hbm (by omega) hpm
      have hout1 : out = [] := by rw [hout, htm]; simp
      subst hout1
      simp only [C_mk, hgm, hd, setChild, keys_mk, leaf_mk]
      have hset : (A ++ m :: B).set K1.length m1 = A ++ m1 :: B := by
        rw [← hA]; exact List.set_mid _ _ _ _
      rw [hset]
      have hbal1 : Bal t (h + 1) (mk (K1 ++ K2) (A ++ m :: B) false) := by
        refine bal_succ.2 ⟨rfl, by
          simp only [C_mk, n_mk, List.length_append, List.length_cons] at hlen ⊢; omega, ?_⟩
        intro c hcm
        simp only [C_mk, List.mem_append, List.mem_cons] at hcm
        rcases hcm with hcm | rfl | hcm
        · exact hch c (by simp [hcm])
        · exact ⟨by omega, by omega, hbm⟩
        · exact hch c (by simp [hcm])
      have hpre : ∀ x ∈ travPre A K1, x ≠ k := by
        intro x hx
        exact ne_of_lt ((List.pairwise_append.1 hp).2.2 x hx k (by simp))
      have hpost : ∀ x ∈ travPost K2 B, x ≠ k := by
        intro x hx
        have h3 := (List.pairwise_append.1 (List.pairwise_append.1 hp).2.1).2.1
        exact ne_of_gt ((List.pairwise_cons.1 h3).1 x (by simp [hx]))
      obtain ⟨hbr, htrr, _⟩ := delete_descend K1 K2 A B m m1 hA hB hbal1 hpre hpost
        (by omega) hb1 hlo hhi htr1
      refine ⟨_, rfl, hbr,
        by simp only [n_mk, List.length_append, List.length_cons]; omega,
        by simp only [n_mk, List.length_append, List.length_cons]; omega, ?_⟩
      rw [traverse_node, htrr, traverseC_split m K2 B hB A K1 hA, htm]
      have := hrem
      simp only [List.append_assoc, List.cons_append] at this ⊢
      exact this

end BTreeNode

namespace BTreeNode

theorem deletion_succ (t fuel : Nat) (node : BTreeNode) (k : Int) :
    deletion t (fuel + 1) node k =
      if node.keys[node.findKey k]? = some k then
        if node.leaf then some (node.removeFromLeaf (node.findKey k), [])
        else removeFromNonLeaf t (deletion t fuel) node (node.findKey k)
      else if node.leaf then some (node, [Msg.keyMissing k])
      else
        match node.C[node.findKey k]? with
        | none => none
        | some c =>
          match (if c.n < t then fill t node (node.findKey k) else some node) with
          | none => none
          | some node1 =>
            match node1.C[if decide (node.findKey k = node.n) = true ∧
                node.findKey k > node1.n then node.findKey k - 1 else node.findKey k]? with
            | none => none
            | some cj =>
              match deletion t fuel cj k with
              | none => none
              | some (cj1, out) =>
                some (node1.setChild (if decide (node.findKey k = node.n) = true ∧
                  node.findKey k > node1.n then node.findKey k - 1 else node.findKey k) cj1,
                  out) := rfl

/-- The keys found by `findKey` when the key at the found index is not `k`: strictly below
`k` before the index, strictly above from the index on. -/
theorem findKey_absent (k : Int) (ks : List Int) (hs : ks.Pairwise (· < ·))
    (hk : ks[findKeyFrom ks k]? ≠ some k) :
    ∃ K1 K2, ks = K1 ++ K2 ∧ K1.length = findKeyFrom ks k ∧
      (∀ a ∈ K1, a < k) ∧ (∀ b ∈ K2, k < b) := by
  obtain ⟨K1, K2, h1, h2, h3, h4⟩ := findKeyFrom_sorted k ks (hs.imp le_of_lt)
  refine ⟨K1, K2, h1, h2, h3, ?_⟩
  subst h1
  rw [← h2] at hk
  cases K2 with
  | nil => simp
  | cons c K2 =>
    have hc : (K1 ++ c :: K2)[K1.length]? = some c := List.getElem?_mid _ _ _
    rw [hc] at hk
    have hck : c ≠ k := fun h => hk (by rw [h])
    have hck2 : k ≤ c := h4 c (by simp)
    intro b hb
    rcases List.mem_cons.1 hb with rfl | hb
    · omega
    · have hp := (List.pairwise_append.1 hs).2.1
      have : c < b := (List.pairwise_cons.1 hp).1 b hb
      omega

theorem findKey_present (k : Int) (ks : List Int) (hs : ks.Pairwise (· < ·))
    (hk : ks[findKeyFrom ks k]? = some k) :
    ∃ K1 K2, ks = K1 ++ k :: K2 ∧ K1.length = findKeyFrom ks k := by
  obtain ⟨K1, K2, h1, h2, _, _⟩ := findKeyFrom_sorted k ks (hs.imp le_of_lt)
  subst h1
  rw [← h2] at hk
  cases K2 with
  | nil => simp at hk
  | cons c K2 =>
    have hc : (K1 ++ c :: K2)[K1.length]? = some c := List.getElem?_mid _ _ _
    rw [hc] at hk
    have : c = k := by simpa using hk
    subst this
    exact ⟨K1, K2, rfl, h2⟩

/-- The recursive `deletion` on a balanced, strictly sorted subtree with enough fuel. -/
theorem deletion_spec {t : Nat} (ht : 2 ≤ t) :
    ∀ (h fuel : Nat), h < fuel → DelOK t h (deletion t fuel)
  | _, 0, hf => by omega
  | 0, fuel + 1, _ => by
    intro c k hb hn hp
    obtain ⟨ks, cs, l⟩ := c
    have : l = true := bal_zero.1 hb
    subst this
    rw [traverse_leaf] at hp ⊢
    rw [deletion_succ]
    simp only [keys_mk, leaf_mk, findKey, if_true]
    by_cases hk : ks[findKeyFrom ks k]? = some k
    · obtain ⟨K1, K2, rfl, hi⟩ := findKey_present k ks hp hk
      rw [← hi] at hk
      simp only [hk, if_true, removeFromLeaf, keys_mk, C_mk, leaf_mk, ← hi,
        List.eraseIdx_mid]
      refine ⟨_, _, rfl, rfl, by simp only [n_mk, List.length_append, List.length_cons]; omega,
        by simp only [n_mk, List.length_append, List.length_cons]; omega, ?_, by simp⟩
      rw [traverse_leaf, removeKey_mid hp]
    · obtain ⟨K1, K2, rfl, hi, hK1, hK2⟩ := findKey_absent k ks hp hk
      simp only [hk, if_false]
      have hnot : k ∉ K1 ++ K2 := by
        intro hm
        rcases List.mem_append.1 hm with hm | hm
        · exact absurd (hK1 k hm) (lt_irrefl _)
        · exact absurd (hK2 k hm) (lt_irrefl _)
      refine ⟨_, _, rfl, rfl, by omega, le_refl _, ?_, by simp [hnot]⟩
      rw [traverse_leaf, removeKey_eq_self]
      intro x hx hxk
      exact hnot (hxk ▸ hx)
  | h + 1, fuel + 1, hf => by
    have ih : DelOK t h (deletion t fuel) := deletion_spec ht h fuel (by omega)
    intro c k hb hn hp
    obtain ⟨ks, cs, l⟩ := c
    obtain ⟨hl, hlen, hch⟩ := bal_succ.1 hb
    simp only [leaf_mk, C_mk, n_mk] at hl hlen hch hn
    subst hl
    rw [traverse_node] at hp ⊢
    have hks : ks.Pairwise (· < ·) := hp.sublist (keys_sublist_traverseC ks cs)
    rw [deletion_succ]
    simp only [keys_mk, leaf_mk, findKey, C_mk, n_mk, Bool.false_eq_true, if_false]
    by_cases hk : ks[findKeyFrom ks k]? = some k
    · -- the key is in this node
      obtain ⟨K1, K2, rfl, hi⟩ := findKey_present k ks hks hk
      obtain ⟨A, cl, B0, rfl, hA⟩ := List.exists_split_at cs K1.length
        (by simp only [List.length_append, List.length_cons] at hlen; omega)
      cases B0 with
      | nil => simp only [List.length_append, List.length_cons, List.length_nil] at hlen; omega
      | cons cr B =>
        have hB : B.length = K2.length := by
          simp only [List.length_append, List.length_cons] at hlen; omega
        obtain ⟨r, hr, hbr, hlo, hhi, htr⟩ := removeFromNonLeaf_spec ht (deletion t fuel) ih
          K1 K2 k A B cl cr hA hB hb hp
        rw [← hi] at hk
        simp only [hk, if_true, ← hi, hr]
        refine ⟨r, [], rfl, hbr, by simpa using hlo, by simpa using hhi, htr, ?_⟩
        have : k ∈ traverseC (A ++ cl :: cr :: B) (K1 ++ k :: K2) :=
          (keys_sublist_traverseC _ _).subset (by simp)
        simp [this]
    · -- the key, if present, is below child `idx`
      obtain ⟨K1, K2, rfl, hi, hK1, hK2⟩ := findKey_absent k ks hks hk
      obtain ⟨A, d, B, rfl, hA⟩ := List.exists_split_at cs K1.length
        (by simp only [List.length_append] at hlen; omega)
      have hB : B.length = K2.length := by
        simp only [List.length_append, List.length_cons] at hlen; omega
      have hget : (A ++ d :: B)[K1.length]? = some d := by
        rw [← hA]; exact List.getElem?_mid _ _ _
      have htr0 := traverseC_split d K2 B hB A K1 hA
      have hp0 := hp
      rw [htr0] at hp0
      have hpre0 : ∀ y ∈ travPre A K1, y < k := by
        intro y hy
        obtain ⟨z, hz, hyz⟩ := travPre_le A K1
          ((List.pairwise_append.1 hp0).1.imp le_of_lt) y hy
        have := hK1 z hz
        omega
      have hpost0 : ∀ y ∈ travPost K2 B, k < y := by
        intro y hy
        have hp2 := (List.pairwise_append.1 (List.pairwise_append.1 hp0).2.1).2.1
        obtain ⟨z, hz, hyz⟩ := travPost_ge (hp2.imp le_of_lt) y hy
        have := hK2 z hz
        omega
      rw [← hi] at hk
      simp only [hk, if_false, ← hi, hget]
      have hdb := hch d (by simp)
      -- the node after the optional `fill`, in zipper form
      have hfill : ∃ K3 K4 A1 B1 d2,
          (if d.n < t then fill t (mk (K1 ++ K2) (A ++ d :: B) false) K1.length
            else some (mk (K1 ++ K2) (A ++ d :: B) false)) =
            some (mk (K3 ++ K4) (A1 ++ d2 :: B1) false) ∧
          A1.length = K3.length ∧ B1.length = K4.length ∧
          Bal t (h + 1) (mk (K3 ++ K4) (A1 ++ d2 :: B1) false) ∧
          t ≤ d2.n ∧
          traverseC (A1 ++ d2 :: B1) (K3 ++ K4) = traverseC (A ++ d :: B) (K1 ++ K2) ∧
          (∀ x ∈ travPre A1 K3, x ∈ travPre A K1) ∧
          (∀ x ∈ travPost K4 B1, x ∈ travPost K2 B) ∧
          (K1 ++ K2).length ≤ (K3 ++ K4).length + 1 ∧
          (K3 ++ K4).length ≤ (K1 ++ K2).length ∧
          K3.length = (if K1.length = (K1 ++ K2).length ∧ K1.length > (K3 ++ K4).length
            then K1.length - 1 else K1.length) := by
        by_cases hdn : d.n < t
        · simp only [hdn, if_true]
          exact fill_spec ht K1 K2 A B d hA hB hb hn hdn
        · simp only [hdn, if_false]
          refine ⟨K1, K2, A, B, d, rfl, hA, hB, hb, by omega, rfl, fun x hx => hx,
            fun x hx => hx, by omega, le_refl _, ?_⟩
          rw [if_neg]
          intro hcon
          omega
      obtain ⟨K3, K4, A1, B1, d2, hnode1, hA1, hB1, hbal1, hd2, htr1, hsubL, hsubR, hlo1, hhi1,
        hj⟩ := hfill
      rw [hnode1]
      simp only [C_mk, n_mk, decide_eq_true_eq, ← hj]
      have hget2 : (A1 ++ d2 :: B1)[K3.length]? = some d2 := by
        rw [← hA1]; exact List.getElem?_mid _ _ _
      simp only [hget2]
      obtain ⟨_, _, hch1⟩ := bal_succ.1 hbal1
      simp only [C_mk] at hch1
      have hd2b := hch1 d2 (by simp)
      have hp1 : (traverseC (A1 ++ d2 :: B1) (K3 ++ K4)).Pairwise (· < ·) := by
        rw [htr1]; exact hp
      have hpd2 : (traverse d2).Pairwise (· < ·) := by
        rw [traverseC_split d2 K4 B1 hB1 A1 K3 hA1] at hp1
        exact (List.pairwise_append.1 (List.pairwise_append.1 hp1).2.1).1
      obtain ⟨d3, out, hd3, hb3, hlo3, hhi3, htr3, hout⟩ := ih d2 k hd2b.2.2 (by omega) hpd2
      simp only [hd3, setChild, keys_mk, C_mk, leaf_mk]
      have hset : (A1 ++ d2 :: B1).set K3.length d3 = A1 ++ d3 :: B1 := by
        rw [← hA1]; exact List.set_mid _ _ _ _
      rw [hset]
      obtain ⟨hbr, htrr, hmem⟩ := delete_descend K3 K4 A1 B1 d2 d3 hA1 hB1 hbal1
        (fun x hx => ne_of_lt (hpre0 x (hsubL x hx)))
        (fun x hx => ne_of_gt (hpost0 x (hsubR x hx))) hd2 hb3 hlo3 hhi3 htr3
      refine ⟨_, _, rfl, hbr, by simpa using hlo1, by simpa using hhi1, ?_, ?_⟩
      · rw [traverse_node, htrr, htr1]
      · rw [hout, ← htr1]
        by_cases hm : k ∈ traverse d2
        · simp [hm, hmem.2 hm]
        · have : k ∉ traverseC (A1 ++ d2 :: B1) (K3 ++ K4) := fun h3 => hm (hmem.1 h3)
          simp [hm, this]

end BTreeNode

namespace BTree

open BTreeNode

/-! ## The tree level -/

theorem wellFormed_iff_root {T : BTree} :
    T.WellFormed ↔ ∃ r, T.root = some r ∧ BTreeNode.WellFormed T.t.toNat r := by
  unfold WellFormed
  cases h : T.root with
  | none => simp
  | some r => simp

theorem wellFormed_mk {t : Int} {r : BTreeNode} :
    WellFormed ⟨some r, t⟩ ↔ BTreeNode.WellFormed t.toNat r := Iff.rfl

theorem mem_traverse_iff_allKeys {T : BTree} (hT : T.WellFormed) (x : Int) :
    x ∈ T.traverse ↔ x ∈ T.allKeys := by
  obtain ⟨r, hr, hwf⟩ := wellFormed_iff_root.1 hT
  obtain ⟨h, hb, _⟩ := BTreeNode.wellFormed_iff.1 hwf
  simp only [traverse, allKeys, hr]
  exact hb.mem_traverse_iff

/-- A sorted sequence stays strictly sorted when a new key is put at its place. -/
theorem pairwise_insert {k : Int} {L R : List Int} (hp : (L ++ R).Pairwise (· < ·))
    (hL : ∀ a ∈ L, a ≤ k) (hR : ∀ b ∈ R, k ≤ b) (hk : k ∉ L ++ R) :
    (L ++ k :: R).Pairwise (· < ·) := by
  rw [List.pairwise_append] at hp ⊢
  obtain ⟨h1, h2, h3⟩ := hp
  have hL2 : ∀ a ∈ L, a < k := fun a ha =>
    lt_of_le_of_ne (hL a ha) (fun h => hk (h ▸ List.mem_append_left _ ha))
  have hR2 : ∀ b ∈ R, k < b := fun b hb =>
    lt_of_le_of_ne (hR b hb) (fun h => hk (h ▸ List.mem_append_right _ hb))
  refine ⟨h1, List.pairwise_cons.2 ⟨hR2, h2⟩, ?_⟩
  intro a ha b hb
  rcases List.mem_cons.1 hb with rfl | hb
  · exact hL2 a ha
  · exact h3 a ha b hb

/-- `insert` into the empty tree. -/
theorem insert_empty (T : BTree) (k : Int) (hroot : T.root = none) :
    T.insert k = some ⟨some (BTreeNode.mk [k] [] true), T.t⟩ := by
  simp [insert, hroot]

theorem wellFormed_singleton (t : Int) (ht : 2 ≤ t) (k : Int) :
    WellFormed ⟨some (BTreeNode.mk [k] [] true), t⟩ := by
  rw [wellFormed_mk, BTreeNode.wellFormed_iff]
  refine ⟨0, rfl, by simp, ?_, by simp [BTreeNode.traverse]⟩
  simp only [n_mk, List.length_singleton]
  omega

/-- `insert` into a well-formed tree: the result exists, its height, its traversal, and
well-formedness when the key is new. -/
theorem insert_master (T : BTree) (k : Int) (ht : 2 ≤ T.t) (hT : T.WellFormed) :
    ∃ r T1, T.root = some r ∧ T.insert k = some T1 ∧ T1.t = T.t ∧
      T1.height = (if r.n = 2 * T.t.toNat - 1 then T.height + 1 else T.height) ∧
      (∃ L R, T.traverse = L ++ R ∧ T1.traverse = L ++ k :: R ∧
        (∀ a ∈ L, a ≤ k) ∧ (∀ b ∈ R, k ≤ b)) ∧
      (k ∉ T.allKeys → T1.WellFormed) := by
  obtain ⟨r, hr, hwf⟩ := wellFormed_iff_root.1 hT
  obtain ⟨h, hb, hn1, hn2, hp⟩ := BTreeNode.wellFormed_iff.1 hwf
  have ht2 : 2 ≤ T.t.toNat := by omega
  obtain ⟨r1, hins, hb1, hm1, hm2, L, R, hL1, hL2, hL3, hL4⟩ :=
    insert_root_spec ht2 k T r hr rfl h hb hn1 hn2 (hp.imp le_of_lt)
  refine ⟨r, ⟨some r1, T.t⟩, hr, hins, rfl, ?_, ⟨L, R, ?_, ?_, hL3, hL4⟩, ?_⟩
  · simp only [height, hr, hb.height_eq, hb1.height_eq]
    split_ifs <;> rfl
  · simp only [traverse, hr]; exact hL1
  · simp only [traverse]; exact hL2
  · intro hk
    rw [wellFormed_mk, BTreeNode.wellFormed_iff]
    refine ⟨_, hb1, hm1, hm2, ?_⟩
    rw [hL2]
    refine pairwise_insert (hL1 ▸ hp) hL3 hL4 ?_
    rw [← hL1]
    intro hmem
    exact hk (by
      simp only [allKeys, hr]
      exact hb.mem_traverse_iff.1 hmem)

/-- `deletion` on a well-formed tree: the result of the recursive call on the root, the
resulting tree, what is printed, the traversal and the height. -/
theorem deletion_master (T : BTree) (k : Int) (ht : 2 ≤ T.t) (hT : T.WellFormed) :
    ∃ r r1 out T1, T.root = some r ∧
      BTreeNode.deletion T.t.toNat (r.depth + 1) r k = some (r1, out) ∧
      T.deletion k = some (T1, out) ∧ T1.t = T.t ∧
      (T1.root = none ∨ T1.WellFormed) ∧
      T1.traverse = removeKey k T.traverse ∧
      out = (if k ∈ T.traverse then [] else [Msg.keyMissing k]) ∧
      T1.height = (if r1.n = 0 then T.height - 1 else T.height) := by
  obtain ⟨r, hr, hwf⟩ := wellFormed_iff_root.1 hT
  obtain ⟨h, hb, hn1, hn2, hp⟩ := BTreeNode.wellFormed_iff.1 hwf
  have ht2 : 2 ≤ T.t.toNat := by omega
  obtain ⟨r1, out, hdel, hb1, hlo, hhi, htr, hout⟩ :=
    deletion_spec ht2 h (h + 1) (by omega) r k hb hn1 hp
  have hd : r.depth = h := hb.depth_eq
  have hp1 : (BTreeNode.traverse r1).Pairwise (· < ·) := by
    rw [htr]; exact hp.sublist (removeKey_sublist k _)
  by_cases h0 : r1.n = 0
  · obtain ⟨ks, cs, l⟩ := r1
    simp only [n_mk] at h0 hlo hhi
    have hks : ks = [] := List.length_eq_zero.1 h0
    subst hks
    cases h with
    | zero =>
      have hl : l = true := bal_zero.1 hb1
      subst hl
      refine ⟨r, _, out, ⟨none, T.t⟩, hr, by rw [hd]; exact hdel, ?_, rfl, Or.inl rfl, ?_,
        ?_, ?_⟩
      · simp [deletion, hr, hd, hdel]
      · simp only [traverse, hr, ← htr, traverse_leaf]
      · simp only [traverse, hr]; exact hout
      · simp [height, hr, hb.height_eq]
    | succ h =>
      obtain ⟨hl, hlen, hc⟩ := bal_succ.1 hb1
      simp only [leaf_mk, C_mk, n_mk, List.length_nil] at hl hlen hc
      subst hl
      cases cs with
      | nil => simp at hlen
      | cons c rest =>
        have hrest : rest = [] := List.length_eq_zero.1 (by simpa using hlen)
        subst hrest
        have hcb := hc c (by simp)
        have htc : BTreeNode.traverse (BTreeNode.mk [] [c] false) = BTreeNode.traverse c := by
          simp [BTreeNode.traverse, traverseC]
        refine ⟨r, _, out, ⟨some c, T.t⟩, hr, by rw [hd]; exact hdel, ?_, rfl, Or.inr ?_, ?_,
          ?_, ?_⟩
        · simp [deletion, hr, hd, hdel]
        · rw [wellFormed_mk, BTreeNode.wellFormed_iff]
          exact ⟨h, hcb.2.2, by omega, hcb.2.1, htc ▸ hp1⟩
        · simp only [traverse, hr, ← htr, htc]
        · simp only [traverse, hr]; exact hout
        · simp [height, hr, hb.height_eq, hcb.2.2.height_eq]
  · refine ⟨r, r1, out, ⟨some r1, T.t⟩, hr, by rw [hd]; exact hdel, ?_, rfl, Or.inr ?_, ?_,
      ?_, ?_⟩
    · simp [deletion, hr, hd, hdel, h0]
    · rw [wellFormed_mk, BTreeNode.wellFormed_iff]
      exact ⟨h, hb1, by omega, by omega, hp1⟩
    · simp only [traverse, hr, htr]
    · simp only [traverse, hr]; exact hout
    · simp [height, hr, hb.height_eq, hb1.height_eq, h0]

end BTree

namespace BTree

open BTreeNode

theorem traverse_of_root_none {T : BTree} (h : T.root = none) : T.traverse = [] := by
  simp [traverse, h]

theorem allKeys_of_root_none {T : BTree} (h : T.root = none) : T.allKeys = [] := by
  simp [allKeys, h]

theorem traverse_sorted {T : BTree} (hT : T.root = none ∨ T.WellFormed) :
    T.traverse.Pairwise (· < ·) := by
  rcases hT with h | h
  · simp [traverse_of_root_none h]
  · obtain ⟨r, hr, hwf⟩ := wellFormed_iff_root.1 h
    obtain ⟨_, _, _, _, hp⟩ := BTreeNode.wellFormed_iff.1 hwf
    simpa [traverse, hr] using hp

theorem mem_traverse_iff_any {T : BTree} (hT : T.root = none ∨ T.WellFormed) (x : Int) :
    x ∈ T.traverse ↔ x ∈ T.allKeys := by
  rcases hT with h | h
  · simp [traverse_of_root_none h, allKeys_of_root_none h]
  · exact mem_traverse_iff_allKeys h x

/-- `insert` of a new key into an empty or well-formed tree. -/
theorem insert_any (T : BTree) (k : Int) (ht : 2 ≤ T.t)
    (hT : T.root = none ∨ T.WellFormed) (hk : k ∉ T.allKeys) :
    ∃ T1, T.insert k = some T1 ∧ T1.WellFormed ∧ T1.t = T.t ∧
      ∃ L R, T.traverse = L ++ R ∧ T1.traverse = L ++ k :: R ∧
        (∀ a ∈ L, a < k) ∧ (∀ b ∈ R, k < b) := by
  rcases hT with h | h
  · refine ⟨_, insert_empty T k h, wellFormed_singleton T.t ht k, rfl, [], [], ?_, ?_, ?_, ?_⟩
    · simp [traverse_of_root_none h]
    · simp [traverse, BTreeNode.traverse]
    · simp
    · simp
  · obtain ⟨r, T1, hr, hins, ht1, _, ⟨L, R, hL1, hL2, hL3, hL4⟩, hwf⟩ := insert_master T k ht h
    have hk2 : k ∉ L ++ R := by
      rw [← hL1]
      exact fun hm => hk ((mem_traverse_iff_allKeys h k).1 hm)
    refine ⟨T1, hins, hwf hk, ht1, L, R, hL1, hL2, ?_, ?_⟩
    · exact fun a ha => lt_of_le_of_ne (hL3 a ha) (fun e => hk2 (e ▸ List.mem_append_left _ ha))
    · exact fun b hb => lt_of_le_of_ne (hL4 b hb)
        (fun e => hk2 (e ▸ List.mem_append_right _ hb))

theorem insertAll_spec :
    ∀ (keys : List Int) (T : BTree), 2 ≤ T.t → (T.root = none ∨ T.WellFormed) →
      keys.Nodup → (∀ k ∈ keys, k ∉ T.allKeys) →
      ∃ T1, insertAll T keys = some T1 ∧ (T1.root = none ∨ T1.WellFormed) ∧ T1.t = T.t ∧
        T1.traverse.Perm (keys ++ T.traverse)
  | [], T, _, hT, _, _ => ⟨T, rfl, hT, rfl, by simp⟩
  | k :: ks, T, ht, hT, hnd, hk => by
    obtain ⟨T1, hins, hwf, ht1, L, R, hL1, hL2, _, _⟩ :=
      insert_any T k ht hT (hk k (by simp))
    have hnd2 := List.nodup_cons.1 hnd
    have hk1 : ∀ x ∈ ks, x ∉ T1.allKeys := by
      intro x hx hmem
      have := (mem_traverse_iff_allKeys hwf x).2 hmem
      rw [hL2] at this
      simp only [List.mem_append, List.mem_cons] at this
      have hxT : x ∉ T.traverse := fun hm =>
        hk x (by simp [hx]) ((mem_traverse_iff_any hT x).1 hm)
      rw [hL1] at hxT
      simp only [List.mem_append] at hxT
      rcases this with h1 | h1 | h1
      · exact hxT (Or.inl h1)
      · exact hnd2.1 (h1 ▸ hx)
      · exact hxT (Or.inr h1)
    obtain ⟨T2, hall, hwf2, ht2, hperm⟩ :=
      insertAll_spec ks T1 (by omega) (Or.inr hwf) hnd2.2 hk1
    refine ⟨T2, by simp [insertAll, hins, hall], hwf2, by omega, ?_⟩
    refine hperm.trans ?_
    rw [hL2, hL1]
    have e1 : ks ++ (L ++ k :: R) = (ks ++ L) ++ k :: R := by simp
    have e2 : k :: ks ++ (L ++ R) = k :: ((ks ++ L) ++ R) := by simp
    rw [e1, e2]
    exact List.perm_middle

theorem orderedInsert_split (k : Int) :
    ∀ (K1 K2 : List Int), (∀ a ∈ K1, a < k) → (∀ b ∈ K2, k < b) →
      List.orderedInsert (· ≤ ·) k (K1 ++ K2) = K1 ++ k :: K2
  | [], [], _, _ => rfl
  | [], b :: K2, _, h2 => by
    have : k ≤ b := le_of_lt (h2 b (by simp))
    simp [List.orderedInsert, this]
  | a :: K1, K2, h1, h2 => by
    have ha : a < k := h1 a (by simp)
    have hlt : ¬ k ≤ a := by omega
    have ih := orderedInsert_split k K1 K2 (fun x hx => h1 x (by simp [hx])) h2
    have e : List.orderedInsert (· ≤ ·) k (a :: (K1 ++ K2)) =
        a :: List.orderedInsert (· ≤ ·) k (K1 ++ K2) := if_neg hlt
    rw [List.cons_append, e, ih, List.cons_append]

/-- On a strictly sorted list without `k`, the shift loop of `insertNonFull` is the sorted
insertion. -/
theorem scanDown_orderedInsert (k : Int) (ks : List Int) (hs : ks.Pairwise (· < ·))
    (hk : k ∉ ks) :
    ks.take (scanDown ks k) ++ k :: ks.drop (scanDown ks k) =
      List.orderedInsert (· ≤ ·) k ks := by
  obtain ⟨K1, K2, rfl, hi, hK1, hK2⟩ := scanDown_sorted k ks (hs.imp le_of_lt)
  rw [← hi, List.take_mid, List.drop_mid]
  refine (orderedInsert_split k K1 K2 ?_ hK2).symm
  intro a ha
  exact lt_of_le_of_ne (hK1 a ha) (fun e => hk (e ▸ List.mem_append_left _ ha))

end BTree

namespace BTreeNode

theorem set_same {α : Type} (l : List α) (i : Nat) (a : α) (h : l[i]? = some a) :
    l.set i a = l := by
  apply List.ext_getElem?
  intro j
  by_cases hij : i = j
  · subst hij
    rw [h]
    have hi : i < l.length := by
      rcases Nat.lt_or_ge i l.length with h1 | h1
      · exact h1
      · rw [List.getElem?_eq_none h1] at h; cases h
    simp [List.getElem?_set_self, hi]
  · rw [List.getElem?_set_ne hij]

theorem mem_allKeys_of_mem_keys {node : BTreeNode} {x : Int} (h : x ∈ node.keys) :
    x ∈ node.allKeys := by
  obtain ⟨ks, cs, l⟩ := node
  cases l with
  | true => simpa [allKeys] using h
  | false =>
    rw [allKeys_node]
    exact List.mem_append_left _ h

theorem mem_allKeys_of_mem_child {node c : BTreeNode} {x : Int} (hl : node.leaf = false)
    (hc : c ∈ node.C) (h : x ∈ c.allKeys) : x ∈ node.allKeys := by
  obtain ⟨ks, cs, l⟩ := node
  simp only [leaf_mk, C_mk] at hl hc
  subst hl
  rw [allKeys_node]
  exact List.mem_append_right _ (mem_allKeysC.2 ⟨c, hc, h⟩)

theorem keys_sublist_traverse (node : BTreeNode) : node.keys.Sublist node.traverse := by
  obtain ⟨ks, cs, l⟩ := node
  cases l with
  | true => simp [traverse]
  | false =>
    rw [traverse_node]
    exact keys_sublist_traverseC ks cs

/-- When no child on the search path needs a refill, deleting an absent key returns the
node as it was. -/
theorem deletion_noRefill {t : Nat} (k : Int) :
    ∀ (h : Nat) (node : BTreeNode), noRefill t h node k = true → k ∉ node.allKeys →
      deletion t (h + 1) node k = some (node, [Msg.keyMissing k])
  | 0, node, hnr, hk => by
    have hl : node.leaf = true := hnr
    have hkey : node.keys[node.findKey k]? ≠ some k := fun e =>
      hk (mem_allKeys_of_mem_keys (List.getElem?_mem e))
    rw [deletion_succ]
    simp [hkey, hl]
  | h + 1, node, hnr, hk => by
    have hkey : node.keys[node.findKey k]? ≠ some k := fun e =>
      hk (mem_allKeys_of_mem_keys (List.getElem?_mem e))
    rw [deletion_succ]
    simp only [hkey, if_false]
    by_cases hl : node.leaf = true
    · simp [hl]
    · have hl2 : node.leaf = false := by simpa using hl
      simp only [noRefill, hl2, Bool.false_eq_true, if_false] at hnr
      simp only [hl2, Bool.false_eq_true, if_false]
      cases hc : node.C[node.findKey k]? with
      | none => simp [hc] at hnr
      | some c =>
        simp only [hc, Bool.and_eq_true, decide_eq_true_eq] at hnr
        have hnot : ¬ c.n < t := by omega
        have hj : ¬ (decide (node.findKey k = node.n) = true ∧ node.findKey k > node.n) := by
          rintro ⟨h1, h2⟩
          simp only [decide_eq_true_eq] at h1
          omega
        have ih := deletion_noRefill k h c hnr.2
          (fun hm => hk (mem_allKeys_of_mem_child hl2 (List.getElem?_mem hc) hm))
        simp only [hnot, if_false, hj, hc, ih, setChild, set_same _ _ _ hc, mk_eta]

end BTreeNode

namespace BTree

open BTreeNode

theorem eta_root (T : BTree) (r : BTreeNode) (hr : T.root = some r) :
    (⟨some r, T.t⟩ : BTree) = T := by
  cases T
  cases hr
  rfl

theorem traverse_ne_nil {T : BTree} {r : BTreeNode} (hr : T.root = some r) (hn : 1 ≤ r.n) :
    T.traverse ≠ [] := by
  intro h0
  simp only [traverse, hr] at h0
  have hsub := keys_sublist_traverse r
  rw [h0] at hsub
  have : r.keys = [] := List.eq_nil_of_sublist_nil hsub
  simp [BTreeNode.n, this] at hn

theorem removeKey_eq_erase {k : Int} {l : List Int} (hnd : l.Nodup) :
    removeKey k l = l.erase k := by
  rw [List.Nodup.erase_eq_filter hnd]
  unfold removeKey
  congr 1
  funext x
  by_cases hx : x = k <;> simp [bne, hx]

end BTree

namespace BTree

open BTreeNode

/-! ## The claims -/

/-- Claim C1 (round trip).  For every minimum degree `t ≥ 2` and every list of pairwise
distinct keys, inserting the keys one by one into the empty tree succeeds, and `traverse`
of the result is strictly ascending and a permutation of the keys: it is the sorted list of
the keys. -/
theorem C1_roundtrip (t : Int) (ht : 2 ≤ t) (keys : List Int) (hd : keys.Nodup) :
    ∃ T, insertAll ⟨none, t⟩ keys = some T ∧
      T.traverse.Pairwise (· < ·) ∧ T.traverse.Perm keys ∧
      T.traverse = keys.insertionSort (· ≤ ·) := by
  obtain ⟨T, hT, hwf, _, hperm⟩ :=
    insertAll_spec keys ⟨none, t⟩ ht (Or.inl rfl) hd (by simp [allKeys])
  have hperm2 : T.traverse.Perm keys := by simpa [traverse] using hperm
  have hs := traverse_sorted hwf
  refine ⟨T, hT, hs, hperm2, ?_⟩
  exact List.eq_of_perm_of_sorted (r := (· ≤ ·))
    (hperm2.trans (List.perm_insertionSort _ keys).symm)
    (hs.imp le_of_lt) (List.sorted_insertionSort _ keys)

/-- Witness of C1: the keys inserted by `main`, with `t = 2`. -/
theorem C1_roundtrip_witness :
    (2 : Int) ≤ 2 ∧ mainKeys.Nodup ∧
    ∃ T, insertAll ⟨none, 2⟩ mainKeys = some T ∧
      T.traverse.Pairwise (· < ·) ∧ T.traverse.Perm mainKeys ∧
      T.traverse = mainKeys.insertionSort (· ≤ ·) :=
  ⟨by decide, by decide, C1_roundtrip 2 (by decide) mainKeys (by decide)⟩

/-- Claim C2 (insert preserves the invariants).  For `t ≥ 2`, a tree that is empty or
well-formed, and a key that is not stored, `insert` succeeds and the resulting tree is
well-formed. -/
theorem C2_insert_preserves_wellFormed (T : BTree) (k : Int) (ht : 2 ≤ T.t)
    (hT : T.root = none ∨ T.WellFormed) (hk : k ∉ T.allKeys) :
    ∃ T1, T.insert k = some T1 ∧ T1.WellFormed := by
  obtain ⟨T1, hins, hwf, _⟩ := insert_any T k ht hT hk
  exact ⟨T1, hins, hwf⟩

/-- Witness of C2: inserting 18 into the tree built by `main`. -/
theorem C2_insert_preserves_wellFormed_witness :
    (2 : Int) ≤ mainTree.t ∧ (mainTree.root = none ∨ mainTree.WellFormed) ∧
    (18 : Int) ∉ mainTree.allKeys ∧
    ∃ T1, mainTree.insert 18 = some T1 ∧ T1.WellFormed :=
  ⟨by decide, Or.inr (by decide), by decide,
    C2_insert_preserves_wellFormed mainTree 18 (by decide) (Or.inr (by decide)) (by decide)⟩

/-- Claim C3 (delete preserves the invariants).  For `t ≥ 2`, a well-formed tree and any
key, `deletion` succeeds and the resulting tree is empty or well-formed (in particular its
root has at least one key, every other node at least `t - 1`, and all leaves are at the
same depth). -/
theorem C3_deletion_preserves_wellFormed (T : BTree) (k : Int) (ht : 2 ≤ T.t)
    (hT : T.WellFormed) :
    ∃ T1 out, T.deletion k = some (T1, out) ∧ (T1.root = none ∨ T1.WellFormed) := by
  obtain ⟨_, _, out, T1, _, _, hdel, _, hwf, _⟩ := deletion_master T k ht hT
  exact ⟨T1, out, hdel, hwf⟩

/-- Witness of C3: deleting 16 from the tree built by `main`. -/
theorem C3_deletion_preserves_wellFormed_witness :
    (2 : Int) ≤ mainTree.t ∧ mainTree.WellFormed ∧
    ∃ T1 out, mainTree.deletion 16 = some (T1, out) ∧ (T1.root = none ∨ T1.WellFormed) :=
  ⟨by decide, by decide, C3_deletion_preserves_wellFormed mainTree 16 (by decide) (by decide)⟩

/-- Claim C4 (deletion correctness).  For `t ≥ 2`, a well-formed tree and a stored key `k`,
`deletion` succeeds and prints nothing, and the traversal afterwards is the traversal before
with `k` erased: `k` is absent, every other key is kept, the sequence is strictly ascending
and shorter by exactly one. -/
theorem C4_deletion_removes_key (T : BTree) (k : Int) (ht : 2 ≤ T.t) (hT : T.WellFormed)
    (hk : k ∈ T.allKeys) :
    ∃ T1, T.deletion k = some (T1, []) ∧
      T1.traverse = T.traverse.erase k ∧ k ∉ T1.traverse ∧
      (∀ x, x ≠ k → (x ∈ T1.traverse ↔ x ∈ T.traverse)) ∧
      T1.traverse.Pairwise (· < ·) ∧ T1.traverse.length + 1 = T.traverse.length := by
  obtain ⟨_, _, out, T1, _, _, hdel, _, hwf, htr, hout, _⟩ := deletion_master T k ht hT
  have hmem : k ∈ T.traverse := (mem_traverse_iff_allKeys hT k).2 hk
  have hs := traverse_sorted (Or.inr hT)
  rw [if_pos hmem] at hout
  subst hout
  have hnd : T.traverse.Nodup := hs.imp ne_of_lt
  refine ⟨T1, hdel, ?_, ?_, ?_, ?_, ?_⟩
  · rw [htr, removeKey_eq_erase hnd]
  · rw [htr]; exact fun h => (mem_removeKey.1 h).2 rfl
  · intro x hx
    rw [htr, mem_removeKey]
    exact ⟨fun h => h.1, fun h => ⟨h, hx⟩⟩
  · exact traverse_sorted hwf
  · rw [htr, removeKey_eq_erase hnd, List.length_erase_of_mem hmem]
    have : 0 < T.traverse.length := List.length_pos_of_mem hmem
    omega

/-- Witness of C4: deleting 19 from the tree built by `main`. -/
theorem C4_deletion_removes_key_witness :
    (2 : Int) ≤ mainTree.t ∧ mainTree.WellFormed ∧ (19 : Int) ∈ mainTree.allKeys ∧
    ∃ T1, mainTree.deletion 19 = some (T1, []) ∧
      T1.traverse = mainTree.traverse.erase 19 ∧ (19 : Int) ∉ T1.traverse ∧
      (∀ x, x ≠ 19 → (x ∈ T1.traverse ↔ x ∈ mainTree.traverse)) ∧
      T1.traverse.Pairwise (· < ·) ∧ T1.traverse.length + 1 = mainTree.traverse.length :=
  ⟨by decide, by decide, by decide,
    C4_deletion_removes_key mainTree 19 (by decide) (by decide) (by decide)⟩

/-- Claim C5 (idempotent absence).  For `t ≥ 2`, a well-formed tree and a key that is not
stored, `deletion` succeeds, prints the key-not-found line, and the traversal afterwards is
the traversal before. -/
theorem C5_deletion_absent (T : BTree) (k : Int) (ht : 2 ≤ T.t) (hT : T.WellFormed)
    (hk : k ∉ T.allKeys) :
    ∃ T1, T.deletion k = some (T1, [Msg.keyMissing k]) ∧ T1.traverse = T.traverse := by
  obtain ⟨_, _, out, T1, _, _, hdel, _, _, htr, hout, _⟩ := deletion_master T k ht hT
  have hmem : k ∉ T.traverse := fun h => hk ((mem_traverse_iff_allKeys hT k).1 h)
  rw [if_neg hmem] at hout
  subst hout
  refine ⟨T1, hdel, ?_⟩
  rw [htr]
  exact removeKey_eq_self (fun x hx e => hmem (e ▸ hx))

/-- Witness of C5: deleting 18 from the tree built by `main`. -/
theorem C5_deletion_absent_witness :
    (2 : Int) ≤ mainTree.t ∧ mainTree.WellFormed ∧ (18 : Int) ∉ mainTree.allKeys ∧
    ∃ T1, mainTree.deletion 18 = some (T1, [Msg.keyMissing 18]) ∧
      T1.traverse = mainTree.traverse :=
  ⟨by decide, by decide, by decide,
    C5_deletion_absent mainTree 18 (by decide) (by decide) (by decide)⟩

/-- Counterexample to C6 as stated.  In the scenario of the specification (`t = 2`, the 22
keys of `main`, then `deletion(18)`) the tree is changed although 18 is not stored: the root
`[11]` is merged away, the new root holds `[7, 11, 21]` and the tree has lost a level. -/
theorem C6_counterexample :
    insertAll ⟨none, 2⟩ mainKeys = some mainTree ∧ mainTree.WellFormed ∧
    (18 : Int) ∉ mainTree.allKeys ∧
    mainTree.deletion 18 = some (mainTreeAfter18, [Msg.keyMissing 18]) ∧
    mainTreeAfter18 ≠ mainTree ∧
    mainTreeAfter18.root.map BTreeNode.keys = some [7, 11, 21] ∧
    mainTree.root.map BTreeNode.keys = some [11] ∧
    mainTreeAfter18.height = 3 ∧ mainTree.height = 4 :=
  ⟨by decide!, by decide, by decide, by decide!, by decide!, by decide, by decide, by decide,
    by decide⟩

/-- Claim C6, amended.  For `t ≥ 2`, a well-formed tree and a key that is not stored,
`deletion` prints the key-not-found line and leaves a well-formed tree with the same minimum
degree and the same traversal; the tree itself is returned unchanged when no child on the
search path of the key holds fewer than `t` keys. -/
theorem C6_deletion_absent_state (T : BTree) (k : Int) (ht : 2 ≤ T.t) (hT : T.WellFormed)
    (hk : k ∉ T.allKeys) :
    ∃ T1, T.deletion k = some (T1, [Msg.keyMissing k]) ∧ T1.WellFormed ∧ T1.t = T.t ∧
      T1.traverse = T.traverse ∧ (T.noRefill k = true → T1 = T) := by
  obtain ⟨r, r1, out, T1, hr, hrec, hdel, ht1, hwf, htr, hout, _⟩ := deletion_master T k ht hT
  have hmem : k ∉ T.traverse := fun h => hk ((mem_traverse_iff_allKeys hT k).1 h)
  rw [if_neg hmem] at hout
  subst hout
  have htr2 : T1.traverse = T.traverse := by
    rw [htr]
    exact removeKey_eq_self (fun x hx e => hmem (e ▸ hx))
  have hrn : 1 ≤ r.n := by
    obtain ⟨r2, hr2, hw2⟩ := wellFormed_iff_root.1 hT
    rw [hr] at hr2
    cases hr2
    exact hw2.1
  refine ⟨T1, hdel, ?_, ht1, htr2, ?_⟩
  · rcases hwf with h0 | h1
    · exact absurd (htr2 ▸ traverse_of_root_none h0) (traverse_ne_nil hr hrn)
    · exact h1
  · intro hnr
    simp only [noRefill, hr] at hnr
    have hkr : k ∉ r.allKeys := by simpa [allKeys, hr] using hk
    have hd2 := deletion_noRefill (t := T.t.toNat) k r.depth r hnr hkr
    have hn0 : r.n ≠ 0 := by omega
    have hsame : T.deletion k = some (T, [Msg.keyMissing k]) := by
      unfold BTree.deletion
      simp only [hr, hd2, hn0, if_false, eta_root T r hr]
    rw [hsame] at hdel
    simp only [Option.some.injEq, Prod.mk.injEq] at hdel
    exact hdel.1.symm

end BTree

namespace BTree

open BTreeNode

/-- Witness of the amended C6: deleting the absent key 3 from `smallTree`, where no refill
is needed, so that the tree is returned unchanged. -/
theorem C6_deletion_absent_state_witness :
    (2 : Int) ≤ smallTree.t ∧ smallTree.WellFormed ∧ (3 : Int) ∉ smallTree.allKeys ∧
    ∃ T1, smallTree.deletion 3 = some (T1, [Msg.keyMissing 3]) ∧ T1.WellFormed ∧
      T1.t = smallTree.t ∧ T1.traverse = smallTree.traverse ∧
      (smallTree.noRefill 3 = true → T1 = smallTree) :=
  ⟨by decide, by decide, by decide,
    C6_deletion_absent_state smallTree 3 (by decide) (by decide) (by decide)⟩

/-- Counterexample to C7 as stated.  The constructor called with `t = 1 < 2` does not fail
with `InvalidConfiguration`: it creates the empty tree of minimum degree 1. -/
theorem C7_counterexample :
    (1 : Int) < 2 ∧ BTree.new 1 = Except.ok ⟨none, 1⟩ ∧
    BTree.new 1 ≠ Except.error BTreeError.invalidConfiguration :=
  ⟨by decide, rfl, fun h => by cases h⟩

/-- Claim C7, amended.  For every `t`, below 2 or not, the constructor succeeds and creates
the empty tree with minimum degree `t`; it never reports `InvalidConfiguration`. -/
theorem C7_constructor_accepts_any_degree (t : Int) :
    BTree.new t = Except.ok ⟨none, t⟩ ∧
    BTree.new t ≠ Except.error BTreeError.invalidConfiguration :=
  ⟨rfl, fun h => by cases h⟩

/-- Claim C8 (height).  For `t ≥ 2`, a well-formed tree `T` with root `r` and any key `k`:
(a) `insert` succeeds and the height of the result is `height T + 1` when `r` holds exactly
`2t - 1` keys and `height T` otherwise; (b) `deletion` succeeds and, with `r1` the root as
left by the recursive `BTreeNode::deletion`, the height of the result is `height T - 1` when
`r1` has no key (root collapse) and `height T` otherwise. -/
theorem C8_height (T : BTree) (k : Int) (ht : 2 ≤ T.t) (hT : T.WellFormed) :
    (∃ r T1, T.root = some r ∧ T.insert k = some T1 ∧
      T1.height = (if r.n = 2 * T.t.toNat - 1 then T.height + 1 else T.height)) ∧
    (∃ r r1 out T1, T.root = some r ∧
      BTreeNode.deletion T.t.toNat (r.depth + 1) r k = some (r1, out) ∧
      T.deletion k = some (T1, out) ∧
      T1.height = (if r1.n = 0 then T.height - 1 else T.height)) := by
  obtain ⟨r, T1, hr, hins, _, hh, _⟩ := insert_master T k ht hT
  obtain ⟨r2, r1, out, T2, hr2, hrec, hdel, _, _, _, _, hh2⟩ := deletion_master T k ht hT
  exact ⟨⟨r, T1, hr, hins, hh⟩, ⟨r2, r1, out, T2, hr2, hrec, hdel, hh2⟩⟩

/-- Witness of C8: the tree built by `main` and the key 18. -/
theorem C8_height_witness :
    (2 : Int) ≤ mainTree.t ∧ mainTree.WellFormed ∧
    ((∃ r T1, mainTree.root = some r ∧ mainTree.insert 18 = some T1 ∧
      T1.height = (if r.n = 2 * mainTree.t.toNat - 1 then mainTree.height + 1
        else mainTree.height)) ∧
    (∃ r r1 out T1, mainTree.root = some r ∧
      BTreeNode.deletion mainTree.t.toNat (r.depth + 1) r 18 = some (r1, out) ∧
      mainTree.deletion 18 = some (T1, out) ∧
      T1.height = (if r1.n = 0 then mainTree.height - 1 else mainTree.height))) :=
  ⟨by decide, by decide, C8_height mainTree 18 (by decide) (by decide)⟩

/-- Claim C9 (root split on overflow).  For `t ≥ 2`, a root that is a leaf with exactly
`2t - 1` strictly ascending keys and a key `k` not among them, `insert` yields an internal
root whose only key is the old median `keys[t-1]` and whose two children are leaves: the
left one holds the `t - 1` keys below the median, the right one the `t - 1` keys above it,
and `k` is inserted in sorted position into the left one if `k < median` and into the right
one otherwise. -/
theorem C9_root_split (t : Int) (ht : 2 ≤ t) (ks : List Int) (cs : List BTreeNode) (k : Int)
    (hlen : ks.length = 2 * t.toNat - 1) (hs : ks.Pairwise (· < ·)) (hk : k ∉ ks) :
    ∃ med, ks[t.toNat - 1]? = some med ∧
      BTree.insert ⟨some (BTreeNode.mk ks cs true), t⟩ k =
        some ⟨some (BTreeNode.mk [med]
          [BTreeNode.mk (if k < med then List.orderedInsert (· ≤ ·) k (ks.take (t.toNat - 1))
              else ks.take (t.toNat - 1)) cs true,
           BTreeNode.mk (if k < med then ks.drop t.toNat
              else List.orderedInsert (· ≤ ·) k (ks.drop t.toNat)) [] true] false), t⟩ := by
  have ht2 : 2 ≤ t.toNat := by omega
  obtain ⟨Y1, med, Y2, rfl, hY1, hY2⟩ := exists_median (by omega) ks hlen
  have hmed : (Y1 ++ med :: Y2)[t.toNat - 1]? = some med := by
    rw [← hY1]; exact List.getElem?_mid _ _ _
  have htake : (Y1 ++ med :: Y2).take (t.toNat - 1) = Y1 := by
    rw [← hY1]; exact List.take_mid _ _
  have hdrop : (Y1 ++ med :: Y2).drop t.toNat = Y2 := by
    have : t.toNat = Y1.length + 1 := by omega
    rw [this, ← List.drop_drop]
    simp
  have hs1 : Y1.Pairwise (· < ·) := (List.pairwise_append.1 hs).1
  have hs2 : Y2.Pairwise (· < ·) := (List.pairwise_cons.1 (List.pairwise_append.1 hs).2.1).2
  have hk1 : k ∉ Y1 := fun h => hk (List.mem_append_left _ h)
  have hk2 : k ∉ Y2 := fun h => hk (List.mem_append_right _ (List.mem_cons_of_mem _ h))
  have hkm : k ≠ med := fun h => hk (by simp [h])
  have hsplit := splitChild_eq (t := t.toNat) [] [] [] [] false Y1 Y2 med cs true rfl hY1 hY2
    (by omega) (by simp; omega)
  simp only [List.nil_append, List.length_nil, if_true] at hsplit
  refine ⟨med, hmed, ?_⟩
  rw [htake, hdrop]
  simp only [BTree.insert, n_mk, hlen, if_true, hsplit, keys_mk, C_mk,
    List.getElem?_cons_zero, BTreeNode.depth, Nat.zero_add]
  by_cases hm : med < k
  · have hnot : ¬ k < med := by omega
    have hg : [BTreeNode.mk Y1 cs true, BTreeNode.mk Y2 [] true][1]? =
        some (BTreeNode.mk Y2 [] true) := rfl
    have hcap : Y2.length < 2 * t.toNat - 1 := by omega
    simp only [hm, hnot, if_true, if_false, hg, insertNonFull_succ, leaf_mk, n_mk, keys_mk,
      C_mk, hcap, scanDown_orderedInsert k Y2 hs2 hk2, setChild]
    rfl
  · have hlt : k < med := by omega
    have hg : [BTreeNode.mk Y1 cs true, BTreeNode.mk Y2 [] true][0]? =
        some (BTreeNode.mk Y1 cs true) := rfl
    have hcap : Y1.length < 2 * t.toNat - 1 := by omega
    simp only [hm, hlt, if_true, if_false, hg, insertNonFull_succ, leaf_mk, n_mk, keys_mk,
      C_mk, hcap, scanDown_orderedInsert k Y1 hs1 hk1, setChild]
    rfl

/-- Witness of C9: `t = 2`, root `[2, 7, 8]`, insert 9. -/
theorem C9_root_split_witness :
    BTree.insert ⟨some (BTreeNode.mk [2, 7, 8] [] true), 2⟩ 9 =
      some ⟨some (BTreeNode.mk [7]
        [BTreeNode.mk [2] [] true, BTreeNode.mk [8, 9] [] true] false), 2⟩ := by
  obtain ⟨med, h1, h2⟩ :=
    C9_root_split 2 (by decide) [2, 7, 8] [] 9 (by decide) (by decide) (by decide)
  have hm : med = 7 := by
    have : ([2, 7, 8] : List Int)[(2 : Int).toNat - 1]? = some 7 := by decide
    rw [this] at h1
    exact (Option.some.inj h1).symm
  subst hm
  rw [h2]
  decide

/-- Claim C10 (delete on the empty tree).  For every `t` and every key, `deletion` on a
tree without root returns normally, prints the tree-is-empty line (not the key-not-found
line) and leaves the tree empty. -/
theorem C10_deletion_empty (t : Int) (k : Int) :
    BTree.deletion ⟨none, t⟩ k = some (⟨none, t⟩, [Msg.treeEmpty]) ∧
    [Msg.treeEmpty] ≠ [Msg.keyMissing k] :=
  ⟨rfl, by simp⟩

end BTree

/-!
## The node operations one by one, and the nodes the recursive functions are invoked on
-/

namespace BTreeNode

theorem deletion_eq_step (t fuel : Nat) (node : BTreeNode) (k : Int) :
    deletion t (fuel + 1) node k = deletionStep t (deletion t fuel) node k := rfl

theorem insertNonFull_eq_step (t fuel : Nat) (node : BTreeNode) (k : Int) :
    insertNonFull t (fuel + 1) node k = insertNonFullStep t (insertNonFull t fuel) node k := rfl

theorem deletionChecked_succ (t fuel : Nat) (node : BTreeNode) (k : Int) :
    deletionChecked t (fuel + 1) node k =
      deletionStep t (fun c x => if t ≤ c.n then deletionChecked t fuel c x else none)
        node k := rfl

theorem insertNonFullChecked_succ (t fuel : Nat) (node : BTreeNode) (k : Int) :
    insertNonFullChecked t (fuel + 1) node k =
      if node.n < 2 * t - 1 then insertNonFullStep t (insertNonFullChecked t fuel) node k
      else none := rfl

end BTreeNode

namespace BTreeNode

/-! ## Split, merge and search on nodes that need not be well-formed -/

/-- A node with its child `i` singled out: the zipper form of an internal node. -/
theorem exists_zipper (ks : List Int) (cs : List BTreeNode) (i : Nat) (y : BTreeNode)
    (hlen : cs.length = ks.length + 1) (hy : cs[i]? = some y) :
    ∃ K1 K2 A B, ks = K1 ++ K2 ∧ cs = A ++ y :: B ∧ K1.length = i ∧ A.length = i ∧
      B.length = K2.length ∧ K1 = ks.take i ∧ K2 = ks.drop i ∧ A = cs.take i ∧
      B = cs.drop (i + 1) := by
  obtain ⟨hi, hyi⟩ := List.getElem?_eq_some.1 hy
  refine ⟨ks.take i, ks.drop i, cs.take i, cs.drop (i + 1), (List.take_append_drop i ks).symm,
    ?_, ?_, ?_, ?_, rfl, rfl, rfl, rfl⟩
  · rw [← hyi, ← List.drop_eq_getElem_cons hi, List.take_append_drop]
  · rw [List.length_take]; omega
  · rw [List.length_take]; omega
  · rw [List.length_drop, List.length_drop]; omega

/-- The halves of a split child print, with the median between them, what the child
printed. -/
theorem split_traverse {t : Nat} (ht : 1 ≤ t) (Y1 Y2 : List Int) (med : Int)
    (yc : List BTreeNode) (yl : Bool) (hY1 : Y1.length = t - 1) (hY2 : Y2.length = t - 1)
    (hyc : yl = false → yc.length = (Y1 ++ med :: Y2).length + 1) :
    traverse (mk (Y1 ++ med :: Y2) yc yl) =
      traverse (mk Y1 (if yl then yc else yc.take t) yl) ++
        med :: traverse (mk Y2 (if yl then [] else yc.drop t) yl) := by
  cases yl with
  | true => simp [traverse]
  | false =>
    have hlen := hyc rfl
    simp only [List.length_append, List.length_cons] at hlen
    have htake : (yc.take t).length = Y1.length + 1 := by
      rw [List.length_take]; omega
    simp only [traverse_node, Bool.false_eq_true, if_false]
    conv_lhs => rw [← List.take_append_drop t yc]
    exact traverseC_append Y1 (yc.take t) med Y2 (yc.drop t) htake

/-- The merged child prints the two children with the separating key between them. -/
theorem merged_traverse (sep : Int) (c s : BTreeNode) (hl : c.leaf = s.leaf)
    (hcc : c.leaf = false → c.C.length = c.n + 1) :
    traverse (mk (c.keys ++ sep :: s.keys) (if c.leaf then c.C else c.C ++ s.C) c.leaf) =
      traverse c ++ sep :: traverse s := by
  obtain ⟨ck, cc, cl⟩ := c
  obtain ⟨sk, sc, sl⟩ := s
  simp only [leaf_mk, C_mk, n_mk, keys_mk] at hl hcc ⊢
  subst hl
  cases cl with
  | true => simp [traverse]
  | false =>
    simp only [traverse_node, Bool.false_eq_true, if_false]
    exact traverseC_append ck cc sep sk sc (hcc rfl)

end BTreeNode

namespace BTreeNode

/-- Claim C15 (split postcondition).  Let `p` be a non-full internal node with `n` keys and
`n + 1` children whose child `y = C[i]` holds exactly `2t - 1` keys (and, if internal,
`2t` children).  Then `splitChild(i, y)` succeeds; `y` keeps its lower `t - 1` keys (and
lower `t` children); the new node `z`, with the leaf flag of `y`, holds the upper `t - 1`
keys (and upper `t` children) and sits at `C[i + 1]`; the key `y.keys[t - 1]` is at
`keys[i]`; `p` has `n + 1` keys and `n + 2` children, the others in their old order; and
the traversal of `p` is unchanged. -/
theorem C15_splitChild_post (t : Nat) (ht : 2 ≤ t) (p : BTreeNode) (i : Nat) (y : BTreeNode)
    (hleaf : p.leaf = false) (hp : p.C.length = p.n + 1) (hn : p.n < 2 * t - 1)
    (hy : p.C[i]? = some y) (hyn : y.n = 2 * t - 1)
    (hyc : y.leaf = false → y.C.length = y.n + 1) :
    ∃ med y1 z p1,
      y.keys[t - 1]? = some med ∧
      y1 = mk (y.keys.take (t - 1)) (if y.leaf then y.C else y.C.take t) y.leaf ∧
      z = mk (y.keys.drop t) (if y.leaf then [] else y.C.drop t) y.leaf ∧
      p1 = mk (p.keys.take i ++ med :: p.keys.drop i)
        (p.C.take i ++ y1 :: z :: p.C.drop (i + 1)) false ∧
      splitChild t p i = some p1 ∧
      y1.n = t - 1 ∧ z.n = t - 1 ∧ y.keys = y1.keys ++ med :: z.keys ∧
      (y.leaf = false → y1.C.length = t ∧ z.C.length = t ∧ y.C = y1.C ++ z.C) ∧
      p1.C[i]? = some y1 ∧ p1.C[i + 1]? = some z ∧ p1.keys[i]? = some med ∧
      p1.n = p.n + 1 ∧ p1.C.length = p.n + 2 ∧
      traverse p1 = traverse p := by
  obtain ⟨ks, cs, l⟩ := p
  simp only [leaf_mk, C_mk, n_mk, keys_mk] at hleaf hp hn hy ⊢
  subst hleaf
  obtain ⟨K1, K2, A, B, rfl, rfl, hK1, hA, hB, eK1, eK2, eA, eB⟩ :=
    exists_zipper ks cs i y hp hy
  obtain ⟨yk, yc, yl⟩ := y
  simp only [leaf_mk, C_mk, n_mk, keys_mk] at hyn hyc ⊢
  obtain ⟨Y1, med, Y2, rfl, hY1, hY2⟩ := exists_median (by omega) yk hyn
  have hsplit := splitChild_eq K1 K2 A B false Y1 Y2 med yc yl (hA.trans hK1.symm) hY1 hY2
    (by omega) (by simpa using hn)
  rw [hK1] at hsplit
  have htake : (Y1 ++ med :: Y2).take (t - 1) = Y1 := by
    rw [← hY1]; exact List.take_mid _ _
  have hdrop : (Y1 ++ med :: Y2).drop t = Y2 := by
    have : t = Y1.length + 1 := by omega
    rw [this, ← List.drop_drop]
    simp
  have hmed : (Y1 ++ med :: Y2)[t - 1]? = some med := by
    rw [← hY1]; exact List.getElem?_mid _ _ _
  rw [← eK1, ← eK2, ← eA, ← eB, htake, hdrop]
  refine ⟨med, _, _, _, hmed, rfl, rfl, rfl, hsplit, hY1, hY2, rfl, ?_, ?_, ?_, ?_, ?_, ?_, ?_⟩
  · intro hl
    subst hl
    have hlen := hyc rfl
    simp only [List.length_append, List.length_cons] at hlen
    simp only [C_mk, Bool.false_eq_true, if_false]
    refine ⟨?_, ?_, (List.take_append_drop t yc).symm⟩
    · rw [List.length_take]; omega
    · rw [List.length_drop]; omega
  · simp only [C_mk]
    rw [← hA]; exact List.getElem?_mid _ _ _
  · simp only [C_mk]
    have e : A ++ mk Y1 (if yl then yc else yc.take t) yl ::
        mk Y2 (if yl then [] else yc.drop t) yl :: B =
        (A ++ [mk Y1 (if yl then yc else yc.take t) yl]) ++
          mk Y2 (if yl then [] else yc.drop t) yl :: B := by simp
    rw [e, show i + 1 = (A ++ [mk Y1 (if yl then yc else yc.take t) yl]).length by
      simp [hA]]
    exact List.getElem?_mid _ _ _
  · simp only [keys_mk]
    rw [← hK1]; exact List.getElem?_mid _ _ _
  · simp only [n_mk, List.length_append, List.length_cons]; omega
  · simp only [C_mk, n_mk, List.length_append, List.length_cons]; omega
  · rw [traverse_node, traverse_node,
      traverseC_split _ (med :: K2) (_ :: B) (by simp [hB]) A K1 (hA.trans hK1.symm),
      traverseC_split _ K2 B hB A K1 (hA.trans hK1.symm),
      split_traverse (by omega) Y1 Y2 med yc yl hY1 hY2 hyc]
    simp

/-- Witness of C15: `t = 2`, the node `[10]` over the leaves `[1, 2, 3]` and `[20]`, split
of child 0. -/
theorem C15_splitChild_post_witness :
    splitChild 2 fullLeftNode 0 =
      some (mk [2, 10] [mk [1] [] true, mk [3] [] true, mk [20] [] true] false) ∧
    ∃ med y1 z p1,
      (mk [1, 2, 3] [] true).keys[2 - 1]? = some med ∧
      y1 = mk ((mk [1, 2, 3] [] true).keys.take (2 - 1))
        (if (mk [1, 2, 3] [] true).leaf then (mk [1, 2, 3] [] true).C
          else (mk [1, 2, 3] [] true).C.take 2) (mk [1, 2, 3] [] true).leaf ∧
      z = mk ((mk [1, 2, 3] [] true).keys.drop 2)
        (if (mk [1, 2, 3] [] true).leaf then []
          else (mk [1, 2, 3] [] true).C.drop 2) (mk [1, 2, 3] [] true).leaf ∧
      p1 = mk (fullLeftNode.keys.take 0 ++ med :: fullLeftNode.keys.drop 0)
        (fullLeftNode.C.take 0 ++ y1 :: z :: fullLeftNode.C.drop (0 + 1)) false ∧
      splitChild 2 fullLeftNode 0 = some p1 ∧
      y1.n = 2 - 1 ∧ z.n = 2 - 1 ∧ (mk [1, 2, 3] [] true).keys = y1.keys ++ med :: z.keys ∧
      ((mk [1, 2, 3] [] true).leaf = false →
        y1.C.length = 2 ∧ z.C.length = 2 ∧ (mk [1, 2, 3] [] true).C = y1.C ++ z.C) ∧
      p1.C[0]? = some y1 ∧ p1.C[0 + 1]? = some z ∧ p1.keys[0]? = some med ∧
      p1.n = fullLeftNode.n + 1 ∧ p1.C.length = fullLeftNode.n + 2 ∧
      traverse p1 = traverse fullLeftNode :=
  ⟨by decide,
    C15_splitChild_post 2 (by decide) fullLeftNode 0 (mk [1, 2, 3] [] true) (by decide)
      (by decide) (by decide) (by decide) (by decide) (by decide)⟩

/-- Claim C16 (merge postcondition).  Let `p` be an internal node with `n ≥ 1` keys and
`n + 1` children, and `idx < n` such that `C[idx]` and `C[idx + 1]` both hold exactly
`t - 1` keys (both leaves, or both internal with one child more than keys).  Then
`merge(idx)` succeeds; `C[idx]` then holds `2t - 1` keys: its own, the old `keys[idx]`, those
of `C[idx + 1]` (and the children of both, in order); `p` has `n - 1` keys and `n` children,
`keys[idx]` and the absorbed sibling removed and the others in their old order; and the
traversal of `p` is unchanged. -/
theorem C16_merge_post (t : Nat) (ht : 2 ≤ t) (p : BTreeNode) (idx : Nat) (c s : BTreeNode)
    (hleaf : p.leaf = false) (hp : p.C.length = p.n + 1) (hidx : idx < p.n)
    (hc : p.C[idx]? = some c) (hs : p.C[idx + 1]? = some s)
    (hcn : c.n = t - 1) (hsn : s.n = t - 1) (hl : c.leaf = s.leaf)
    (hcc : c.leaf = false → c.C.length = c.n + 1)
    (hsc : s.leaf = false → s.C.length = s.n + 1) :
    ∃ sep m p1,
      p.keys[idx]? = some sep ∧
      m = mk (c.keys ++ sep :: s.keys) (if c.leaf then c.C else c.C ++ s.C) c.leaf ∧
      p1 = mk (p.keys.eraseIdx idx) ((p.C.set idx m).eraseIdx (idx + 1)) false ∧
      merge t p idx = some p1 ∧
      m.n = 2 * t - 1 ∧ (c.leaf = false → m.C.length = 2 * t) ∧
      p1.C[idx]? = some m ∧ p1.n + 1 = p.n ∧ p1.C.length = p.n ∧
      traverse p1 = traverse p := by
  obtain ⟨ks, cs, l⟩ := p
  simp only [leaf_mk, C_mk, n_mk, keys_mk] at hleaf hp hidx hc hs ⊢
  subst hleaf
  obtain ⟨K1, K2, A, B0, rfl, rfl, hK1, hA, hB, _, _, _, _⟩ :=
    exists_zipper ks cs idx c hp hc
  have hAK : A.length = K1.length := hA.trans hK1.symm
  cases K2 with
  | nil => simp only [List.append_nil] at hidx; omega
  | cons sep K2 =>
    cases B0 with
    | nil => simp at hB
    | cons s0 B =>
      have hB2 : B.length = K2.length := by simpa using hB
      have hs0 : s0 = s := by
        have e : A ++ c :: s0 :: B = (A ++ [c]) ++ s0 :: B := by simp
        rw [e, show idx + 1 = (A ++ [c]).length by simp [hA], List.getElem?_mid] at hs
        exact Option.some.inj hs
      subst hs0
      have hsep : (K1 ++ sep :: K2)[idx]? = some sep := by
        rw [← hK1]; exact List.getElem?_mid _ _ _
      have hm := merge_eq (t := t) K1 K2 sep A B false c s0 hAK hcn (by omega)
      rw [hK1] at hm
      have hmerge := hm
      simp only [merge, C_mk, keys_mk, leaf_mk, hc, hs, hsep, hcn, hsn, le_refl, and_self,
        if_true, Option.some.injEq] at hmerge
      refine ⟨sep, _, _, hsep, rfl, rfl, ?_, ?_, ?_, ?_, ?_, ?_, ?_⟩
      · simp only [merge, C_mk, keys_mk, leaf_mk, hc, hs, hsep, hcn, hsn, le_refl, and_self,
          if_true]
      · simp only [n_mk, List.length_append, List.length_cons]
        have e1 : c.keys.length = t - 1 := hcn
        have e2 : s0.keys.length = t - 1 := hsn
        omega
      · intro hcl
        have e1 := hcc hcl
        have e2 := hsc (hl ▸ hcl)
        simp only [C_mk, hcl, Bool.false_eq_true, if_false, List.length_append]
        omega
      · rw [hmerge]
        simp only [C_mk]
        rw [← hA]; exact List.getElem?_mid _ _ _
      · rw [hmerge]
        simp only [n_mk, List.length_append, List.length_cons]
        omega
      · rw [hmerge]
        simp only [C_mk, n_mk, List.length_append, List.length_cons] at hp ⊢
        omega
      · rw [hmerge, traverse_node, traverse_node,
          traverseC_split _ K2 B hB2 A K1 hAK,
          traverseC_split c (sep :: K2) (s0 :: B) (by simp [hB2]) A K1 hAK,
          merged_traverse sep c s0 hl hcc]
        simp

/-- Witness of C16: `t = 2`, the node `[5]` over the leaves `[1]` and `[8]`, merge at 0. -/
theorem C16_merge_post_witness :
    merge 2 thinNode 0 = some (mk [] [mk [1, 5, 8] [] true] false) ∧
    ∃ sep m p1,
      thinNode.keys[0]? = some sep ∧
      m = mk ((mk [1] [] true).keys ++ sep :: (mk [8] [] true).keys)
        (if (mk [1] [] true).leaf then (mk [1] [] true).C
          else (mk [1] [] true).C ++ (mk [8] [] true).C) (mk [1] [] true).leaf ∧
      p1 = mk (thinNode.keys.eraseIdx 0) ((thinNode.C.set 0 m).eraseIdx (0 + 1)) false ∧
      merge 2 thinNode 0 = some p1 ∧
      m.n = 2 * 2 - 1 ∧ ((mk [1] [] true).leaf = false → m.C.length = 2 * 2) ∧
      p1.C[0]? = some m ∧ p1.n + 1 = thinNode.n ∧ p1.C.length = thinNode.n ∧
      traverse p1 = traverse thinNode :=
  ⟨by decide,
    C16_merge_post 2 (by decide) thinNode 0 (mk [1] [] true) (mk [8] [] true) (by decide)
      (by decide) (by decide) (by decide) (by decide) (by decide) (by decide) (by decide)
      (by decide) (by decide)⟩

/-- Claim C19 (split and merge are inverse).  For a non-full node `p` with `n + 1` children
whose child `C[i]` holds exactly `2t - 1` keys, `splitChild(i, C[i])` followed by `merge(i)`
succeeds and gives back `p`, with the same keys and children in `p` and in `C[i]`. -/
theorem C19_split_then_merge (t : Nat) (ht : 2 ≤ t) (p : BTreeNode) (i : Nat) (y : BTreeNode)
    (hp : p.C.length = p.n + 1) (hn : p.n < 2 * t - 1)
    (hy : p.C[i]? = some y) (hyn : y.n = 2 * t - 1) :
    ∃ p1, splitChild t p i = some p1 ∧ merge t p1 i = some p := by
  obtain ⟨ks, cs, l⟩ := p
  simp only [C_mk, n_mk] at hp hn hy
  obtain ⟨K1, K2, A, B, rfl, rfl, hK1, hA, hB, _, _, _, _⟩ :=
    exists_zipper ks cs i y hp hy
  have hAK : A.length = K1.length := hA.trans hK1.symm
  obtain ⟨yk, yc, yl⟩ := y
  simp only [n_mk] at hyn
  obtain ⟨Y1, med, Y2, rfl, hY1, hY2⟩ := exists_median (by omega) yk hyn
  have hsplit := splitChild_eq K1 K2 A B l Y1 Y2 med yc yl hAK hY1 hY2
    (by omega) (by simpa using hn)
  rw [hK1] at hsplit
  refine ⟨_, hsplit, ?_⟩
  have hm := merge_eq (t := t) K1 K2 med A B l
    (mk Y1 (if yl then yc else yc.take t) yl) (mk Y2 (if yl then [] else yc.drop t) yl)
    hAK hY1 (by simp only [n_mk]; omega)
  rw [hK1] at hm
  rw [hm]
  cases yl with
  | true => simp
  | false => simp

/-- Witness of C19: `t = 2`, the node `[10]` over the leaves `[1, 2, 3]` and `[20]`. -/
theorem C19_split_then_merge_witness :
    merge 2 (mk [2, 10] [mk [1] [] true, mk [3] [] true, mk [20] [] true] false) 0 =
      some fullLeftNode ∧
    ∃ p1, splitChild 2 fullLeftNode 0 = some p1 ∧ merge 2 p1 0 = some fullLeftNode :=
  ⟨by decide,
    C19_split_then_merge 2 (by decide) fullLeftNode 0 (mk [1, 2, 3] [] true) (by decide)
      (by decide) (by decide) (by decide)⟩

/-- Claim C20 (search position).  For every node, sorted or not, and every key `k`,
`findKey(k)` is at most `n`, every key before it is below `k`, and the key at it, if there
is one, is at least `k`: it is the smallest index with `keys[i] ≥ k`, and it is `n` when
every key is below `k`.  The function returns an index only; the node is not changed. -/
theorem C20_findKey (node : BTreeNode) (k : Int) :
    node.findKey k ≤ node.n ∧
    (∀ j x, j < node.findKey k → node.keys[j]? = some x → x < k) ∧
    (∀ x, node.keys[node.findKey k]? = some x → k ≤ x) ∧
    ((∀ x ∈ node.keys, x < k) → node.findKey k = node.n) := by
  obtain ⟨K1, K2, hks, hi, h1, h2⟩ := findKeyFrom_spec k node.keys
  have hidx : node.findKey k = K1.length := hi.symm
  rw [hidx]
  unfold n
  rw [hks]
  refine ⟨by simp, ?_, ?_, ?_⟩
  · intro j x hj hx
    rw [List.getElem?_append_left hj] at hx
    exact h1 x (List.getElem?_mem hx)
  · intro x hx
    rw [List.getElem?_append_right (le_refl _)] at hx
    simp only [Nat.sub_self] at hx
    apply h2
    cases K2 with
    | nil => simp at hx
    | cons b K2 => simpa using hx
  · intro hall
    cases K2 with
    | nil => simp
    | cons b K2 =>
      have hb : k ≤ b := h2 b (by simp)
      have := hall b (by simp)
      omega

end BTreeNode

namespace BTreeNode

/-- A node with two adjacent children and the key between them singled out. -/
theorem exists_zipper2 (ks : List Int) (cs : List BTreeNode) (i : Nat) (a b : BTreeNode)
    (hlen : cs.length = ks.length + 1) (ha : cs[i]? = some a) (hb : cs[i + 1]? = some b) :
    ∃ K1 sep K2 A B, ks = K1 ++ sep :: K2 ∧ cs = A ++ a :: b :: B ∧ K1.length = i ∧
      A.length = i ∧ B.length = K2.length := by
  obtain ⟨K1, K2, A, B0, rfl, rfl, hK1, hA, hB, _, _, _, _⟩ := exists_zipper ks cs i a hlen ha
  cases B0 with
  | nil =>
    rw [List.getElem?_eq_none (by simp [hA])] at hb
    cases hb
  | cons b0 B =>
    have hb0 : b0 = b := by
      have e : A ++ a :: b0 :: B = (A ++ [a]) ++ b0 :: B := by simp
      rw [e, show i + 1 = (A ++ [a]).length by simp [hA], List.getElem?_mid] at hb
      exact Option.some.inj hb
    subst hb0
    cases K2 with
    | nil => simp at hB
    | cons sep K2 => exact ⟨K1, sep, K2, A, B, rfl, rfl, hK1, hA, by simpa using hB⟩

/-- `borrowFromPrev` in zipper form, with the traversal. -/
theorem borrowPrev_zipper {t h : Nat} (K1 K2 : List Int) (s : Int) (A B : List BTreeNode)
    (SK : List Int) (up : Int) (sc : List BTreeNode) (sl : Bool)
    (ck : List Int) (cc : List BTreeNode) (cf : Bool)
    (hA : A.length = K1.length) (hB : B.length = K2.length) (hcap : ck.length < 2 * t - 1)
    (hbs : Bal t h (mk (SK ++ [up]) sc sl)) (hbc : Bal t h (mk ck cc cf)) :
    ∃ childC, (cf = true → childC = cc) ∧
      (cf = false → ∃ x, sc[(SK ++ [up]).length]? = some x ∧ childC = x :: cc) ∧
      borrowFromPrev t (mk (K1 ++ s :: K2) (A ++ mk (SK ++ [up]) sc sl :: mk ck cc cf :: B)
          false) (K1.length + 1) =
        some (mk (K1 ++ up :: K2)
          (A ++ mk SK (if sl then sc else sc.dropLast) sl :: mk (s :: ck) childC cf :: B)
          false) ∧
      traverseC (A ++ mk SK (if sl then sc else sc.dropLast) sl :: mk (s :: ck) childC cf :: B)
          (K1 ++ up :: K2) =
        traverseC (A ++ mk (SK ++ [up]) sc sl :: mk ck cc cf :: B) (K1 ++ s :: K2) := by
  obtain ⟨childC, hcc, _, _, htr, _, _⟩ := borrowPrev_nodes s up SK sc sl ck cc cf hbs hbc
  refine ⟨childC, ?_, ?_, borrowFromPrev_eq K1 K2 s A B false SK up sc sl ck cc cf childC hA
    hcap hcc, ?_⟩
  · intro hcf
    subst hcf
    simpa using hcc.symm
  · intro hcf
    subst hcf
    simp only [Bool.false_eq_true, if_false, Option.map_eq_some'] at hcc
    obtain ⟨x, hx, hxc⟩ := hcc
    exact ⟨x, hx, hxc.symm⟩
  · rw [traverseC_split _ (up :: K2) (_ :: B) (by simp [hB]) A K1 hA,
      traverseC_split _ (s :: K2) (_ :: B) (by simp [hB]) A K1 hA]
    simp only [travPost_cons, List.append_cancel_left_eq]
    have := congrArg (fun l => l ++ travPost K2 B) htr
    simpa using this.symm

/-- `borrowFromNext` in zipper form, with the traversal. -/
theorem borrowNext_zipper {t h : Nat} (K1 K2 : List Int) (s : Int) (A B : List BTreeNode)
    (SK : List Int) (up : Int) (sc : List BTreeNode) (sl : Bool)
    (ck : List Int) (cc : List BTreeNode) (cf : Bool)
    (hA : A.length = K1.length) (hB : B.length = K2.length) (hcap : ck.length < 2 * t - 1)
    (hbs : Bal t h (mk (up :: SK) sc sl)) (hbc : Bal t h (mk ck cc cf)) :
    ∃ childC, (cf = true → childC = cc) ∧
      (cf = false → ∃ x, sc[0]? = some x ∧ childC = cc ++ [x]) ∧
      borrowFromNext t (mk (K1 ++ s :: K2) (A ++ mk ck cc cf :: mk (up :: SK) sc sl :: B)
          false) K1.length =
        some (mk (K1 ++ up :: K2)
          (A ++ mk (ck ++ [s]) childC cf :: mk SK (if sl then sc else sc.tail) sl :: B)
          false) ∧
      traverseC (A ++ mk (ck ++ [s]) childC cf :: mk SK (if sl then sc else sc.tail) sl :: B)
          (K1 ++ up :: K2) =
        traverseC (A ++ mk ck cc cf :: mk (up :: SK) sc sl :: B) (K1 ++ s :: K2) := by
  obtain ⟨childC, hcc, _, _, htr, _, _⟩ := borrowNext_nodes s up SK sc sl ck cc cf hbs hbc
  refine ⟨childC, ?_, ?_, borrowFromNext_eq K1 K2 s A B false SK up sc sl ck cc cf childC hA
    hcap hcc, ?_⟩
  · intro hcf
    subst hcf
    simpa using hcc.symm
  · intro hcf
    subst hcf
    simp only [Bool.false_eq_true, if_false, Option.map_eq_some'] at hcc
    obtain ⟨x, hx, hxc⟩ := hcc
    exact ⟨x, hx, hxc.symm⟩
  · rw [traverseC_split _ (up :: K2) (_ :: B) (by simp [hB]) A K1 hA,
      traverseC_split _ (s :: K2) (_ :: B) (by simp [hB]) A K1 hA]
    simp only [travPost_cons, List.append_cancel_left_eq]
    have := congrArg (fun l => l ++ travPost K2 B) htr
    simpa using this.symm

end BTreeNode

namespace BTreeNode

/-- The capacity guard of the rotations in the model.  On a child that already holds
`2t - 1` keys the source would shift a key past the last slot of the child, and the model
returns `none`.  The program never passes such a child: the rotations are called only by
`fill`, and `deletion` calls `fill(idx)` only when `C[idx]` holds fewer than `t` keys. -/
theorem borrowFromPrev_full_child :
    (mk [6, 7, 8] [] true).n = 2 * 2 - 1 ∧ fullRightNode.C[1]? = some (mk [6, 7, 8] [] true) ∧
    borrowFromPrev 2 fullRightNode 1 = none :=
  ⟨by decide, by decide, by decide⟩

/-- The calls of the rotations made by `fill`: `borrowFromPrev(idx)` when there is a left
sibling with at least `t` keys, and `borrowFromNext(idx)` when there is no such left sibling
but a right sibling with at least `t` keys. -/
theorem fill_calls_rotation (t : Nat) (p : BTreeNode) (idx : Nat) :
    (∀ s, 1 ≤ idx → p.C[idx - 1]? = some s → t ≤ s.n →
      fill t p idx = borrowFromPrev t p idx) ∧
    (∀ s, (idx = 0 ∨ ∃ s0, p.C[idx - 1]? = some s0 ∧ s0.n < t) → idx ≠ p.n →
      p.C[idx + 1]? = some s → t ≤ s.n → fill t p idx = borrowFromNext t p idx) := by
  constructor
  · intro s hidx hs hsn
    have h0 : idx ≠ 0 := by omega
    rw [fill_eq]
    simp [h0, hs, hsn]
  · intro s hprev hidx hs hsn
    have hfirst : (if idx = 0 then some false
        else (p.C[idx - 1]?).map (fun s => decide (t ≤ s.n))) = some false := by
      rcases hprev with h0 | ⟨s0, hs0, hs0n⟩
      · simp [h0]
      · by_cases h0 : idx = 0
        · simp [h0]
        · simp [h0, hs0, hs0n]
    rw [fill_eq, hfirst]
    simp [hidx, hs, hsn]

/-- Claim C17 (borrow rotations).  The rotations are called only by `fill`, on a child with
fewer than `t` keys (`fill_calls_rotation`, `descent`); the statement covers every child
that is not full.  For a well-formed internal node `p`: `borrowFromPrev(idx)`, with
`idx ≥ 1`, `C[idx - 1]` holding at least `t` keys and `C[idx]` fewer than `2t - 1`, succeeds,
puts the old `keys[idx - 1]` at the front of `C[idx]`, replaces it by the last key of
`C[idx - 1]` and, for internal children, moves the last child of `C[idx - 1]` to the front
of `C[idx]`; `borrowFromNext(idx)`, with `idx < n`, is the mirror image with the first key
and first child of `C[idx + 1]`.  In both cases the child gains one key, the sibling loses
one, `p` keeps its number of keys and the traversal of `p` is unchanged. -/
theorem C17_borrow_rotations (t h : Nat) (ht : 2 ≤ t) (p : BTreeNode)
    (hwf : WellFormedAt t (h + 1) p) :
    (∀ idx c s, 1 ≤ idx → p.C[idx]? = some c → p.C[idx - 1]? = some s → t ≤ s.n →
      c.n < 2 * t - 1 →
      ∃ sep up childC p1,
        p.keys[idx - 1]? = some sep ∧ s.keys.getLast? = some up ∧
        (c.leaf = true → childC = c.C) ∧
        (c.leaf = false → ∃ x, s.C[s.n]? = some x ∧ childC = x :: c.C) ∧
        p1 = mk (p.keys.set (idx - 1) up)
          ((p.C.set idx (mk (sep :: c.keys) childC c.leaf)).set (idx - 1)
            (mk s.keys.dropLast (if s.leaf then s.C else s.C.dropLast) s.leaf)) false ∧
        borrowFromPrev t p idx = some p1 ∧
        (sep :: c.keys).length = c.n + 1 ∧ s.keys.dropLast.length + 1 = s.n ∧
        p1.n = p.n ∧ traverse p1 = traverse p) ∧
    (∀ idx c s, idx < p.n → p.C[idx]? = some c → p.C[idx + 1]? = some s → t ≤ s.n →
      c.n < 2 * t - 1 →
      ∃ sep up childC p1,
        p.keys[idx]? = some sep ∧ s.keys.head? = some up ∧
        (c.leaf = true → childC = c.C) ∧
        (c.leaf = false → ∃ x, s.C[0]? = some x ∧ childC = c.C ++ [x]) ∧
        p1 = mk (p.keys.set idx up)
          ((p.C.set idx (mk (c.keys ++ [sep]) childC c.leaf)).set (idx + 1)
            (mk s.keys.tail (if s.leaf then s.C else s.C.tail) s.leaf)) false ∧
        borrowFromNext t p idx = some p1 ∧
        (c.keys ++ [sep]).length = c.n + 1 ∧ s.keys.tail.length + 1 = s.n ∧
        p1.n = p.n ∧ traverse p1 = traverse p) := by
  obtain ⟨hb, _⟩ := wellFormedAt_iff.1 hwf
  obtain ⟨ks, cs, l⟩ := p
  obtain ⟨hl, hlen, hch⟩ := bal_succ.1 hb
  simp only [leaf_mk, C_mk, n_mk, keys_mk] at hl hlen hch ⊢
  subst hl
  constructor
  · intro idx c s hidx hc hs hsn hcap
    obtain ⟨i, rfl⟩ : ∃ i, idx = i + 1 := ⟨idx - 1, by omega⟩
    simp only [Nat.add_sub_cancel] at hs ⊢
    obtain ⟨K1, sep, K2, A, B, rfl, rfl, hK1, hA, hB⟩ := exists_zipper2 ks cs i s c hlen hs hc
    have hAK : A.length = K1.length := hA.trans hK1.symm
    have hsb := hch s (by simp)
    have hcb := hch c (by simp)
    obtain ⟨sk, sc, sl⟩ := s
    obtain ⟨ck, cc, cf⟩ := c
    simp only [n_mk, keys_mk, C_mk, leaf_mk] at hsn hcap ⊢
    obtain ⟨SK, up, rfl⟩ := List.exists_snoc sk (by intro h0; simp [h0] at hsn; omega)
    obtain ⟨childC, h1, h2, hbor, htr⟩ :=
      borrowPrev_zipper K1 K2 sep A B SK up sc sl ck cc cf hAK hB hcap hsb.2.2 hcb.2.2
    rw [hK1] at hbor
    have hset1 : (K1 ++ sep :: K2).set i up = K1 ++ up :: K2 := by
      rw [← hK1]; exact List.set_mid _ _ _ _
    have hset2 : ∀ m1 m2 : BTreeNode,
        ((A ++ mk (SK ++ [up]) sc sl :: mk ck cc cf :: B).set (i + 1) m2).set i m1 =
          A ++ m1 :: m2 :: B := by
      intro m1 m2
      have e : A ++ mk (SK ++ [up]) sc sl :: mk ck cc cf :: B =
          (A ++ [mk (SK ++ [up]) sc sl]) ++ mk ck cc cf :: B := by simp
      rw [e, show i + 1 = (A ++ [mk (SK ++ [up]) sc sl]).length by simp [hA], List.set_mid]
      have e2 : (A ++ [mk (SK ++ [up]) sc sl]) ++ m2 :: B =
          A ++ mk (SK ++ [up]) sc sl :: m2 :: B := by simp
      rw [e2, ← hA, List.set_mid]
    refine ⟨sep, up, childC, _, ?_, by simp, h1, h2, rfl, ?_, by simp, by simp, ?_, ?_⟩
    · rw [← hK1]; exact List.getElem?_mid _ _ _
    · rw [hset1, hset2]
      simpa using hbor
    · simp
    · rw [hset1, hset2, traverse_node, traverse_node]
      simpa using htr
  · intro idx c s hidx hc hs hsn hcap
    obtain ⟨K1, sep, K2, A, B, rfl, rfl, hK1, hA, hB⟩ :=
      exists_zipper2 ks cs idx c s hlen hc hs
    have hAK : A.length = K1.length := hA.trans hK1.symm
    have hsb := hch s (by simp)
    have hcb := hch c (by simp)
    obtain ⟨sk, sc, sl⟩ := s
    obtain ⟨ck, cc, cf⟩ := c
    simp only [n_mk, keys_mk, C_mk, leaf_mk] at hsn hcap ⊢
    cases sk with
    | nil => simp at hsn; omega
    | cons up SK =>
      obtain ⟨childC, h1, h2, hbor, htr⟩ :=
        borrowNext_zipper K1 K2 sep A B SK up sc sl ck cc cf hAK hB hcap hsb.2.2 hcb.2.2
      rw [hK1] at hbor
      have hset1 : (K1 ++ sep :: K2).set idx up = K1 ++ up :: K2 := by
        rw [← hK1]; exact List.set_mid _ _ _ _
      have hset2 : ∀ m1 m2 : BTreeNode,
          ((A ++ mk ck cc cf :: mk (up :: SK) sc sl :: B).set idx m1).set (idx + 1) m2 =
            A ++ m1 :: m2 :: B := by
        intro m1 m2
        rw [← hA, List.set_mid]
        have e : A ++ m1 :: mk (up :: SK) sc sl :: B =
            (A ++ [m1]) ++ mk (up :: SK) sc sl :: B := by simp
        rw [e, show A.length + 1 = (A ++ [m1]).length by simp, List.set_mid]
        simp
      refine ⟨sep, up, childC, _, ?_, by simp, h1, h2, rfl, ?_, by simp, by simp, ?_, ?_⟩
      · rw [← hK1]; exact List.getElem?_mid _ _ _
      · rw [hset1, hset2]
        exact hbor
      · simp
      · rw [hset1, hset2, traverse_node, traverse_node]
        exact htr

/-- Witness of C17: `t = 2`, `borrowFromPrev(1)` on the node `[5]` over the leaves `[1, 2]`
and `[8]`, and `borrowFromNext(0)` on the node `[5]` over `[1]` and `[7, 8]`, both as
called by `fill` on a child with `t - 1` keys. -/
theorem C17_borrow_rotations_witness :
    fill 2 richLeftNode 1 = borrowFromPrev 2 richLeftNode 1 ∧
    fill 2 richRightNode 0 = borrowFromNext 2 richRightNode 0 ∧
    (borrowFromPrev 2 richLeftNode 1 =
        some (mk [2] [mk [1] [] true, mk [5, 8] [] true] false) ∧
      traverse (mk [2] [mk [1] [] true, mk [5, 8] [] true] false) = traverse richLeftNode) ∧
    (borrowFromNext 2 richRightNode 0 =
        some (mk [7] [mk [1, 5] [] true, mk [8] [] true] false) ∧
      traverse (mk [7] [mk [1, 5] [] true, mk [8] [] true] false) =
        traverse richRightNode) := by
  have hP := (C17_borrow_rotations 2 0 (by decide) richLeftNode (by decide)).1 1
    (mk [8] [] true) (mk [1, 2] [] true) (by decide) (by decide) (by decide) (by decide)
    (by decide)
  have hN := (C17_borrow_rotations 2 0 (by decide) richRightNode (by decide)).2 0
    (mk [1] [] true) (mk [7, 8] [] true) (by decide) (by decide) (by decide) (by decide)
    (by decide)
  obtain ⟨_, _, _, p1, _, _, _, _, _, hb1, _, _, _, ht1⟩ := hP
  obtain ⟨_, _, _, p2, _, _, _, _, _, hb2, _, _, _, ht2⟩ := hN
  have e1 : borrowFromPrev 2 richLeftNode 1 =
      some (mk [2] [mk [1] [] true, mk [5, 8] [] true] false) := by decide
  have e2 : borrowFromNext 2 richRightNode 0 =
      some (mk [7] [mk [1, 5] [] true, mk [8] [] true] false) := by decide
  rw [e1] at hb1
  rw [e2] at hb2
  cases hb1
  cases hb2
  exact ⟨by decide, by decide, ⟨e1, ht1⟩, ⟨e2, ht2⟩⟩

end BTreeNode

namespace BTree

open BTreeNode

/-- Claim C18 (duplicate insertion).  For `t ≥ 2` and a well-formed tree that already
stores `k`, `insert(k)` succeeds and stores a second copy: the traversal afterwards is the
traversal before with `k` put in once more (one entry longer, non-decreasing), so it is no
longer strictly ascending and the tree is no longer well-formed. -/
theorem C18_duplicate_insert (T : BTree) (k : Int) (ht : 2 ≤ T.t) (hT : T.WellFormed)
    (hk : k ∈ T.allKeys) :
    ∃ T1, T.insert k = some T1 ∧
      (∃ L R, T.traverse = L ++ R ∧ T1.traverse = L ++ k :: R) ∧
      T1.traverse.Perm (k :: T.traverse) ∧
      T1.traverse.length = T.traverse.length + 1 ∧
      T1.traverse.count k = T.traverse.count k + 1 ∧
      T1.traverse.Pairwise (· ≤ ·) ∧ ¬ T1.traverse.Pairwise (· < ·) ∧ ¬ T1.WellFormed := by
  obtain ⟨r, T1, hr, hins, _, _, ⟨L, R, hL1, hL2, hL3, hL4⟩, _⟩ := insert_master T k ht hT
  have hs := traverse_sorted (Or.inr hT)
  have hmem : k ∈ L ++ R := hL1 ▸ (mem_traverse_iff_allKeys hT k).2 hk
  have hperm : T1.traverse.Perm (k :: T.traverse) := by
    rw [hL1, hL2]; exact List.perm_middle
  have hnot : ¬ T1.traverse.Pairwise (· < ·) := by
    rw [hL2]
    intro hp
    rw [List.pairwise_append, List.pairwise_cons] at hp
    rcases List.mem_append.1 hmem with h1 | h1
    · exact absurd (hp.2.2 k h1 k (by simp)) (lt_irrefl _)
    · exact absurd (hp.2.1.1 k h1) (lt_irrefl _)
  refine ⟨T1, hins, ⟨L, R, hL1, hL2⟩, hperm, ?_, ?_, ?_, hnot, ?_⟩
  · rw [hperm.length_eq]; simp
  · rw [hperm.count_eq]; simp
  · rw [hL2]
    rw [hL1] at hs
    have hs2 := hs.imp (fun h => le_of_lt h)
    rw [List.pairwise_append] at hs2 ⊢
    refine ⟨hs2.1, List.pairwise_cons.2 ⟨hL4, hs2.2.1⟩, ?_⟩
    intro a ha b hb
    rcases List.mem_cons.1 hb with rfl | hb
    · exact hL3 a ha
    · exact hs2.2.2 a ha b hb
  · intro hwf
    exact hnot (traverse_sorted (Or.inr hwf))

/-- Witness of C18: inserting 19 a second time into the tree built by `main`. -/
theorem C18_duplicate_insert_witness :
    2 ≤ mainTree.t ∧ mainTree.WellFormed ∧ (19 : Int) ∈ mainTree.allKeys ∧
    ∃ T1, mainTree.insert 19 = some T1 ∧
      (∃ L R, mainTree.traverse = L ++ R ∧ T1.traverse = L ++ 19 :: R) ∧
      T1.traverse.Perm (19 :: mainTree.traverse) ∧
      T1.traverse.length = mainTree.traverse.length + 1 ∧
      T1.traverse.count 19 = mainTree.traverse.count 19 + 1 ∧
      T1.traverse.Pairwise (· ≤ ·) ∧ ¬ T1.traverse.Pairwise (· < ·) ∧ ¬ T1.WellFormed :=
  ⟨by decide, by decide, by decide,
    C18_duplicate_insert mainTree 19 (by decide) (by decide) (by decide)⟩

end BTree

namespace BTreeNode

/-- The number of keys left by `fill` on the last child: unchanged when the left sibling
can lend a key, one less when the two are merged. -/
theorem fill_last {t h : Nat} (ht : 2 ≤ t) (K10 : List Int) (s : Int) (A0 : List BTreeNode)
    (sib c : BTreeNode) (hA0 : A0.length = K10.length)
    (hbal : Bal t (h + 1) (mk (K10 ++ [s]) (A0 ++ [sib] ++ c :: []) false))
    (hc : c.n < t) :
    ∃ node1, fill t (mk (K10 ++ [s]) (A0 ++ [sib] ++ c :: []) false) (K10.length + 1) =
        some node1 ∧
      node1.n = if t ≤ sib.n then K10.length + 1 else K10.length := by
  obtain ⟨_, hlen, hch⟩ := bal_succ.1 hbal
  simp only [C_mk, n_mk] at hlen hch
  have hcb := hch c (by simp)
  have hsb := hch sib (by simp)
  have hcn : c.n = t - 1 := by omega
  have e2 : A0 ++ [sib] ++ [c] = A0 ++ sib :: c :: [] := by simp
  have hget : (A0 ++ sib :: c :: [])[K10.length]? = some sib := by
    rw [← hA0]; exact List.getElem?_mid _ _ _
  by_cases hs : t ≤ sib.n
  · obtain ⟨sk, sc, sl⟩ := sib
    obtain ⟨ck, cc, cf⟩ := c
    simp only [n_mk] at hs hcn hc
    obtain ⟨SK, up, rfl⟩ := List.exists_snoc sk (by intro h0; simp [h0] at hs; omega)
    obtain ⟨childC, hcc, _⟩ := borrowPrev_nodes s up SK sc sl ck cc cf hsb.2.2 hcb.2.2
    have hfill : fill t (mk (K10 ++ [s]) (A0 ++ [mk (SK ++ [up]) sc sl] ++ mk ck cc cf :: [])
        false) (K10.length + 1) = some (mk (K10 ++ up :: [])
          (A0 ++ mk SK (if sl then sc else sc.dropLast) sl :: mk (s :: ck) childC cf :: [])
          false) := by
      rw [fill_eq]
      simp only [e2, C_mk, n_mk, Nat.add_sub_cancel, hget, Option.map_some',
        Nat.succ_ne_zero, if_false]
      have hd : decide (t ≤ (SK ++ [up]).length) = true := by simpa using hs
      simp only [hd]
      have := borrowFromPrev_eq (t := t) K10 [] s A0 [] false SK up sc sl ck cc cf childC hA0
        (by omega) hcc
      simpa using this
    refine ⟨_, hfill, ?_⟩
    simp only [n_mk, List.length_append, List.length_cons, List.length_nil,
      List.length_singleton] at hs ⊢
    rw [if_pos hs]
  · have hsn : sib.n = t - 1 := by have := hsb.1; omega
    have hfill : fill t (mk (K10 ++ [s]) (A0 ++ [sib] ++ c :: []) false) (K10.length + 1) =
        some (mk (K10 ++ [])
          (A0 ++ mk (sib.keys ++ s :: c.keys) (if sib.leaf then sib.C else sib.C ++ c.C)
            sib.leaf :: []) false) := by
      rw [fill_eq]
      have hd : decide (t ≤ sib.n) = false := by simpa using hs
      simp only [e2, C_mk, n_mk, Nat.add_sub_cancel, hget, Option.map_some',
        Nat.succ_ne_zero, if_false, hd, List.length_append, List.length_singleton, if_true,
        ne_eq, not_true_eq_false]
      have := merge_eq (t := t) K10 [] s A0 [] false sib c hA0 hsn (by omega)
      simpa using this
    exact ⟨_, hfill, by simp [hs]⟩

/-- When the key is not in an internal node, `deletion` is `descent` followed by the
recursive call on the child that `descent` selects. -/
theorem deletion_eq_descent (t fuel : Nat) (node : BTreeNode) (k : Int)
    (hk : node.keys[node.findKey k]? ≠ some k) (hl : node.leaf = false) :
    deletion t (fuel + 1) node k =
      match descent t node k with
      | none => none
      | some (node1, j) =>
        match node1.C[j]? with
        | none => none
        | some cj =>
          match deletion t fuel cj k with
          | none => none
          | some (cj1, out) => some (node1.setChild j cj1, out) := by
  simp only [deletion, descent, hk, hl, if_false, Bool.false_eq_true]
  cases node.C[node.findKey k]? with
  | none => rfl
  | some c =>
    simp only
    cases (if c.n < t then fill t node (node.findKey k) else some node) with
    | none => rfl
    | some node1 => rfl

theorem findKey_le_n (node : BTreeNode) (k : Int) : node.findKey k ≤ node.n := by
  obtain ⟨K1, K2, hks, hi, _, _⟩ := findKeyFrom_spec k node.keys
  have h1 : node.findKey k = K1.length := hi.symm
  have h2 : node.n = (K1 ++ K2).length := by rw [← hks]; rfl
  rw [h1, h2, List.length_append]
  omega

/-- The lines of `deletion` before the recursive call, on an internal node of a balanced
tree: the child `idx` exists, the optional `fill` succeeds, the number of keys drops below
`idx` exactly when the last child is merged into its left sibling, and the child then
selected exists and has at least `t` keys. -/
theorem descent_core {t h : Nat} (ht : 2 ≤ t) (node : BTreeNode) (hb : Bal t (h + 1) node)
    (hn : 1 ≤ node.n) (idx : Nat) (hidx : idx ≤ node.n) :
    ∃ c node1 d, node.C[idx]? = some c ∧
      (if c.n < t then fill t node idx else some node) = some node1 ∧
      ((idx = node.n ∧ idx > node1.n) ↔
        (idx = node.n ∧ c.n < t ∧ ∀ s, node.C[idx - 1]? = some s → s.n < t)) ∧
      node1.C[if idx = node.n ∧ idx > node1.n then idx - 1 else idx]? = some d ∧
      t ≤ d.n ∧ Bal t (h + 1) node1 ∧ Bal t h d := by
  obtain ⟨ks, cs, l⟩ := node
  obtain ⟨hl, hlen, hch⟩ := bal_succ.1 hb
  simp only [leaf_mk, C_mk, n_mk] at hl hlen hch hn hidx ⊢
  subst hl
  have hlt : idx < cs.length := by omega
  have hc : cs[idx]? = some cs[idx] := List.getElem?_eq_getElem hlt
  generalize cs[idx] = c at hc
  obtain ⟨K1, K2, A, B, rfl, rfl, hK1, hA, hB, _⟩ := exists_zipper ks cs idx c hlen hc
  have hAK : A.length = K1.length := hA.trans hK1.symm
  subst hK1
  have hcb := hch c (by simp)
  by_cases hcn : c.n < t
  · obtain ⟨K3, K4, A1, B1, d, hfill, hA1, _, hb1, hd, _, _, _, _, _, hj⟩ :=
      fill_spec ht K1 K2 A B c hAK hB hb hn hcn
    have hdget : (mk (K3 ++ K4) (A1 ++ d :: B1) false).C[
        if K1.length = (K1 ++ K2).length ∧ K1.length > (mk (K3 ++ K4) (A1 ++ d :: B1) false).n
          then K1.length - 1 else K1.length]? = some d := by
      simp only [n_mk, C_mk]
      rw [← hj, ← hA1]
      exact List.getElem?_mid _ _ _
    have hdb := (bal_succ.1 hb1).2.2 d (by simp)
    refine ⟨c, _, d, hc, by rw [if_pos hcn]; exact hfill, ?_, hdget, hd, hb1, hdb.2.2⟩
    by_cases hlast : K1.length = (K1 ++ K2).length
    · have hK2 : K2 = [] := by
        apply List.length_eq_zero.1
        simp only [List.length_append] at hlast
        omega
      subst hK2
      have hB0 : B = [] := List.length_eq_zero.1 (by simpa using hB)
      subst hB0
      simp only [List.append_nil, List.length_append, List.length_nil] at hn
      obtain ⟨K10, s, rfl⟩ := List.exists_snoc K1 (by intro h0; simp [h0] at hn)
      obtain ⟨A0, sib, rfl⟩ := List.exists_snoc A (by intro h0; simp [h0] at hAK)
      simp only [List.length_append, List.length_singleton] at hAK
      have hA0 : A0.length = K10.length := by omega
      obtain ⟨node1, hf1, hn1⟩ :=
        fill_last ht K10 s A0 sib c hA0 (by simpa using hb) hcn
      have hfill2 : fill t (mk (K10 ++ [s]) (A0 ++ [sib] ++ c :: []) false) (K10.length + 1) =
          some (mk (K3 ++ K4) (A1 ++ d :: B1) false) := by
        simpa using hfill
      rw [hf1] at hfill2
      cases hfill2
      have hsib : (A0 ++ [sib] ++ c :: [])[K10.length + 1 - 1]? = some sib := by
        rw [Nat.add_sub_cancel, ← hA0, List.append_assoc]
        exact List.getElem?_mid _ _ _
      simp only [List.append_nil, List.length_append, List.length_singleton, n_mk, C_mk] at hn1 ⊢
      rw [hsib]
      by_cases hs : t ≤ sib.n
      · rw [if_pos hs] at hn1
        constructor
        · intro h1; omega
        · intro h1
          have := h1.2.2 sib rfl
          omega
      · rw [if_neg hs] at hn1
        constructor
        · intro _
          refine ⟨trivial, hcn, ?_⟩
          intro s0 hs0
          cases hs0
          omega
        · intro _
          exact ⟨trivial, by omega⟩
    · constructor
      · intro h1; exact absurd h1.1 hlast
      · intro h1; exact absurd h1.1 hlast
  · have hnot : ¬ (K1.length = (K1 ++ K2).length ∧
        K1.length > (mk (K1 ++ K2) (A ++ c :: B) false).n) := by
      simp only [n_mk]; omega
    refine ⟨c, _, c, hc, if_neg hcn, ?_, by rw [if_neg hnot]; exact hc, by omega, hb,
      hcb.2.2⟩
    constructor
    · intro h1; exact absurd h1 hnot
    · intro h1; exact absurd h1.2.1 hcn

/-- Claim C12 (fill postcondition).  For `t ≥ 2`, a well-formed internal node with at least
one key and a child index `idx` whose child has exactly `t - 1` keys: `fill(idx)` succeeds,
and the child the deletion then descends into (`C[idx - 1]` when `idx` was the last child
and the number of keys dropped below it, `C[idx]` otherwise) has at least `t` keys. -/
theorem C12_fill_post (t h : Nat) (ht : 2 ≤ t) (node : BTreeNode)
    (hwf : WellFormedAt t (h + 1) node) (hn : 1 ≤ node.n) (idx : Nat) (c : BTreeNode)
    (hc : node.C[idx]? = some c) (hcn : c.n = t - 1) :
    ∃ node1 d, fill t node idx = some node1 ∧
      node1.C[if idx = node.n ∧ idx > node1.n then idx - 1 else idx]? = some d ∧
      t ≤ d.n := by
  obtain ⟨hb, _⟩ := wellFormedAt_iff.1 hwf
  obtain ⟨ks, cs, l⟩ := node
  obtain ⟨hl, hlen, _⟩ := bal_succ.1 hb
  simp only [leaf_mk, C_mk, n_mk] at hl hlen hc hn ⊢
  subst hl
  obtain ⟨K1, K2, A, B, rfl, rfl, hK1, hA, hB, _⟩ := exists_zipper ks cs idx c hlen hc
  have hAK : A.length = K1.length := hA.trans hK1.symm
  obtain ⟨K3, K4, A1, B1, d, hfill, hA1, _, _, hd, _, _, _, _, _, hj⟩ :=
    fill_spec ht K1 K2 A B c hAK hB hb hn (by omega)
  rw [hK1] at hfill hj
  refine ⟨_, d, hfill, ?_, hd⟩
  simp only [n_mk, C_mk]
  rw [← hj, ← hA1]
  exact List.getElem?_mid _ _ _

/-- Witness of C12: `t = 2`, the node `[5]` over the leaves `[1]` and `[8]`, child 1. -/
theorem C12_fill_post_witness :
    WellFormedAt 2 1 thinNode ∧
    fill 2 thinNode 1 = some (mk [] [mk [1, 5, 8] [] true] false) ∧
    (mk [] [mk [1, 5, 8] [] true] false).C[1 - 1]? = some (mk [1, 5, 8] [] true) ∧
    ∃ node1 d, fill 2 thinNode 1 = some node1 ∧
      node1.C[if 1 = thinNode.n ∧ 1 > node1.n then 1 - 1 else 1]? = some d ∧ 2 ≤ d.n :=
  ⟨by decide, by decide, by decide,
    C12_fill_post 2 0 (by decide) thinNode (by decide) (by decide) 1 (mk [8] [] true)
      (by decide) (by decide)⟩

/-- Counterexample to C11: the redirect branch is taken.  With `t = 2`, on the node `[5]`
over the leaves `[1]` and `[8]` and the key 9: `idx = 1 = n`, so `flag` is true; `fill(1)`
merges the two leaves and `n` becomes 0, so `idx > n` is true and `deletion` goes on in
`C[idx - 1] = C[0]` (there is no `C[1]` any more).  The same happens at the root of the tree
built by `main` for `deletion(18)`. -/
theorem C11_counterexample :
    (thinNode.findKey 9 = thinNode.n ∧
      descent 2 thinNode 9 = some (mk [] [mk [1, 5, 8] [] true] false, 0) ∧
      thinNode.findKey 9 > (mk [] [mk [1, 5, 8] [] true] false).n ∧
      thinNode.findKey 9 - 1 = 0 ∧
      deletion 2 2 thinNode 9 =
        some (mk [] [mk [1, 5, 8] [] true] false, [Msg.keyMissing 9])) ∧
    (∃ r, BTree.mainTree.root = some r ∧ r.findKey 18 = 1 ∧ r.n = 1 ∧
      (descent 2 r 18).map (fun p => (p.1.n, p.2)) = some (0, 0)) :=
  ⟨⟨by decide, by decide, by decide, by decide, by decide⟩,
    ⟨_, rfl, by decide, by decide, by decide⟩⟩

/-- Claim C11, amended (the redirect branch is live).  For `t ≥ 2`, a well-formed internal
node with at least one key and any key `k`, with `idx = findKey(k)`: the lines before the
recursive call succeed, and the test `flag && idx > n` read after the optional `fill` is
true exactly when `idx` is the last child, that child has fewer than `t` keys and its left
sibling has fewer than `t` keys, that is when `fill` merges the last child into its left
sibling and `n` drops by one.  `deletion` then goes on in `C[idx - 1]`, otherwise in
`C[idx]`, and that child exists. -/
theorem C11_redirect_live (t h : Nat) (ht : 2 ≤ t) (node : BTreeNode)
    (hwf : WellFormedAt t (h + 1) node) (hn : 1 ≤ node.n) (k : Int) :
    ∃ c node1 j d,
      node.C[node.findKey k]? = some c ∧
      descent t node k = some (node1, j) ∧
      ((node.findKey k = node.n ∧ node.findKey k > node1.n) ↔
        (node.findKey k = node.n ∧ c.n < t ∧
          ∀ s, node.C[node.findKey k - 1]? = some s → s.n < t)) ∧
      j = (if node.findKey k = node.n ∧ node.findKey k > node1.n
        then node.findKey k - 1 else node.findKey k) ∧
      node1.C[j]? = some d ∧
      (node.keys[node.findKey k]? ≠ some k → ∀ fuel,
        deletion t (fuel + 1) node k =
          match deletion t fuel d k with
          | none => none
          | some (d1, out) => some (node1.setChild j d1, out)) := by
  obtain ⟨hb, _⟩ := wellFormedAt_iff.1 hwf
  have hl : node.leaf = false := (bal_succ.1 hb).1
  obtain ⟨c, node1, d, hc, hfill, hiff, hd, _⟩ :=
    descent_core ht node hb hn (node.findKey k) (findKey_le_n node k)
  have hdesc : descent t node k = some (node1,
      if node.findKey k = node.n ∧ node.findKey k > node1.n
        then node.findKey k - 1 else node.findKey k) := by
    simp only [descent, hc, hfill, decide_eq_true_eq]
  refine ⟨c, node1, _, d, hc, hdesc, hiff, rfl, hd, ?_⟩
  intro hk fuel
  rw [deletion_eq_descent t fuel node k hk hl, hdesc]
  simp only [hd]

/-- Witness of the amended C11: `t = 2`, the node `[5]` over the leaves `[1]` and `[8]`,
key 9 (the redirect is taken) . -/
theorem C11_redirect_live_witness :
    WellFormedAt 2 1 thinNode ∧ 1 ≤ thinNode.n ∧
    ∃ c node1 j d,
      thinNode.C[thinNode.findKey 9]? = some c ∧
      descent 2 thinNode 9 = some (node1, j) ∧
      ((thinNode.findKey 9 = thinNode.n ∧ thinNode.findKey 9 > node1.n) ↔
        (thinNode.findKey 9 = thinNode.n ∧ c.n < 2 ∧
          ∀ s, thinNode.C[thinNode.findKey 9 - 1]? = some s → s.n < 2)) ∧
      j = (if thinNode.findKey 9 = thinNode.n ∧ thinNode.findKey 9 > node1.n
        then thinNode.findKey 9 - 1 else thinNode.findKey 9) ∧
      node1.C[j]? = some d ∧
      (thinNode.keys[thinNode.findKey 9]? ≠ some 9 → ∀ fuel,
        deletion 2 (fuel + 1) thinNode 9 =
          match deletion 2 fuel d 9 with
          | none => none
          | some (d1, out) => some (node1.setChild j d1, out)) :=
  ⟨by decide, by decide, C11_redirect_live 2 0 (by decide) thinNode (by decide) (by decide) 9⟩

end BTreeNode

namespace BTreeNode

/-- On a balanced node that is not full, `insertNonFull` never reaches a full node: the
version with the assertion at every entry computes the same result. -/
theorem insertNonFullChecked_eq {t : Nat} (ht : 1 ≤ t) (k : Int) :
    ∀ (fuel h : Nat) (node : BTreeNode), Bal t h node → node.n < 2 * t - 1 →
      insertNonFullChecked t fuel node k = insertNonFull t fuel node k
  | 0, _, _, _, _ => rfl
  | fuel + 1, 0, mk ks cs l, hb, hn => by
    have : l = true := bal_zero.1 hb
    subst this
    rw [insertNonFullChecked_succ, if_pos hn, insertNonFull_eq_step]
    simp only [insertNonFullStep, leaf_mk, if_true]
  | fuel + 1, h + 1, mk ks cs l, hb, hn => by
    obtain ⟨hl, hlen, hc⟩ := bal_succ.1 hb
    rw [insertNonFullChecked_succ, if_pos hn, insertNonFull_eq_step]
    simp only [leaf_mk, C_mk, n_mk] at hl hlen hc hn
    subst hl
    simp only [insertNonFullStep, leaf_mk, keys_mk, C_mk, Bool.false_eq_true, if_false]
    cases hget : cs[scanDown ks k]? with
    | none => rfl
    | some c =>
      simp only
      obtain ⟨K1, K2, A, B, rfl, rfl, hK1, hA, hB, _⟩ :=
        exists_zipper ks cs (scanDown ks k) c hlen hget
      have hAK : A.length = K1.length := hA.trans hK1.symm
      have hcb := hc c (by simp)
      by_cases hfull : c.n = 2 * t - 1
      · simp only [hfull, if_true]
        obtain ⟨yk, yc, yl⟩ := c
        simp only [n_mk] at hfull
        obtain ⟨Y1, med, Y2, rfl, hY1, hY2⟩ := exists_median ht yk hfull
        rw [← hK1, splitChild_eq K1 K2 A B false Y1 Y2 med yc yl hAK hY1 hY2 ht
          (by simpa using hn)]
        obtain ⟨hb1, hb2, _⟩ := split_halves ht Y1 Y2 med yc yl hY1 hY2 hcb.2.2
        have hkm : (K1 ++ med :: K2)[K1.length]? = some med := List.getElem?_mid _ _ _
        simp only [keys_mk, C_mk, hkm]
        by_cases hm : med < k
        · have hgz : (A ++ mk Y1 (if yl then yc else yc.take t) yl ::
              mk Y2 (if yl then [] else yc.drop t) yl :: B)[K1.length + 1]? =
              some (mk Y2 (if yl then [] else yc.drop t) yl) := by
            have e : A ++ mk Y1 (if yl then yc else yc.take t) yl ::
                mk Y2 (if yl then [] else yc.drop t) yl :: B =
                (A ++ [mk Y1 (if yl then yc else yc.take t) yl]) ++
                  mk Y2 (if yl then [] else yc.drop t) yl :: B := by simp
            rw [e, show K1.length + 1 =
              (A ++ [mk Y1 (if yl then yc else yc.take t) yl]).length by simp [hAK]]
            exact List.getElem?_mid _ _ _
          simp only [hm, if_true, hgz]
          rw [insertNonFullChecked_eq ht k fuel h _ hb2 (by simp only [n_mk, hY2]; omega)]
        · have hgy : (A ++ mk Y1 (if yl then yc else yc.take t) yl ::
              mk Y2 (if yl then [] else yc.drop t) yl :: B)[K1.length]? =
              some (mk Y1 (if yl then yc else yc.take t) yl) := by
            rw [← hAK]; exact List.getElem?_mid _ _ _
          simp only [hm, if_false, hgy]
          rw [insertNonFullChecked_eq ht k fuel h _ hb1 (by simp only [n_mk, hY1]; omega)]
      · simp only [hfull, if_false]
        rw [insertNonFullChecked_eq ht k fuel h c hcb.2.2 (by omega)]

/-- A balanced subtree whose top node holds at most `2t - 1` keys fits the arrays. -/
theorem withinCapacity_of_bal {t : Nat} (ht : 1 ≤ t) :
    ∀ (h : Nat) (node : BTreeNode), Bal t h node → node.n ≤ 2 * t - 1 →
      withinCapacity t node = true
  | 0, mk ks cs l, hb, hn => by
    have : l = true := bal_zero.1 hb
    subst this
    simp only [n_mk] at hn
    simp [withinCapacity, hn]
  | h + 1, mk ks cs l, hb, hn => by
    obtain ⟨hl, hlen, hc⟩ := bal_succ.1 hb
    simp only [leaf_mk, C_mk, n_mk] at hl hlen hc hn
    subst hl
    have hall : ∀ l : List BTreeNode, (∀ c ∈ l, c ∈ cs) → withinCapacityC t l = true := by
      intro l
      induction l with
      | nil => intro _; rfl
      | cons c l ih =>
        intro hsub
        have hcb := hc c (hsub c (by simp))
        simp only [withinCapacityC, Bool.and_eq_true]
        exact ⟨withinCapacity_of_bal ht h c hcb.2.2 hcb.2.1,
          ih (fun x hx => hsub x (List.mem_cons_of_mem _ hx))⟩
    simp only [withinCapacity, Bool.and_eq_true, Bool.or_eq_true, decide_eq_true_eq]
    exact ⟨hn, Or.inr ⟨by omega, hall cs (fun _ hx => hx)⟩⟩

end BTreeNode

namespace BTree

open BTreeNode

/-- On a well-formed tree `insert` never invokes `insertNonFull` on a full node. -/
theorem insertChecked_eq (T : BTree) (k : Int) (ht : 2 ≤ T.t) (hT : T.WellFormed) :
    T.insertChecked k = T.insert k := by
  obtain ⟨r, hr, hwf⟩ := wellFormed_iff_root.1 hT
  obtain ⟨h, hb, hn1, hn2, _⟩ := BTreeNode.wellFormed_iff.1 hwf
  have ht1 : 1 ≤ T.t.toNat := by omega
  by_cases hfull : r.n = 2 * T.t.toNat - 1
  · simp only [insertChecked, insert, hr, hfull, if_true]
    obtain ⟨yk, yc, yl⟩ := r
    simp only [n_mk] at hfull
    obtain ⟨Y1, med, Y2, rfl, hY1, hY2⟩ := exists_median ht1 yk hfull
    have hs := splitChild_eq (t := T.t.toNat) [] [] [] [] false Y1 Y2 med yc yl rfl hY1 hY2 ht1
      (by simp; omega)
    simp only [List.nil_append, List.length_nil] at hs
    rw [hs]
    obtain ⟨hb1, hb2, _⟩ := split_halves ht1 Y1 Y2 med yc yl hY1 hY2 hb
    simp only [keys_mk, C_mk, List.getElem?_cons_zero]
    by_cases hm : med < k
    · simp only [hm, if_true, List.getElem?_cons_succ, List.getElem?_cons_zero]
      rw [insertNonFullChecked_eq ht1 k _ h _ hb2 (by simp only [n_mk, hY2]; omega)]
    · simp only [hm, if_false, List.getElem?_cons_zero]
      rw [insertNonFullChecked_eq ht1 k _ h _ hb1 (by simp only [n_mk, hY1]; omega)]
  · simp only [insertChecked, insert, hr, hfull, if_false]
    rw [insertNonFullChecked_eq ht1 k _ h r hb (by omega)]

/-- Claim C14 (insert never descends into a full node).  For `t ≥ 2`, a well-formed tree
and any key `k`: `insert(k)` computes the same result when every invocation of
`insertNonFull` first asserts that its node holds fewer than `2t - 1` keys, so no such
invocation is on a full node; the insertion succeeds (in the model a write past the capacity
of a node gives `none`), and every node of the resulting tree holds at most `2t - 1` keys
and at most `2t` children. -/
theorem C14_insert_never_full (T : BTree) (k : Int) (ht : 2 ≤ T.t) (hT : T.WellFormed) :
    T.insertChecked k = T.insert k ∧
    ∃ r1, T.insert k = some ⟨some r1, T.t⟩ ∧ withinCapacity T.t.toNat r1 = true := by
  obtain ⟨r, hr, hwf⟩ := wellFormed_iff_root.1 hT
  obtain ⟨h, hb, hn1, hn2, hp⟩ := BTreeNode.wellFormed_iff.1 hwf
  have ht2 : 2 ≤ T.t.toNat := by omega
  obtain ⟨r1, hins, hb1, _, hm2, _⟩ :=
    insert_root_spec ht2 k T r hr rfl h hb hn1 hn2 (hp.imp le_of_lt)
  exact ⟨insertChecked_eq T k ht hT, r1, hins,
    withinCapacity_of_bal (by omega) _ r1 hb1 hm2⟩

/-- Witness of C14: inserting 18 into the tree built by `main`. -/
theorem C14_insert_never_full_witness :
    2 ≤ mainTree.t ∧ mainTree.WellFormed ∧
    mainTree.insertChecked 18 = mainTree.insert 18 ∧
    ∃ r1, mainTree.insert 18 = some ⟨some r1, mainTree.t⟩ ∧
      withinCapacity mainTree.t.toNat r1 = true :=
  ⟨by decide, by decide, C14_insert_never_full mainTree 18 (by decide) (by decide)⟩

end BTree

namespace BTreeNode

/-- The recursive calls made by `removeFromNonLeaf` on a balanced node are all on children
with at least `t` keys: two callees that agree on such children give the same result. -/
theorem removeFromNonLeaf_congr {t h : Nat} (ht : 2 ≤ t)
    (del1 del2 : BTreeNode → Int → Option (BTreeNode × List Msg))
    (hagree : ∀ c x, Bal t h c → t ≤ c.n → del1 c x = del2 c x)
    (node : BTreeNode) (hb : Bal t (h + 1) node) (idx : Nat) :
    removeFromNonLeaf t del1 node idx = removeFromNonLeaf t del2 node idx := by
  obtain ⟨ks, cs, l⟩ := node
  obtain ⟨hl, hlen, hch⟩ := bal_succ.1 hb
  simp only [leaf_mk, C_mk, n_mk] at hl hlen hch
  subst hl
  unfold removeFromNonLeaf
  simp only [keys_mk, C_mk, leaf_mk]
  cases hk : ks[idx]? with
  | none => rfl
  | some k =>
    cases hgl : cs[idx]? with
    | none => rfl
    | some cl =>
      simp only
      have hclb := hch cl (List.getElem?_mem hgl)
      by_cases h1 : t ≤ cl.n
      · simp only [h1, if_true]
        cases getPredecessor (mk ks cs false) idx with
        | none => rfl
        | some pred =>
          simp only
          rw [hagree cl pred hclb.2.2 h1]
      · simp only [h1, if_false]
        cases hgr : cs[idx + 1]? with
        | none => rfl
        | some cr =>
          simp only
          have hcrb := hch cr (List.getElem?_mem hgr)
          by_cases h2 : t ≤ cr.n
          · simp only [h2, if_true]
            cases getSuccessor (mk ks cs false) idx with
            | none => rfl
            | some succ =>
              simp only
              rw [hagree cr succ hcrb.2.2 h2]
          · simp only [h2, if_false]
            obtain ⟨K1, sep, K2, A, B, rfl, rfl, hK1, hA, hB⟩ :=
              exists_zipper2 ks cs idx cl cr hlen hgl hgr
            have hAK : A.length = K1.length := hA.trans hK1.symm
            have hcln : cl.n = t - 1 := by omega
            have hcrn : cr.n = t - 1 := by omega
            rw [← hK1, merge_eq K1 K2 sep A B false cl cr hAK hcln (by omega)]
            obtain ⟨hbm, _⟩ := merged_child sep cl cr hclb.2.2 hcrb.2.2 hcln hcrn
            have hgm : (A ++ mk (cl.keys ++ sep :: cr.keys)
                (if cl.leaf then cl.C else cl.C ++ cr.C) cl.leaf :: B)[K1.length]? =
                some (mk (cl.keys ++ sep :: cr.keys)
                  (if cl.leaf then cl.C else cl.C ++ cr.C) cl.leaf) := by
              rw [← hAK]; exact List.getElem?_mid _ _ _
            have hmn : t ≤ (mk (cl.keys ++ sep :: cr.keys)
                (if cl.leaf then cl.C else cl.C ++ cr.C) cl.leaf).n := by
              simp only [n_mk, List.length_append, List.length_cons]
              have e1 : cl.keys.length = t - 1 := hcln
              omega
            simp only [C_mk, hgm]
            rw [hagree _ k hbm hmn]

/-- Every recursive call made by the body of `deletion` on a balanced node with at least one
key is on a child with at least `t` keys: two callees that agree on such children give the
same result. -/
theorem deletionStep_congr {t h : Nat} (ht : 2 ≤ t)
    (del1 del2 : BTreeNode → Int → Option (BTreeNode × List Msg))
    (hagree : ∀ c x, Bal t h c → t ≤ c.n → del1 c x = del2 c x)
    (node : BTreeNode) (hb : Bal t (h + 1) node) (hn : 1 ≤ node.n) (k : Int) :
    deletionStep t del1 node k = deletionStep t del2 node k := by
  have hl : node.leaf = false := (bal_succ.1 hb).1
  unfold deletionStep
  simp only [hl, Bool.false_eq_true, if_false]
  by_cases hk : node.keys[node.findKey k]? = some k
  · simp only [hk, if_true]
    exact removeFromNonLeaf_congr ht del1 del2 hagree node hb _
  · simp only [hk, if_false]
    obtain ⟨c, node1, d, hc, hfill, _, hd, hdn, _, hdb⟩ :=
      descent_core ht node hb hn (node.findKey k) (findKey_le_n node k)
    simp only [hc, hfill, decide_eq_true_eq, hd]
    rw [hagree d k hdb hdn]

/-- On a balanced subtree with at least one key in its top node, `deletion` is never invoked
on a node below the top with fewer than `t` keys: the version with the assertion in front
of every recursive call computes the same result. -/
theorem deletionChecked_eq {t : Nat} (ht : 2 ≤ t) :
    ∀ (fuel h : Nat) (node : BTreeNode) (k : Int), Bal t h node → 1 ≤ node.n →
      deletionChecked t fuel node k = deletion t fuel node k
  | 0, _, _, _, _, _ => rfl
  | fuel + 1, 0, node, k, hb, _ => by
    have hl : node.leaf = true := bal_zero.1 hb
    rw [deletionChecked_succ, deletion_eq_step]
    simp only [deletionStep, hl, if_true]
  | fuel + 1, h + 1, node, k, hb, hn => by
    rw [deletionChecked_succ, deletion_eq_step]
    apply deletionStep_congr ht _ _ _ node hb hn k
    intro c x hcb hcn
    simp only [hcn, if_true]
    exact deletionChecked_eq ht fuel h c x hcb (by omega)

/-- The assertion of `deletionChecked` is effective: on a malformed node, where `fill`
leaves the child with two keys for `t = 3`, the plain `deletion` returns while the checked
one stops. -/
theorem deletionChecked_detects :
    deletion 3 2 underfullNode 25 =
      some (mk [3] [mk [1, 2] [] true, mk [10, 20] [] true] false, [Msg.keyMissing 25]) ∧
    deletionChecked 3 2 underfullNode 25 = none := by
  constructor <;> decide

/-- The assertion of `insertNonFullChecked` is effective: invoked on a full internal node,
the plain `insertNonFull` descends and returns while the checked one stops. -/
theorem insertNonFullChecked_detects :
    insertNonFull 2 2 fullInternalNode 7 =
      some (mk [10, 20, 30]
        [mk [5, 7] [] true, mk [15] [] true, mk [25] [] true, mk [35] [] true] false) ∧
    insertNonFullChecked 2 2 fullInternalNode 7 = none := by
  constructor <;> decide

end BTreeNode

namespace BTree

open BTreeNode

/-- Claim C13 (delete never underflows a node).  For `t ≥ 2`, a well-formed tree and any
key `k`: `deletion(k)` computes the same result when every recursive call
`c->deletion(x)` first asserts that `c` holds at least `t` keys, so `BTreeNode::deletion`
(and with it `removeFromLeaf`) is only ever invoked on the root or on a node with at least
`t` keys; and the deletion returns. -/
theorem C13_deletion_never_underflows (T : BTree) (k : Int) (ht : 2 ≤ T.t)
    (hT : T.WellFormed) :
    T.deletionChecked k = T.deletion k ∧ ∃ T1 out, T.deletion k = some (T1, out) := by
  obtain ⟨r, hr, hwf⟩ := wellFormed_iff_root.1 hT
  obtain ⟨h, hb, hn1, _, _⟩ := BTreeNode.wellFormed_iff.1 hwf
  have ht2 : 2 ≤ T.t.toNat := by omega
  obtain ⟨_, _, out, T1, _, _, hdel, _⟩ := deletion_master T k ht hT
  refine ⟨?_, T1, out, hdel⟩
  simp only [deletionChecked, deletion, hr]
  rw [deletionChecked_eq ht2 _ h r k hb hn1]

/-- Witness of C13: `deletion(18)` on the tree built by `main`. -/
theorem C13_deletion_never_underflows_witness :
    2 ≤ mainTree.t ∧ mainTree.WellFormed ∧
    mainTree.deletionChecked 18 = mainTree.deletion 18 ∧
    ∃ T1 out, mainTree.deletion 18 = some (T1, out) :=
  ⟨by decide, by decide,
    C13_deletion_never_underflows mainTree 18 (by decide) (by decide)⟩

end BTree
